import Mathlib

/-!
Verification of the hymo mount-orchestrator core against its specification.

This file gives a shallow embedding, in Lean 4, of the parts of the hymo
C++ source that the specification's claims talk about:

* the longest-prefix rule-resolution fold of `generate_plan` /
  `update_hymofs_mappings` (src/core/planner.cpp),
* the overlay-coverage test `MountPlan::is_covered_by_overlay`,
* the HymoFS rule emitter `update_hymofs_mappings`,
* the overlay lowerdir string construction of `mount_overlay`
  (src/mount/overlay.cpp),
* the overlay planner `generate_plan`,
* the executor `execute_plan` with its Magic-Mount fallback
  (src/core/executor.cpp),
* the ext4 storage setup `setup_ext4_image` / `repair_image`
  (src/core/storage.cpp, src/utils.cpp),
* `HymoFS::check_status` with its cache (src/mount/hymofs.cpp),
* the runtime-state JSON writer/loader (src/core/state.cpp).

Filesystem and kernel interactions are modelled by explicit environment
records (`EmitEnv`, mount oracles, kernel version oracles); machine strings
are modelled as `List Char`; all definitions are executable.
-/

namespace Hymo

/-- Paths (and other C++ `std::string` values) are modelled as lists of
characters, so that byte-precise prefix and indexing logic of the source
can be mirrored exactly. -/
abbrev Path := List Char

/-- Convert a Lean string literal into the `Path` representation. -/
def toPath (s : String) : Path := s.data

/-- The prefix-with-boundary match used verbatim at
planner.cpp:183-187 (rule matching in `generate_plan`),
planner.cpp:380-384 (rule matching in `update_hymofs_mappings`) and
planner.cpp:20-27 (`MountPlan::is_covered_by_overlay`) /
planner.cpp:404-407 (inline coverage test):
`p == pre || (p.size() > pre.size() && p.compare(0, pre.size(), pre) == 0
&& p[pre.size()] == '/')`. -/
def prefixBoundaryMatch (pre p : Path) : Bool :=
  p == pre ||
    (decide (pre.length < p.length) && pre.isPrefixOf p &&
      (p.drop pre.length).head? == some '/')

/-- A per-path rule `(prefix, mode)` of a module (inventory.cpp
`parse_module_rules`, planner.hpp `Rule`). -/
structure Rule where
  path : Path
  mode : String
deriving Repr, DecidableEq

/-- The longest-prefix rule-resolution fold of planner.cpp:179-194 and
planner.cpp:378-390: starting from the module default mode and
`max_len = 0`, each rule that matches the path and whose prefix is strictly
longer than the current maximum replaces the mode. -/
def resolveModePair (rules : List Rule) (dflt : String) (p : Path) :
    String × Nat :=
  rules.foldl
    (fun acc r =>
      if prefixBoundaryMatch r.path p && decide (acc.2 < r.path.length) then
        (r.mode, r.path.length)
      else acc)
    (dflt, 0)

/-- The effective mode for a path: first component of the fold. -/
def resolveMode (rules : List Rule) (dflt : String) (p : Path) : String :=
  (resolveModePair rules dflt p).1

/-- Concrete rule list used by the C2 witness: one short prefix and two
equally long longer prefixes with different modes. -/
def c2WitnessRules : List Rule :=
  [Rule.mk (toPath "/system") "overlay",
   Rule.mk (toPath "/system/lib") "magic",
   Rule.mk (toPath "/system/lib") "hymofs"]

/-! ### Kernel bridge status (src/mount/hymofs.cpp) -/

/-- Status reported by `HymoFS::check_status` (hymofs.hpp). -/
inductive HymoFSStatus where
  | Available
  | NotPresent
  | KernelTooOld
  | ModuleTooOld
deriving Repr, DecidableEq

/-- `HymoFS::EXPECTED_PROTOCOL_VERSION = HYMO_PROTOCOL_VERSION = 10`
(hymofs.hpp, hymo_magic.h). -/
def EXPECTED_PROTOCOL_VERSION : Int := 10

/-- The process-global cache behind `check_status`
(hymofs.cpp: `s_cached_status`, `s_status_checked`), plus a counter of
`get_protocol_version` calls so that the kernel can be modelled as an
oracle indexed by call number. -/
structure HymoCache where
  s_cached_status : HymoFSStatus
  s_status_checked : Bool
  calls : Nat
deriving Repr, DecidableEq

/-- Initial values of the statics (hymofs.cpp:14-15). -/
def initialHymoCache : HymoCache :=
  { s_cached_status := HymoFSStatus.NotPresent
    s_status_checked := false
    calls := 0 }

/-- `HymoFS::check_status` (hymofs.cpp:66-99). `kernel i` is the value
returned by the `i`-th `get_protocol_version` call (negative on failure,
as in hymofs.cpp:50-64). -/
def check_status (kernel : Nat → Int) (st : HymoCache) :
    HymoFSStatus × HymoCache :=
  if st.s_status_checked then
    (st.s_cached_status, st)
  else if kernel st.calls < 0 then
    (HymoFSStatus.NotPresent,
     { s_cached_status := HymoFSStatus.NotPresent, s_status_checked := true,
       calls := st.calls + 1 })
  else if kernel st.calls < EXPECTED_PROTOCOL_VERSION then
    (HymoFSStatus.KernelTooOld,
     { s_cached_status := HymoFSStatus.KernelTooOld, s_status_checked := true,
       calls := st.calls + 1 })
  else if EXPECTED_PROTOCOL_VERSION < kernel st.calls then
    (HymoFSStatus.ModuleTooOld,
     { s_cached_status := HymoFSStatus.ModuleTooOld, s_status_checked := true,
       calls := st.calls + 1 })
  else
    (HymoFSStatus.Available,
     { s_cached_status := HymoFSStatus.Available, s_status_checked := true,
       calls := st.calls + 1 })

/-- Environment for `setup_ext4_image`: whether the image file exists,
whether `createimg.sh` succeeds, the result of the `i`-th `mount_image`
attempt, and the `e2fsck` termination (`some code` if it exited, `none`
if it did not exit normally). -/
structure StorageEnv where
  image_exists : Bool
  create_ok : Bool
  mounts : Nat → Bool
  e2fsck_exit : Option Nat

/-- `repair_image` (utils.cpp:171-201): runs `e2fsck -y -f`; an exit code
of at most 2 counts as success; a non-exit counts as failure. -/
def repair_image (env : StorageEnv) : Bool :=
  match env.e2fsck_exit with
  | some code => decide (code ≤ 2)
  | none => false

/-- `setup_ext4_image` (storage.cpp:94-122). Returns the result
(`.ok "ext4"` or the thrown `runtime_error` message) paired with the
number of `mount_image` attempts that were made. -/
def setup_ext4_image (env : StorageEnv) : Except String String × Nat :=
  if !env.image_exists && !env.create_ok then
    (Except.error "Failed to create modules.img", 0)
  else if env.mounts 0 then
    (Except.ok "ext4", 1)
  else if repair_image env then
    if env.mounts 1 then
      (Except.ok "ext4", 2)
    else
      (Except.error "Failed to mount modules.img after repair", 2)
  else
    (Except.error "Failed to repair modules.img", 1)

/-- Concrete environment for the C5 witness: the image exists, the first
mount fails, `e2fsck` exits with code 1, the retry succeeds. -/
def c5WitnessEnv : StorageEnv :=
  { image_exists := true
    create_ok := true
    mounts := fun n => decide (n = 1)
    e2fsck_exit := some 1 }

/-! ### Module and plan data model (src/core/planner.hpp, inventory.hpp) -/

/-- The standard partitions of defs.hpp (`BUILTIN_PARTITIONS`). -/
def BUILTIN_PARTITIONS : List String :=
  ["system", "vendor", "product", "system_ext", "odm", "oem"]

/-- A module as used by the planner: identity, default mode, per-path
rules (inventory.hpp `Module`; content trees live in the filesystem
environment below, keyed by module id). -/
structure Module where
  id : Path
  mode : String
  rules : List Rule
deriving Repr, DecidableEq

/-- An overlay operation: canonicalized target plus ordered lowerdirs
(planner.hpp `OverlayOperation`, higher priority first). -/
structure OverlayOperation where
  target : Path
  lowerdirs : List Path
deriving Repr, DecidableEq

/-- The mount plan (planner.hpp `MountPlan`). -/
structure MountPlan where
  overlay_ops : List OverlayOperation
  magic_module_paths : List Path
  overlay_module_ids : List Path
  magic_module_ids : List Path
  hymofs_module_ids : List Path
deriving Repr, DecidableEq

/-- `MountPlan::is_covered_by_overlay` (planner.cpp:15-30): the path
equals some operation's target or extends it across a `/` boundary. -/
def is_covered_by_overlay (ops : List OverlayOperation) (p : Path) : Bool :=
  ops.any (fun op => prefixBoundaryMatch op.target p)

/-! ### HymoFS emitter (src/core/planner.cpp:298-506) -/

/-- `dirent.h` file-type discriminators used for kernel add rules. -/
def DT_UNKNOWN : Nat := 0

def DT_FIFO : Nat := 1

def DT_CHR : Nat := 2

def DT_DIR : Nat := 4

def DT_BLK : Nat := 6

def DT_REG : Nat := 8

def DT_LNK : Nat := 10

def DT_SOCK : Nat := 12

/-- The `std::filesystem::directory_entry` type predicates queried by the
emitter (`is_directory`, `is_regular_file` etc. follow symlinks;
`is_symlink` does not), plus the character-device numbers read by `stat`
for the whiteout test. -/
structure EntryInfo where
  is_directory : Bool
  is_regular_file : Bool
  is_symlink : Bool
  is_character_file : Bool
  is_block_file : Bool
  is_fifo : Bool
  is_socket : Bool
  rdev_major : Nat
  rdev_minor : Nat
deriving Repr, DecidableEq

/-- One entry yielded by a `recursive_directory_iterator` over a module
partition subtree, identified by its virtual path (`"/" + rel`) and its
type information.  A partition subtree is modelled as the list of its
entries in depth-first preorder, which is the order the iterator yields
them. -/
structure ModEntry where
  vpath : Path
  info : EntryInfo
deriving Repr, DecidableEq

/-- `struct AddRule` (planner.cpp:298-302). -/
structure AddRule where
  src : Path
  target : Path
  type : Nat
deriving Repr, DecidableEq

/-- The filesystem / kernel environment the planner and emitter run
against: module content trees under the staging root (per module id and
partition, in iterator preorder; `none` when `fs::exists(mod/part)` is
false), live-filesystem predicates, the two path-resolution helpers, and
kernel availability. -/
structure FsEnv where
  tree : Path → String → Option (List ModEntry)
  exists_ : Path → Bool
  is_directory : Path → Bool
  is_symlink : Path → Bool
  target_canon : Path → Path
  resolve : Path → Path
  hymo_use : Bool
  hymo_available : Bool

/-- Mutable state threaded through `update_hymofs_mappings`: the plan's
overlay operations (whose lowerdirs it may extend, planner.cpp:409-426)
and the three collected rule vectors (planner.cpp:318-320). -/
structure EmitState where
  ops : List OverlayOperation
  add_rules : List AddRule
  merge_rules : List AddRule
  hide_rules : List Path
deriving Repr, DecidableEq

/-- The overlay-coverage walk of planner.cpp:397-427: find the first
operation whose target covers the virtual path; when found and the target
is not the root, additionally append the corresponding in-module path
(`mod_path / target.substr(1)`) as a layer, unless already present or
missing on disk. -/
def coverCheck (env : FsEnv) (mod_path : Path) (vpath : Path) :
    List OverlayOperation → Bool × List OverlayOperation
  | [] => (false, [])
  | op :: rest =>
    if prefixBoundaryMatch op.target vpath then
      if 1 < op.target.length then
        let layer := mod_path ++ '/' :: op.target.drop 1
        if op.lowerdirs.contains layer || !(env.exists_ layer) then
          (true, op :: rest)
        else
          (true, { op with lowerdirs := op.lowerdirs ++ [layer] } :: rest)
      else (true, op :: rest)
    else
      let r := coverCheck env mod_path vpath rest
      (r.1, op :: r.2)

/-- The file-type discriminator chain of planner.cpp:456-470. -/
def entryType (i : EntryInfo) : Nat :=
  if i.is_regular_file then DT_REG
  else if i.is_symlink then DT_LNK
  else if i.is_directory then DT_DIR
  else if i.is_block_file then DT_BLK
  else if i.is_character_file then DT_CHR
  else if i.is_fifo then DT_FIFO
  else if i.is_socket then DT_SOCK
  else DT_UNKNOWN

/-- The per-entry body of the emitter walk (planner.cpp:372-485).
Returns the updated state and prune set (`disable_recursion_pending`
suppresses the descendants of a merged directory). -/
def processEntry (env : FsEnv) (rules : List Rule) (dmode : String)
    (mp : Path) (st : EmitState) (prunes : List Path) (e : ModEntry) :
    EmitState × List Path :=
  if resolveMode rules dmode e.vpath != "hymofs" &&
      resolveMode rules dmode e.vpath != "auto" then
    (st, prunes)
  else if (coverCheck env mp e.vpath st.ops).1 then
    ({ st with ops := (coverCheck env mp e.vpath st.ops).2 }, prunes)
  else if e.info.is_directory &&
      (env.exists_ (env.resolve e.vpath) &&
       env.is_directory (env.resolve e.vpath)) then
    ({ st with
        ops := (coverCheck env mp e.vpath st.ops).2,
        merge_rules := st.merge_rules ++
          [AddRule.mk (env.resolve e.vpath) (mp ++ e.vpath) DT_DIR] },
     prunes ++ [e.vpath])
  else if e.info.is_regular_file || e.info.is_symlink then
    if e.info.is_symlink &&
        (env.exists_ e.vpath && env.is_directory e.vpath) then
      ({ st with ops := (coverCheck env mp e.vpath st.ops).2 }, prunes)
    else
      ({ st with
          ops := (coverCheck env mp e.vpath st.ops).2,
          add_rules := st.add_rules ++
            [AddRule.mk (env.resolve e.vpath) (mp ++ e.vpath)
              (entryType e.info)] },
       prunes)
  else if e.info.is_character_file then
    if e.info.rdev_major == 0 && e.info.rdev_minor == 0 then
      ({ st with
          ops := (coverCheck env mp e.vpath st.ops).2,
          hide_rules := st.hide_rules ++ [env.resolve e.vpath] },
       prunes)
    else
      ({ st with ops := (coverCheck env mp e.vpath st.ops).2 }, prunes)
  else
    ({ st with ops := (coverCheck env mp e.vpath st.ops).2 }, prunes)

/-- Whether an entry is a strict descendant of a pruned directory (and is
therefore never yielded by the iterator after
`disable_recursion_pending`). -/
def pruned (prunes : List Path) (v : Path) : Bool :=
  prunes.any (fun p => prefixBoundaryMatch p v && decide (p.length < v.length))

/-- One partition subtree walk (the `recursive_directory_iterator` loop of
planner.cpp:370-486), with a fresh prune set. -/
def partitionWalk (env : FsEnv) (rules : List Rule) (dmode : String)
    (mp : Path) (st : EmitState) (entries : List ModEntry) : EmitState :=
  (entries.foldl
    (fun acc e =>
      if pruned acc.2 e.vpath then acc
      else processEntry env rules dmode mp acc.1 acc.2 e)
    (st, [])).1

/-- The body of the partition loop of planner.cpp:364-491: skip a
partition whose subtree does not exist, otherwise walk it. -/
def modulePartStep (env : FsEnv) (m : Module) (storage_root : Path)
    (st : EmitState) (part : String) : EmitState :=
  match env.tree m.id part with
  | none => st
  | some entries =>
    partitionWalk env m.rules
      (if m.mode == "auto" then "hymofs" else m.mode)
      (storage_root ++ '/' :: m.id) st entries

/-- The per-module walk of planner.cpp:356-491: partition subtrees of the
module under the staging root, in target-partition order; the default
mode is the module mode with `auto` meaning `hymofs` here
(planner.cpp:359-362). -/
def moduleWalk (env : FsEnv) (m : Module) (storage_root : Path)
    (parts : List String) (st : EmitState) : EmitState :=
  parts.foldl (modulePartStep env m storage_root) st

/-- Kernel bridge calls made by the emitter, in order. -/
inductive KernelCall where
  | clear
  | add (src target : Path) (type : Nat)
  | merge (src target : Path)
  | hide (p : Path)
deriving Repr, DecidableEq

/-- The explicit `hide`-rule collection of planner.cpp:322-339 (forward
module order, HymoFS-marked modules only). -/
def emitHides0 (env : FsEnv) (modules : List Module) (plan : MountPlan) :
    List Path :=
  modules.foldl
    (fun acc m =>
      if plan.hymofs_module_ids.contains m.id then
        acc ++ (m.rules.filter (fun r => r.mode == "hide")).map
          (fun r => env.resolve r.path)
      else acc)
    []

/-- The rule-collection phase of `update_hymofs_mappings`
(planner.cpp:313-492): starting from the plan's overlay operations and
the explicit hide rules, walk the HymoFS-marked modules in reverse
priority order (planner.cpp:343). -/
def emitCollect (env : FsEnv) (partitions : List String)
    (modules : List Module) (storage_root : Path) (plan : MountPlan) :
    EmitState :=
  modules.reverse.foldl
    (fun st m =>
      if plan.hymofs_module_ids.contains m.id then
        moduleWalk env m storage_root (BUILTIN_PARTITIONS ++ partitions) st
      else st)
    (EmitState.mk plan.overlay_ops [] [] (emitHides0 env modules plan))

/-- `update_hymofs_mappings` (planner.cpp:304-506): bail out unless
HymoFS is available; clear the kernel rules; collect rules (extending
covered overlay operations); finally apply all adds, then all merges,
then all hides.  Returns the updated plan and the kernel call trace. -/
def updateHymofsMappings (env : FsEnv) (partitions : List String)
    (modules : List Module) (storage_root : Path) (plan : MountPlan) :
    MountPlan × List KernelCall :=
  if !env.hymo_available then (plan, [])
  else
    ({ plan with
        overlay_ops :=
          (emitCollect env partitions modules storage_root plan).ops },
     KernelCall.clear ::
       ((emitCollect env partitions modules storage_root plan).add_rules.map
          (fun r => KernelCall.add r.src r.target r.type) ++
        (emitCollect env partitions modules storage_root
            plan).merge_rules.map
          (fun r => KernelCall.merge r.src r.target) ++
        (emitCollect env partitions modules storage_root
            plan).hide_rules.map KernelCall.hide))

/-- Concrete inputs for the C1 counterexample: one overlay operation on
`/a`; one HymoFS-marked module `m` whose staged tree holds the single
regular file `system/f`; a live filesystem in which
`resolve_path_for_hymofs` rewrites `/system/f` to `/a/f` (as happens when
an ancestor directory of the virtual path is a symlink into `/a`). -/
def c1Env : FsEnv :=
  { tree := fun id part =>
      if id == toPath "m" && part == "system" then
        some [ModEntry.mk (toPath "/system/f")
          (EntryInfo.mk false true false false false false false 0 0)]
      else none
    exists_ := fun _ => false
    is_directory := fun _ => false
    is_symlink := fun _ => false
    target_canon := fun p => p
    resolve := fun p => if p == toPath "/system/f" then toPath "/a/f" else p
    hymo_use := true
    hymo_available := true }

/-- The module of the C1 counterexample. -/
def c1Module : Module := Module.mk (toPath "m") "hymofs" []

/-- The plan of the C1 counterexample: one overlay operation targeting
`/a`, module `m` marked for HymoFS. -/
def c1Plan : MountPlan :=
  MountPlan.mk [OverlayOperation.mk (toPath "/a") []] [] [] [] [toPath "m"]

/-- The same environment with identity path resolution (no symlinked
ancestors on the live filesystem), used by the C1 and C6 witnesses. -/
def c1WitnessEnv : FsEnv :=
  { c1Env with resolve := fun p => p }

/-- Concrete symlink entry for the C7 witness. -/
def c7Entry : ModEntry :=
  ModEntry.mk (toPath "/system/l")
    (EntryInfo.mk false false true false false false false 0 0)

/-- Concrete environment for the C7 witness: the entry virtual path
exists as a directory on the live root. -/
def c7Env : FsEnv :=
  { tree := fun _ _ => none
    exists_ := fun _ => true
    is_directory := fun _ => true
    is_symlink := fun _ => true
    target_canon := fun p => p
    resolve := fun p => p
    hymo_use := true
    hymo_available := true }

/-! ### Executor (src/core/executor.cpp) -/

/-- Split a list at the first occurrence of `c`: `l = a ++ c :: b` with
`c ∉ a`. -/
def revSplitFirst (c : Char) : List Char → Option (List Char × List Char)
  | [] => none
  | x :: xs =>
    if x = c then some ([], xs)
    else
      match revSplitFirst c xs with
      | none => none
      | some (a, b) => some (x :: a, b)

/-- `fs::path::filename`: the component after the last `/` (the whole
path when it has no `/`). -/
def fileName (p : Path) : Path :=
  match revSplitFirst '/' p.reverse with
  | none => p
  | some (aRev, _) => aRev.reverse

/-- `fs::path::parent_path`: everything before the last `/`, which for a
path directly under the root is `/` itself; empty when the path has no
parent. -/
def parentPath (p : Path) : Path :=
  match revSplitFirst '/' p.reverse with
  | none => []
  | some (_, bRev) => if bRev = [] then toPath "/" else bRev.reverse

/-- `extract_module_root` (executor.cpp:18-23): the layer's parent
directory, or empty when the layer has no parent. -/
def extract_module_root (p : Path) : Path := parentPath p

/-- `extract_id` (executor.cpp:11-16): the basename of the layer's
parent directory, or empty when the layer has no parent. -/
def extract_id (p : Path) : Path :=
  if parentPath p ≠ [] then fileName (parentPath p) else []

/-- Byte-lexicographic strict comparison of paths (the `<` of
`std::sort`/`std::set` on these strings). -/
def lexLt : Path → Path → Bool
  | [], [] => false
  | [], _ :: _ => true
  | _ :: _, [] => false
  | a :: as, b :: bs =>
    if a < b then true else if b < a then false else lexLt as bs

/-- Insert into a sorted list (kernel of `std::sort` modelled as
insertion sort; the sorted result is what matters). -/
def insortBy (x : Path) : List Path → List Path
  | [] => [x]
  | y :: ys => if lexLt x y then x :: y :: ys else y :: insortBy x ys

/-- `std::sort` on paths (ascending byte-lexicographic). -/
def sortPaths : List Path → List Path
  | [] => []
  | x :: xs => insortBy x (sortPaths xs)

/-- Tail worker of `std::unique`: drop elements equal to the previous
kept element. -/
def uniqueAdjAux (prev : Path) : List Path → List Path
  | [] => []
  | b :: t =>
    if prev = b then uniqueAdjAux prev t else b :: uniqueAdjAux b t

/-- `std::unique` + `erase`: drop adjacent duplicates. -/
def uniqueAdj : List Path → List Path
  | [] => []
  | a :: t => a :: uniqueAdjAux a t

/-- `struct ExecutionResult` (executor.hpp). -/
structure ExecutionResult where
  overlay_module_ids : List Path
  magic_module_ids : List Path
deriving Repr, DecidableEq

/-- Environment for `execute_plan`: the result of the `i`-th
`mount_overlay` call and the result of the single `mount_partitions`
call. -/
structure ExecEnv where
  mount_ok : Nat → Bool
  magic_ok : Bool

/-- Observable mount actions of `execute_plan`, in order. -/
inductive ExecEvent where
  | overlayAttempt (target : Path) (ok : Bool)
  | magicRun (queue : List Path) (ok : Bool)
deriving Repr, DecidableEq

/-- State threaded through the overlay loop of executor.cpp:36-67. -/
structure ExecLoopSt where
  magic_queue : List Path
  fallback_ids : List Path
  events : List ExecEvent
deriving Repr, DecidableEq

/-- The fallback body of executor.cpp:56-65: queue every layer's parent
directory and record the parent's basename as a fallback id. -/
def fallbackFold (lowerdirs : List Path) (st : ExecLoopSt) : ExecLoopSt :=
  lowerdirs.foldl
    (fun st layer =>
      if extract_module_root layer ≠ [] then
        { st with
            magic_queue := st.magic_queue ++ [extract_module_root layer],
            fallback_ids :=
              if extract_id layer ≠ [] then
                st.fallback_ids ++ [extract_id layer]
              else st.fallback_ids }
      else st)
    st

/-- One iteration of the overlay loop of executor.cpp:36-67 for the op at
index `i`. -/
def overlayStep (env : ExecEnv) (st : ExecLoopSt) (iop : Nat × OverlayOperation) :
    ExecLoopSt :=
  if env.mount_ok iop.1 then
    { st with events := st.events ++
        [ExecEvent.overlayAttempt iop.2.target true] }
  else
    fallbackFold iop.2.lowerdirs
      { st with events := st.events ++
          [ExecEvent.overlayAttempt iop.2.target false] }

/-- The overlay loop of executor.cpp:30-67: start from the plan's magic
roots, attempt each indexed operation. -/
def execLoop (env : ExecEnv) (plan : MountPlan) : ExecLoopSt :=
  plan.overlay_ops.enum.foldl (overlayStep env)
    (ExecLoopSt.mk plan.magic_module_paths [] [])

/-- The deduplicated magic queue of executor.cpp:84-86. -/
def execQueue (env : ExecEnv) (plan : MountPlan) : List Path :=
  uniqueAdj (sortPaths (execLoop env plan).magic_queue)

/-- `execute_plan` (executor.cpp:25-127): attempt every overlay
operation; on failure queue each layer's parent for Magic Mount and
record the fallback ids; filter the overlay id list; sort and
deduplicate the magic queue; run the magic phase once if the queue is
nonempty (its ids are the queue entries' basenames, cleared if the magic
mount fails); sort and deduplicate both id lists.  Returns the result
and the ordered mount actions. -/
def execute_plan (env : ExecEnv) (plan : MountPlan) :
    ExecutionResult × List ExecEvent :=
  (ExecutionResult.mk
    (uniqueAdj (sortPaths
      (if (execLoop env plan).fallback_ids ≠ [] then
        plan.overlay_module_ids.filter
          (fun id => !((execLoop env plan).fallback_ids.contains id))
      else plan.overlay_module_ids)))
    (uniqueAdj (sortPaths
      (if execQueue env plan ≠ [] then
        (if env.magic_ok then
          (execQueue env plan).foldl
            (fun acc p =>
              if fileName p ≠ [] then acc ++ [fileName p] else acc)
            []
        else [])
      else []))),
   if execQueue env plan ≠ [] then
     (execLoop env plan).events ++
       [ExecEvent.magicRun (execQueue env plan) env.magic_ok]
   else (execLoop env plan).events)

/-- Concrete inputs for the C4 counterexample: module `M` contributed the
layer `/d/M/system/lib` (an exact-rule overlay at `/system/lib`); the
mount fails. -/
def c4Plan : MountPlan :=
  MountPlan.mk
    [OverlayOperation.mk (toPath "/system/lib") [toPath "/d/M/system/lib"]]
    [] [toPath "M"] [] []

/-- Environment for the C4 counterexample and witness: every overlay
mount fails, the magic mount succeeds. -/
def c4Env : ExecEnv := ExecEnv.mk (fun _ => false) true

/-! ### Overlay lowerdir string (src/mount/overlay.cpp:360-366) -/

/-- The colon-separated lowerdir string of `mount_overlay`
(overlay.cpp:360-366): every module root followed by `:`, then the
mirror path as the last entry. -/
def lowerdir_config : List Path → Path → Path
  | [], mirror => mirror
  | r :: rs, mirror => r ++ ':' :: lowerdir_config rs mirror

/-- Prepend a character to the first piece of a split result. -/
def consHead (c : Char) : List Path → List Path
  | [] => [[c]]
  | h :: r => (c :: h) :: r

/-- Split a string at `:` separators (to read the lowerdir stack back
off the option string). -/
def splitColon : Path → List Path
  | [] => [[]]
  | c :: t =>
    if c = ':' then [] :: splitColon t
    else consHead c (splitColon t)

/-! ### Overlay planner `generate_plan` (src/core/planner.cpp:98-296) -/

/-- Lookup in the `std::map<std::string, std::vector<fs::path>>` of
overlay layers. -/
def mapLookup (k : Path) : List (Path × List Path) → Option (List Path)
  | [] => none
  | kv :: rest => if k = kv.1 then some kv.2 else mapLookup k rest

/-- `overlay_layers[target].push_back(layer)`: append to the target's
layer vector, creating the (key-sorted, as in `std::map`) entry when
absent. -/
def mapAppend (k v : Path) : List (Path × List Path) →
    List (Path × List Path)
  | [] => [(k, [v])]
  | kv :: rest =>
    if k = kv.1 then (kv.1, kv.2 ++ [v]) :: rest
    else if lexLt k kv.1 then (k, [v]) :: kv :: rest
    else kv :: mapAppend k v rest

/-- `std::set` insertion, keeping a sorted duplicate-free list. -/
def setInsertPath (x : Path) : List Path → List Path
  | [] => [x]
  | y :: ys =>
    if x = y then y :: ys
    else if lexLt x y then x :: y :: ys
    else y :: setInsertPath x ys

/-- `has_meaningful_content` (planner.cpp:47-56): some target partition
subtree exists and has at least one entry
(`fs::exists(p) && has_files(p)`, planner.cpp:32-45). -/
def module_has_content (env : FsEnv) (id : Path)
    (parts : List String) : Bool :=
  parts.any (fun part =>
    match env.tree id part with
    | some es => !es.isEmpty
    | none => false)

/-- The `rule_found` flag of planner.cpp:181-193: some rule matched and
won the fold (its prefix length became the positive maximum). -/
def ruleFound (rules : List Rule) (dflt : String) (p : Path) : Bool :=
  decide (0 < (resolveModePair rules dflt p).2)

/-- The exact-rule tests of planner.cpp:201-207 and 219-225. -/
def hasExactRule (rules : List Rule) (p : Path) (mode : String) : Bool :=
  rules.any (fun r => r.path == p && r.mode == mode)

/-- The planner accumulator: the per-target overlay layer map
(`std::map`), the magic path set, the per-backend id sets, and the
HymoFS id list (in module order). -/
structure GpState where
  overlay_layers : List (Path × List Path)
  magic_paths : List Path
  overlay_ids : List Path
  magic_ids : List Path
  hymofs_ids : List Path
deriving Repr, DecidableEq

/-- Per-module accumulator of the rules case (planner.cpp:165-168):
the flags `hymofs_active`, `overlay_active`, `magic_active`. -/
structure GpModuleAcc where
  st : GpState
  hymofs_active : Bool
  overlay_active : Bool
  magic_active : Bool
deriving Repr, DecidableEq

/-- The per-entry body of the rules case (planner.cpp:175-238). -/
def gpEntryStep (rules : List Rule) (dflt : String) (content_path : Path)
    (part : String) (acc : GpModuleAcc) (e : ModEntry) : GpModuleAcc :=
  if resolveMode rules dflt e.vpath == "none" then acc
  else
    let acc1 :=
      if e.info.is_directory then
        if resolveMode rules dflt e.vpath == "overlay" then
          if hasExactRule rules e.vpath "overlay" then
            { acc with
                st :=
                  { acc.st with
                      overlay_layers :=
                        mapAppend e.vpath (content_path ++ e.vpath)
                          acc.st.overlay_layers },
                overlay_active := true }
          else if !(ruleFound rules dflt e.vpath) && dflt == "overlay" &&
              e.vpath == '/' :: part.data then
            { acc with
                st :=
                  { acc.st with
                      overlay_layers :=
                        mapAppend ('/' :: part.data)
                          (content_path ++ e.vpath)
                          acc.st.overlay_layers },
                overlay_active := true }
          else acc
        else if resolveMode rules dflt e.vpath == "magic" then
          if hasExactRule rules e.vpath "magic" then
            { acc with
                st :=
                  { acc.st with
                      magic_paths :=
                        setInsertPath (content_path ++ e.vpath)
                          acc.st.magic_paths },
                magic_active := true }
          else acc
        else acc
      else acc
    if resolveMode rules dflt e.vpath == "hymofs" then
      { acc1 with hymofs_active := true }
    else acc1

/-- The per-partition loop of the rules case (planner.cpp:170-239). -/
def gpPartStep (env : FsEnv) (rules : List Rule) (dflt : String)
    (content_path id : Path) (acc : GpModuleAcc) (part : String) :
    GpModuleAcc :=
  match env.tree id part with
  | none => acc
  | some es => es.foldl (gpEntryStep rules dflt content_path part) acc

/-- One partition of the no-rules overlay branch (planner.cpp:151-161):
push a non-empty partition subtree as a layer for `/partition`. -/
def gpNoRulesStep (env : FsEnv) (content_path id : Path)
    (acc : GpState × Bool) (part : String) : GpState × Bool :=
  match env.tree id part with
  | some es =>
    if !es.isEmpty then
      ({ acc.1 with
          overlay_layers :=
            mapAppend ('/' :: part.data)
              (content_path ++ '/' :: part.data)
              acc.1.overlay_layers },
       true)
    else acc
  | none => acc

/-- The no-rules overlay branch (planner.cpp:150-162): push each
non-empty partition subtree as a layer for `/partition`. -/
def gpNoRulesOverlay (env : FsEnv) (content_path id : Path)
    (parts : List String) (st : GpState) : GpState × Bool :=
  parts.foldl (gpNoRulesStep env content_path id) (st, false)

/-- The per-module epilogue of the rules case (planner.cpp:241-262):
the ambiguous default-magic root insertion, then the id bookkeeping. -/
def gpModuleFinish (m : Module) (content_path : Path)
    (acc : GpModuleAcc) (dflt : String) : GpState :=
  let st2 :=
    if dflt == "magic" && !acc.magic_active then
      { acc.st with
          magic_paths := setInsertPath content_path acc.st.magic_paths,
          magic_ids := setInsertPath m.id acc.st.magic_ids }
    else acc.st
  let st3 :=
    if acc.hymofs_active then
      { st2 with hymofs_ids := st2.hymofs_ids ++ [m.id] }
    else st2
  if acc.overlay_active then
    { st3 with overlay_ids := setInsertPath m.id st3.overlay_ids }
  else st3

/-- One module of the planner loop (planner.cpp:119-263). -/
def gpModuleStep (env : FsEnv) (sr : Path) (parts : List String)
    (st : GpState) (m : Module) : GpState :=
  if !(env.exists_ (sr ++ '/' :: m.id)) then st
  else if !(module_has_content env m.id parts) then st
  else if m.rules.isEmpty then
    if (if m.mode == "auto"
        then (if env.hymo_use then "hymofs" else "overlay")
        else m.mode) == "none" then st
    else if (if m.mode == "auto"
        then (if env.hymo_use then "hymofs" else "overlay")
        else m.mode) == "magic" then
      { st with
          magic_paths := setInsertPath (sr ++ '/' :: m.id) st.magic_paths,
          magic_ids := setInsertPath m.id st.magic_ids }
    else if env.hymo_use &&
        !((if m.mode == "auto"
            then (if env.hymo_use then "hymofs" else "overlay")
            else m.mode) == "overlay") then
      { st with hymofs_ids := st.hymofs_ids ++ [m.id] }
    else
      if (gpNoRulesOverlay env (sr ++ '/' :: m.id) m.id parts st).2 then
        { (gpNoRulesOverlay env (sr ++ '/' :: m.id) m.id parts st).1 with
            overlay_ids := setInsertPath m.id
              (gpNoRulesOverlay env (sr ++ '/' :: m.id) m.id
                parts st).1.overlay_ids }
      else (gpNoRulesOverlay env (sr ++ '/' :: m.id) m.id parts st).1
  else
    gpModuleFinish m (sr ++ '/' :: m.id)
      (parts.foldl
        (gpPartStep env m.rules
          (if m.mode == "auto"
            then (if env.hymo_use then "hymofs" else "overlay")
            else m.mode)
          (sr ++ '/' :: m.id) m.id)
        (GpModuleAcc.mk st false false false))
      (if m.mode == "auto"
        then (if env.hymo_use then "hymofs" else "overlay")
        else m.mode)

/-- The module fold of `generate_plan`. -/
def gpCollect (env : FsEnv) (partitions : List String)
    (modules : List Module) (storage_root : Path) : GpState :=
  modules.foldl
    (gpModuleStep env storage_root (BUILTIN_PARTITIONS ++ partitions))
    (GpState.mk [] [] [] [] [])

/-- The overlay-operation construction of planner.cpp:266-289: iterate
the layer map (in `std::map` key order), resolve a symlinked target,
and keep targets that exist as directories. -/
def gpOpStep (env : FsEnv) (acc : List OverlayOperation)
    (kv : Path × List Path) : List OverlayOperation :=
  if kv.2.isEmpty then acc
  else
    if env.exists_
          (if env.is_symlink kv.1 then env.target_canon kv.1
            else kv.1) &&
        env.is_directory
          (if env.is_symlink kv.1 then env.target_canon kv.1
            else kv.1) then
      acc ++ [OverlayOperation.mk
        (if env.is_symlink kv.1 then env.target_canon kv.1 else kv.1)
        kv.2]
    else acc

def gpOps (env : FsEnv) (layers : List (Path × List Path)) :
    List OverlayOperation :=
  layers.foldl (gpOpStep env) []

/-- `generate_plan` (planner.cpp:98-296). -/
def generate_plan (env : FsEnv) (partitions : List String)
    (modules : List Module) (storage_root : Path) : MountPlan :=
  MountPlan.mk
    (gpOps env (gpCollect env partitions modules storage_root).overlay_layers)
    (gpCollect env partitions modules storage_root).magic_paths
    (gpCollect env partitions modules storage_root).overlay_ids
    (gpCollect env partitions modules storage_root).magic_ids
    (gpCollect env partitions modules storage_root).hymofs_ids

/-- Concrete inputs for the C3 counterexample: module `B` (higher
priority, HymoFS mode) and module `A` (lower priority, overlay mode),
both with a file under `system`; the target `/system` exists as a
directory on the live root. -/
def c3Env : FsEnv :=
  { tree := fun id part =>
      if (id == toPath "A" || id == toPath "B") && part == "system" then
        some [ModEntry.mk (toPath "/system/f")
          (EntryInfo.mk false true false false false false false 0 0)]
      else none
    exists_ := fun _ => true
    is_directory := fun _ => true
    is_symlink := fun _ => false
    target_canon := fun p => p
    resolve := fun p => p
    hymo_use := true
    hymo_available := true }

/-- The C3 counterexample modules, sorted by id descending (Z→A):
`B` before `A`, so `B` has the higher priority. -/
def c3Modules : List Module :=
  [Module.mk (toPath "B") "hymofs" [], Module.mk (toPath "A") "overlay" []]
end Hymo

namespace Hymo

/-! ### Rule resolution: characterization (claims C2, C8) -/

/-- Helper for the C2 proof: the second component of the fold is the
maximum matched prefix length seen so far. -/
theorem resolveModePair_snd_mono (rules : List Rule)
    (p : Path) (m : String) (l : Nat) :
    l ≤ (rules.foldl
      (fun acc r =>
        if prefixBoundaryMatch r.path p && decide (acc.2 < r.path.length) then
          (r.mode, r.path.length)
        else acc) (m, l)).2 := by
  induction rules generalizing m l with
  | nil => simp
  | cons r rs ih =>
    simp only [List.foldl_cons]
    by_cases h : (prefixBoundaryMatch r.path p &&
        decide (l < r.path.length)) = true
    · simp only [h, if_pos]
      have := ih r.mode r.path.length
      have hl : l < r.path.length := by
        simp only [Bool.and_eq_true, decide_eq_true_eq] at h
        exact h.2
      omega
    · simp only [h]
      simpa using ih m l

/-- Helper: a fold step with a non-matching or not-longer rule leaves the
accumulator unchanged. -/
theorem resolveModePair_generalized (rules : List Rule) (p : Path)
    (m : String) (l : Nat) :

    (∀ r ∈ rules, prefixBoundaryMatch r.path p = true →
        r.path.length ≤ l) →
    (rules.foldl
      (fun acc r =>
        if prefixBoundaryMatch r.path p && decide (acc.2 < r.path.length) then
          (r.mode, r.path.length)
        else acc) (m, l)) = (m, l) := by
  induction rules with
  | nil => intro _; rfl
  | cons r rs ih =>
    intro h
    simp only [List.foldl_cons]
    have hr := h r (by simp)
    by_cases hm : prefixBoundaryMatch r.path p = true
    · have : ¬ (l < r.path.length) := by
        have := hr hm; omega
      simp only [hm, true_and, decide_eq_true_eq]
      rw [if_neg (by simpa using this)]
      exact ih (fun r' hr' => h r' (by simp [hr']))
    · rw [if_neg (by simp only [Bool.and_eq_true]; exact fun hc => hm hc.1)]
      exact ih (fun r' hr' => h r' (by simp [hr']))

/-- Helper: if some rule matches with prefix longer than the running
maximum, the fold ends at the first matching rule attaining the overall
maximal prefix length. -/
theorem resolveFold_wins (rules : List Rule) (p : Path) (m : String) (l : Nat)
    (hex : ∃ r ∈ rules, prefixBoundaryMatch r.path p = true ∧
      l < r.path.length) :
    ∃ pre r post, rules = pre ++ r :: post ∧
      prefixBoundaryMatch r.path p = true ∧ l < r.path.length ∧
      (rules.foldl
        (fun acc r =>
          if prefixBoundaryMatch r.path p &&
              decide (acc.2 < r.path.length) then
            (r.mode, r.path.length)
          else acc) (m, l)) = (r.mode, r.path.length) ∧
      (∀ r' ∈ rules, prefixBoundaryMatch r'.path p = true →
        r'.path.length ≤ r.path.length) ∧
      (∀ r' ∈ pre, prefixBoundaryMatch r'.path p = true →
        r'.path.length < r.path.length) := by
  induction rules generalizing m l with
  | nil => simp at hex
  | cons r rs ih =>
    by_cases hr : prefixBoundaryMatch r.path p = true ∧ l < r.path.length
    · -- the head rule is taken by the fold step
      by_cases hrest : ∃ r' ∈ rs, prefixBoundaryMatch r'.path p = true ∧
          r.path.length < r'.path.length
      · obtain ⟨pre, w, post, hsplit, hwm, hwl, hfold, hmax, hpre⟩ :=
          ih r.mode r.path.length hrest
        refine ⟨r :: pre, w, post, by simp [hsplit], hwm,
          Nat.lt_trans hr.2 hwl, ?_, ?_, ?_⟩
        · simp only [List.foldl_cons]
          rw [if_pos (by simp [hr.1, hr.2])]
          exact hfold
        · intro r' hr' hm'
          rcases List.mem_cons.mp hr' with h | h
          · subst h; exact Nat.le_of_lt hwl
          · exact hmax r' h hm'
        · intro r' hr' hm'
          rcases List.mem_cons.mp hr' with h | h
          · subst h; exact hwl
          · exact hpre r' h hm'
      · push_neg at hrest
        refine ⟨[], r, rs, rfl, hr.1, hr.2, ?_, ?_, by simp⟩
        · simp only [List.foldl_cons]
          rw [if_pos (by simp [hr.1, hr.2])]
          exact resolveModePair_generalized rs p r.mode r.path.length
            (fun r' hr' hm' => hrest r' hr' hm')
        · intro r' hr' hm'
          rcases List.mem_cons.mp hr' with h | h
          · subst h; exact Nat.le_refl _
          · exact hrest r' h hm'
    · -- the head rule leaves the accumulator unchanged
      have hwit : ∃ r' ∈ rs, prefixBoundaryMatch r'.path p = true ∧
          l < r'.path.length := by
        obtain ⟨w, hw, hwm, hwl⟩ := hex
        rcases List.mem_cons.mp hw with h | h
        · exact absurd ⟨h ▸ hwm, h ▸ hwl⟩ hr
        · exact ⟨w, h, hwm, hwl⟩
      obtain ⟨pre, w, post, hsplit, hwm, hwl, hfold, hmax, hpre⟩ :=
        ih m l hwit
      refine ⟨r :: pre, w, post, by simp [hsplit], hwm, hwl, ?_, ?_, ?_⟩
      · simp only [List.foldl_cons]
        rw [if_neg (by
          simp only [Bool.and_eq_true, decide_eq_true_eq]
          exact fun hc => hr hc)]
        exact hfold
      · intro r' hr' hm'
        rcases List.mem_cons.mp hr' with h | h
        · rw [h] at hm' ⊢
          have hnl : ¬ l < r.path.length := fun hlt => hr ⟨hm', hlt⟩
          omega
        · exact hmax r' h hm'
      · intro r' hr' hm'
        rcases List.mem_cons.mp hr' with h | h
        · rw [h] at hm' ⊢
          have hnl : ¬ l < r.path.length := fun hlt => hr ⟨hm', hlt⟩
          omega
        · exact hpre r' h hm'

/-- C2 — Rule resolution: for every module whose rule prefixes are genuine
paths (nonempty, as the data model's virtual paths are) and every entry
path `P`, the mode computed by the resolution fold of
planner.cpp:179-194 / 378-390 is: the module default when no rule matches
(a rule matches iff `P` equals its prefix or extends it across a `/`
boundary), and otherwise the mode of the earliest rule attaining the
maximal matching prefix length — longest prefix wins, and among equally
long matches the earliest-inserted rule wins. -/
theorem C2_rule_resolution (rules : List Rule) (dflt : String) (p : Path)
    (hne : ∀ r ∈ rules, 0 < r.path.length) :
    ((∀ r ∈ rules, prefixBoundaryMatch r.path p = false) →
      resolveMode rules dflt p = dflt)
    ∧ ((∃ r ∈ rules, prefixBoundaryMatch r.path p = true) →
      ∃ pre r post, rules = pre ++ r :: post ∧
        prefixBoundaryMatch r.path p = true ∧
        resolveMode rules dflt p = r.mode ∧
        (∀ r' ∈ rules, prefixBoundaryMatch r'.path p = true →
          r'.path.length ≤ r.path.length) ∧
        (∀ r' ∈ pre, prefixBoundaryMatch r'.path p = true →
          r'.path.length < r.path.length)) := by
  constructor
  · intro hnone
    have := resolveModePair_generalized rules p dflt 0
      (fun r hr hm => absurd hm (by simp [hnone r hr]))
    simp only [resolveMode, resolveModePair, this]
  · intro hex
    obtain ⟨w, hw, hwm⟩ := hex
    obtain ⟨pre, r, post, hsplit, hrm, _, hfold, hmax, hpre⟩ :=
      resolveFold_wins rules p dflt 0 ⟨w, hw, hwm, hne w hw⟩
    exact ⟨pre, r, post, hsplit, hrm,
      by simp only [resolveMode, resolveModePair, hfold], hmax, hpre⟩

/-- Witness for C2 at concrete input: rules
`[("/system", overlay), ("/system/lib", magic), ("/system/lib", hymofs)]`
(all with nonempty prefixes) on path `/system/lib/a`. -/
theorem C2_rule_resolution_witness :
    (∀ r ∈ c2WitnessRules, 0 < r.path.length) ∧
    (((∀ r ∈ c2WitnessRules,
        prefixBoundaryMatch r.path (toPath "/system/lib/a") = false) →
      resolveMode c2WitnessRules "auto" (toPath "/system/lib/a") = "auto")
    ∧ ((∃ r ∈ c2WitnessRules,
        prefixBoundaryMatch r.path (toPath "/system/lib/a") = true) →
      ∃ pre r post, c2WitnessRules = pre ++ r :: post ∧
        prefixBoundaryMatch r.path (toPath "/system/lib/a") = true ∧
        resolveMode c2WitnessRules "auto" (toPath "/system/lib/a") = r.mode ∧
        (∀ r' ∈ c2WitnessRules,
          prefixBoundaryMatch r'.path (toPath "/system/lib/a") = true →
          r'.path.length ≤ r.path.length) ∧
        (∀ r' ∈ pre,
          prefixBoundaryMatch r'.path (toPath "/system/lib/a") = true →
          r'.path.length < r.path.length))) :=
  ⟨by decide,
   C2_rule_resolution c2WitnessRules "auto" (toPath "/system/lib/a")
     (by decide)⟩

/-- C8 counterexample — a rule with prefix `"/"` does *not* match the
entry path `/system`: the boundary check requires the character right
after the prefix to be `/`, and for prefix `"/"` that character is the
`s` of `system`. -/
theorem C8_root_rule_counterexample :
    prefixBoundaryMatch (toPath "/") (toPath "/system") = false := by
  decide

/-- C8 amended — a rule with prefix `"/"` matches an entry path `p` iff
`p` is exactly `"/"` or starts with two slashes; it is not a universal
longest-prefix base case, since module entry paths have the form
`/partition/...` with a non-slash second character. -/
theorem C8_root_rule_matches :
    ∀ p : Path, prefixBoundaryMatch (toPath "/") p = true ↔
      (p = toPath "/" ∨ toPath "//" <+: p) := by
  intro p
  have h0 : toPath "/" = ['/'] := by decide
  have h1 : toPath "//" = ['/', '/'] := by decide
  rw [h0, h1]
  simp only [prefixBoundaryMatch, Bool.or_eq_true, Bool.and_eq_true,
    beq_iff_eq, decide_eq_true_eq, List.isPrefixOf_iff_prefix]
  constructor
  · rintro (h | ⟨⟨hlen, hpre⟩, hhead⟩)
    · exact Or.inl h
    · right
      obtain ⟨t, rfl⟩ := hpre
      cases t with
      | nil => simp at hlen
      | cons c t' =>
        simp at hhead
        subst hhead
        exact ⟨t', by simp⟩
  · rintro (rfl | ⟨t, rfl⟩)
    · exact Or.inl rfl
    · refine Or.inr ⟨⟨by simp, ⟨'/' :: t, rfl⟩⟩, by simp⟩

end Hymo

namespace Hymo

/-! ### C9 — status classification and caching -/

/-- Helper: a call on an already-checked cache returns the cached status
and leaves the state unchanged. -/
theorem check_status_cached (kernel : Nat → Int) (st : HymoCache)
    (h : st.s_status_checked = true) :
    check_status kernel st = (st.s_cached_status, st) := by
  unfold check_status
  rw [h]
  simp

/-- Helper: a call on an unchecked cache marks it checked and caches
exactly the status it returns. -/
theorem check_status_sets_cache (kernel : Nat → Int) (st : HymoCache)
    (h : st.s_status_checked = false) :
    (check_status kernel st).2.s_status_checked = true ∧
    (check_status kernel st).2.s_cached_status = (check_status kernel st).1 := by
  unfold check_status
  rw [h]
  simp only [Bool.false_eq_true, if_false]
  split_ifs <;> simp

/-- C9 — `HymoFS::check_status` classification and caching: on a fresh
run the status is `Available` iff the kernel-reported protocol version
equals the expected version (10), `KernelTooOld` iff it is non-negative
and strictly lower, `ModuleTooOld` iff strictly higher, and `NotPresent`
iff the version query fails (returns a negative value); and once any call
has run, every later call returns the first result unchanged, regardless
of later kernel responses. -/
theorem C9_status_classification_and_cache :
    (∀ kernel : Nat → Int,
      ((check_status kernel initialHymoCache).1 = HymoFSStatus.Available ↔
        kernel 0 = EXPECTED_PROTOCOL_VERSION) ∧
      ((check_status kernel initialHymoCache).1 = HymoFSStatus.KernelTooOld ↔
        0 ≤ kernel 0 ∧ kernel 0 < EXPECTED_PROTOCOL_VERSION) ∧
      ((check_status kernel initialHymoCache).1 = HymoFSStatus.ModuleTooOld ↔
        EXPECTED_PROTOCOL_VERSION < kernel 0) ∧
      ((check_status kernel initialHymoCache).1 = HymoFSStatus.NotPresent ↔
        kernel 0 < 0)) ∧
    (∀ (kernel kernel' : Nat → Int) (st : HymoCache),
      (check_status kernel' (check_status kernel st).2).1 =
        (check_status kernel st).1) := by
  constructor
  · intro kernel
    unfold check_status
    split_ifs with h0 h1 h2 <;> simp_all [EXPECTED_PROTOCOL_VERSION,
      initialHymoCache] <;> omega
  · intro kernel kernel' st
    by_cases hc : st.s_status_checked = true
    · rw [check_status_cached kernel st hc, check_status_cached kernel' st hc]
    · have h := check_status_sets_cache kernel st (by simpa using hc)
      rw [check_status_cached kernel' _ h.1]
      exact h.2

/-! ### C5 — ext4 repair path -/

/-- C5 — ext4 repair path of `setup_ext4_image` (storage.cpp:94-122) with
`repair_image` (utils.cpp:171-201): when the image exists and the initial
loop mount fails, `e2fsck -y -f` is consulted; an exit code of at most 2
counts as successful repair and the mount is retried exactly once (two
mount attempts in total), so with exit code 1 or 2 the setup succeeds iff
the retry mounts; if the exit code exceeds 2 no retry happens and storage
setup throws, and if the single retry fails it also throws. -/
theorem C5_ext4_repair_path (env : StorageEnv) (c : Nat)
    (himg : env.image_exists = true)
    (hm0 : env.mounts 0 = false)
    (hexit : env.e2fsck_exit = some c) :
    (c ≤ 2 →
      (setup_ext4_image env).2 = 2 ∧
      ((setup_ext4_image env).1 = Except.ok "ext4" ↔ env.mounts 1 = true) ∧
      (env.mounts 1 = false →
        (setup_ext4_image env).1 =
          Except.error "Failed to mount modules.img after repair")) ∧
    (2 < c →
      (setup_ext4_image env).2 = 1 ∧
      (setup_ext4_image env).1 =
        Except.error "Failed to repair modules.img") := by
  unfold setup_ext4_image repair_image
  rw [himg, hm0, hexit]
  constructor
  · intro hc
    simp only [Bool.not_true, Bool.false_and, Bool.false_eq_true, if_false,
      decide_eq_true_eq, hc, if_true]
    cases hm1 : env.mounts 1 <;> simp [hm1]
  · intro hc
    have : ¬ (c ≤ 2) := by omega
    simp [this]

/-- Witness for C5 at a concrete environment: image present, first mount
fails, `e2fsck` exits 1, retry succeeds. -/
theorem C5_ext4_repair_path_witness :
    (c5WitnessEnv.image_exists = true ∧ c5WitnessEnv.mounts 0 = false ∧
      c5WitnessEnv.e2fsck_exit = some 1) ∧
    ((1 ≤ 2 →
      (setup_ext4_image c5WitnessEnv).2 = 2 ∧
      ((setup_ext4_image c5WitnessEnv).1 = Except.ok "ext4" ↔
        c5WitnessEnv.mounts 1 = true) ∧
      (c5WitnessEnv.mounts 1 = false →
        (setup_ext4_image c5WitnessEnv).1 =
          Except.error "Failed to mount modules.img after repair")) ∧
    (2 < 1 →
      (setup_ext4_image c5WitnessEnv).2 = 1 ∧
      (setup_ext4_image c5WitnessEnv).1 =
        Except.error "Failed to repair modules.img")) :=
  ⟨⟨rfl, by decide, rfl⟩,
   C5_ext4_repair_path c5WitnessEnv 1 rfl (by decide) rfl⟩

end Hymo

namespace Hymo

/-! ### Emitter lemmas (claims C1, C6, C7) -/

/-- Helper: the coverage walk never changes the targets of the overlay
operations (it only extends lowerdirs). -/
theorem coverCheck_targets (env : FsEnv) (mp v : Path)
    (ops : List OverlayOperation) :
    ((coverCheck env mp v ops).2.map (fun op => op.target)) =
      ops.map (fun op => op.target) := by
  induction ops with
  | nil => rfl
  | cons op rest ih =>
    unfold coverCheck
    split_ifs <;> simp [ih] <;> split_ifs <;> simp

/-- Helper: the coverage flag computed by the walk agrees with
`MountPlan::is_covered_by_overlay`. -/
theorem coverCheck_flag (env : FsEnv) (mp v : Path)
    (ops : List OverlayOperation) :
    (coverCheck env mp v ops).1 = is_covered_by_overlay ops v := by
  induction ops with
  | nil => rfl
  | cons op rest ih =>
    unfold coverCheck is_covered_by_overlay
    split_ifs with h <;>
      simp [h, ih, is_covered_by_overlay] <;> split_ifs <;> simp

/-- Helper: overlay coverage only depends on the operation targets. -/
theorem is_covered_congr (v : Path) (ops ops' : List OverlayOperation)
    (h : ops.map (fun op => op.target) = ops'.map (fun op => op.target)) :
    is_covered_by_overlay ops v = is_covered_by_overlay ops' v := by
  unfold is_covered_by_overlay
  have h1 : ∀ l : List OverlayOperation,
      l.any (fun op => prefixBoundaryMatch op.target v) =
        (l.map (fun op => op.target)).any
          (fun t => prefixBoundaryMatch t v) := by
    intro l
    induction l with
    | nil => rfl
    | cons x xs ih => simp [ih]
  rw [h1, h1, h]

end Hymo

namespace Hymo

/-- Helper: one emitter step appends at most one rule to each rule list,
never changes the operation targets, and any appended add rule is the
resolved entry path backed by the in-module path of an entry that the
overlay plan does not cover. -/
theorem processEntry_spec (env : FsEnv) (rules : List Rule) (dmode : String)
    (mp : Path) (st : EmitState) (prunes : List Path) (e : ModEntry) :
    ∃ na nm nh np,
      (processEntry env rules dmode mp st prunes e).1.add_rules =
        st.add_rules ++ na ∧
      (processEntry env rules dmode mp st prunes e).1.merge_rules =
        st.merge_rules ++ nm ∧
      (processEntry env rules dmode mp st prunes e).1.hide_rules =
        st.hide_rules ++ nh ∧
      (processEntry env rules dmode mp st prunes e).2 = prunes ++ np ∧
      (processEntry env rules dmode mp st prunes e).1.ops.map
        (fun op => op.target) = st.ops.map (fun op => op.target) ∧
      (∀ r ∈ na, r.src = env.resolve e.vpath ∧ r.target = mp ++ e.vpath ∧
        is_covered_by_overlay st.ops e.vpath = false) := by
  unfold processEntry
  split_ifs with h1 h2 h3 h4 h5 h6 h7
  · exact ⟨[], [], [], [], by simp, by simp, by simp, by simp, rfl, by simp⟩
  · exact ⟨[], [], [], [], by simp, by simp, by simp, by simp,
      coverCheck_targets env mp e.vpath st.ops, by simp⟩
  · refine ⟨[], [AddRule.mk (env.resolve e.vpath) (mp ++ e.vpath) DT_DIR],
      [], [e.vpath], by simp, by simp, by simp, by simp,
      coverCheck_targets env mp e.vpath st.ops, by simp⟩
  · exact ⟨[], [], [], [], by simp, by simp, by simp, by simp,
      coverCheck_targets env mp e.vpath st.ops, by simp⟩
  · refine ⟨[AddRule.mk (env.resolve e.vpath) (mp ++ e.vpath)
        (entryType e.info)], [], [], [], by simp, by simp, by simp, by simp,
      coverCheck_targets env mp e.vpath st.ops, ?_⟩
    intro r hr
    rw [List.mem_singleton] at hr
    subst hr
    refine ⟨rfl, rfl, ?_⟩
    rw [← coverCheck_flag env mp e.vpath st.ops]
    simpa using h2
  · refine ⟨[], [], [env.resolve e.vpath], [], by simp, by simp, by simp,
      by simp, coverCheck_targets env mp e.vpath st.ops, by simp⟩
  · exact ⟨[], [], [], [], by simp, by simp, by simp, by simp,
      coverCheck_targets env mp e.vpath st.ops, by simp⟩
  · exact ⟨[], [], [], [], by simp, by simp, by simp, by simp,
      coverCheck_targets env mp e.vpath st.ops, by simp⟩

end Hymo

namespace Hymo

/-- Helper: the iterator loop over a partition subtree only appends rules,
keeps operation targets, and every appended add rule arises from some
entry of the subtree that the overlay plan does not cover. -/
theorem walkFold_spec (env : FsEnv) (rules : List Rule) (dmode : String)
    (mp : Path) (entries : List ModEntry) :
    ∀ (st : EmitState) (pr : List Path),
    ∃ na nm nh,
      (entries.foldl
        (fun acc e =>
          if pruned acc.2 e.vpath then acc
          else processEntry env rules dmode mp acc.1 acc.2 e)
        (st, pr)).1.add_rules = st.add_rules ++ na ∧
      (entries.foldl
        (fun acc e =>
          if pruned acc.2 e.vpath then acc
          else processEntry env rules dmode mp acc.1 acc.2 e)
        (st, pr)).1.merge_rules = st.merge_rules ++ nm ∧
      (entries.foldl
        (fun acc e =>
          if pruned acc.2 e.vpath then acc
          else processEntry env rules dmode mp acc.1 acc.2 e)
        (st, pr)).1.hide_rules = st.hide_rules ++ nh ∧
      (entries.foldl
        (fun acc e =>
          if pruned acc.2 e.vpath then acc
          else processEntry env rules dmode mp acc.1 acc.2 e)
        (st, pr)).1.ops.map (fun op => op.target) =
        st.ops.map (fun op => op.target) ∧
      (∀ r ∈ na, ∃ e ∈ entries, r.src = env.resolve e.vpath ∧
        r.target = mp ++ e.vpath ∧
        is_covered_by_overlay st.ops e.vpath = false) := by
  induction entries with
  | nil =>
    intro st pr
    exact ⟨[], [], [], by simp, by simp, by simp, rfl, by simp⟩
  | cons e rest ih =>
    intro st pr
    simp only [List.foldl_cons]
    by_cases hp : pruned pr e.vpath = true
    · rw [if_pos hp]
      obtain ⟨na, nm, nh, ha, hm, hh, ho, hsrc⟩ := ih st pr
      exact ⟨na, nm, nh, ha, hm, hh, ho,
        fun r hr => by
          obtain ⟨e', he', hprops⟩ := hsrc r hr
          exact ⟨e', List.mem_cons_of_mem e he', hprops⟩⟩
    · rw [if_neg hp]
      obtain ⟨na0, nm0, nh0, np0, ha0, hm0, hh0, hp0, ho0, hsrc0⟩ :=
        processEntry_spec env rules dmode mp st pr e
      obtain ⟨na1, nm1, nh1, ha1, hm1, hh1, ho1, hsrc1⟩ :=
        ih (processEntry env rules dmode mp st pr e).1
           (processEntry env rules dmode mp st pr e).2
      refine ⟨na0 ++ na1, nm0 ++ nm1, nh0 ++ nh1, ?_, ?_, ?_, ?_, ?_⟩
      · rw [ha1, ha0, List.append_assoc]
      · rw [hm1, hm0, List.append_assoc]
      · rw [hh1, hh0, List.append_assoc]
      · rw [ho1, ho0]
      · intro r hr
        rcases List.mem_append.mp hr with h | h
        · obtain ⟨hs, ht, hc⟩ := hsrc0 r h
          exact ⟨e, List.mem_cons_self e rest, hs, ht, hc⟩
        · obtain ⟨e', he', hs, ht, hc⟩ := hsrc1 r h
          refine ⟨e', List.mem_cons_of_mem e he', hs, ht, ?_⟩
          rw [is_covered_congr e'.vpath st.ops
            (processEntry env rules dmode mp st pr e).1.ops ho0.symm]
          exact hc

end Hymo

namespace Hymo

/-- Helper: a whole-module walk only appends rules, keeps operation
targets, and every appended add rule is the resolved form of an
uncovered entry virtual path of this module, backed by the corresponding
in-module path. -/
theorem moduleWalk_spec (env : FsEnv) (m : Module) (sr : Path)
    (parts : List String) :
    ∀ st : EmitState,
    ∃ na nm nh,
      (moduleWalk env m sr parts st).add_rules = st.add_rules ++ na ∧
      (moduleWalk env m sr parts st).merge_rules = st.merge_rules ++ nm ∧
      (moduleWalk env m sr parts st).hide_rules = st.hide_rules ++ nh ∧
      (moduleWalk env m sr parts st).ops.map (fun op => op.target) =
        st.ops.map (fun op => op.target) ∧
      (∀ r ∈ na, ∃ part es e, env.tree m.id part = some es ∧ e ∈ es ∧
        r.src = env.resolve e.vpath ∧
        r.target = (sr ++ '/' :: m.id) ++ e.vpath ∧
        is_covered_by_overlay st.ops e.vpath = false) := by
  unfold moduleWalk
  induction parts with
  | nil =>
    intro st
    exact ⟨[], [], [], by simp, by simp, by simp, rfl, by simp⟩
  | cons part rest ih =>
    intro st
    simp only [List.foldl_cons]
    cases htree : env.tree m.id part with
    | none =>
      have hstep : modulePartStep env m sr st part = st := by
        unfold modulePartStep
        rw [htree]
      rw [hstep]
      obtain ⟨na, nm, nh, ha, hm, hh, ho, hsrc⟩ := ih st
      exact ⟨na, nm, nh, ha, hm, hh, ho, hsrc⟩
    | some entries =>
      have hstep : modulePartStep env m sr st part =
          partitionWalk env m.rules
            (if m.mode == "auto" then "hymofs" else m.mode)
            (sr ++ '/' :: m.id) st entries := by
        unfold modulePartStep
        rw [htree]
      rw [hstep]
      obtain ⟨na0, nm0, nh0, ha0, hm0, hh0, ho0, hsrc0⟩ :=
        walkFold_spec env m.rules
          (if m.mode == "auto" then "hymofs" else m.mode)
          (sr ++ '/' :: m.id) entries st []
      obtain ⟨na1, nm1, nh1, ha1, hm1, hh1, ho1, hsrc1⟩ :=
        ih (partitionWalk env m.rules
          (if m.mode == "auto" then "hymofs" else m.mode)
          (sr ++ '/' :: m.id) st entries)
      refine ⟨na0 ++ na1, nm0 ++ nm1, nh0 ++ nh1, ?_, ?_, ?_, ?_, ?_⟩
      · rw [ha1, partitionWalk, ha0, List.append_assoc]
      · rw [hm1, partitionWalk, hm0, List.append_assoc]
      · rw [hh1, partitionWalk, hh0, List.append_assoc]
      · rw [ho1, partitionWalk, ho0]
      · intro r hr
        rcases List.mem_append.mp hr with h | h
        · obtain ⟨e, he, hs, ht, hc⟩ := hsrc0 r h
          exact ⟨part, entries, e, htree, he, hs, ht, hc⟩
        · obtain ⟨part', es', e', htree', he', hs, ht, hc⟩ := hsrc1 r h
          refine ⟨part', es', e', htree', he', hs, ht, ?_⟩
          rw [is_covered_congr e'.vpath st.ops
            (partitionWalk env m.rules
              (if m.mode == "auto" then "hymofs" else m.mode)
              (sr ++ '/' :: m.id) st entries).ops
            (by rw [partitionWalk, ho0])]
          exact hc

end Hymo

namespace Hymo

/-- Helper: the reverse-priority module loop of planner.cpp:343-492
produces per-module blocks of add rules, concatenated in processing
order; a module not marked for HymoFS contributes nothing, and each rule
of a module's block targets that module's content under the staging
root and is uncovered by the overlay plan. -/
theorem emitFold_spec (env : FsEnv) (sr : Path) (parts : List String)
    (ids : List Path) (ms : List Module) :
    ∀ st : EmitState,
    ∃ incr : List (List AddRule),
      incr.length = ms.length ∧
      (ms.foldl
        (fun st m =>
          if ids.contains m.id then moduleWalk env m sr parts st else st)
        st).add_rules = st.add_rules ++ incr.flatten ∧
      (ms.foldl
        (fun st m =>
          if ids.contains m.id then moduleWalk env m sr parts st else st)
        st).ops.map (fun op => op.target) =
        st.ops.map (fun op => op.target) ∧
      (∀ p ∈ ms.zip incr,
        (ids.contains p.1.id = false → p.2 = []) ∧
        (∀ r ∈ p.2, ∃ part es e, env.tree p.1.id part = some es ∧ e ∈ es ∧
          r.src = env.resolve e.vpath ∧
          r.target = (sr ++ '/' :: p.1.id) ++ e.vpath ∧
          is_covered_by_overlay st.ops e.vpath = false)) ∧
      (∀ r ∈ incr.flatten, ∃ v, r.src = env.resolve v ∧
        is_covered_by_overlay st.ops v = false) := by
  induction ms with
  | nil =>
    intro st
    exact ⟨[], rfl, by simp, rfl, by simp, by simp⟩
  | cons m ms ih =>
    intro st
    simp only [List.foldl_cons]
    by_cases hmk : ids.contains m.id = true
    · rw [if_pos hmk]
      obtain ⟨na0, nm0, nh0, ha0, hm0, hh0, ho0, hsrc0⟩ :=
        moduleWalk_spec env m sr parts st
      obtain ⟨incr, hlen, ha1, ho1, hzip, hflat⟩ :=
        ih (moduleWalk env m sr parts st)
      refine ⟨na0 :: incr, by simp [hlen], ?_, ?_, ?_, ?_⟩
      · rw [ha1, ha0]
        simp [List.append_assoc]
      · rw [ho1, ho0]
      · intro p hp
        rcases List.mem_cons.mp hp with h | h
        · subst h
          constructor
          · intro hfalse
            rw [hmk] at hfalse
            simp at hfalse
          · intro r hr
            obtain ⟨part, es, e, htree, he, hs, ht, hc⟩ := hsrc0 r hr
            exact ⟨part, es, e, htree, he, hs, ht, hc⟩
        · obtain ⟨hunm, hown⟩ := hzip p h
          refine ⟨hunm, ?_⟩
          intro r hr
          obtain ⟨part, es, e, htree, he, hs, ht, hc⟩ := hown r hr
          refine ⟨part, es, e, htree, he, hs, ht, ?_⟩
          rw [is_covered_congr e.vpath st.ops
            (moduleWalk env m sr parts st).ops ho0.symm]
          exact hc
      · intro r hr
        rw [List.flatten_cons] at hr
        rcases List.mem_append.mp hr with h | h
        · obtain ⟨_, _, e, _, _, hs, _, hc⟩ := hsrc0 r h
          exact ⟨e.vpath, hs, hc⟩
        · obtain ⟨v, hs, hc⟩ := hflat r h
          refine ⟨v, hs, ?_⟩
          rw [is_covered_congr v st.ops
            (moduleWalk env m sr parts st).ops ho0.symm]
          exact hc
    · rw [if_neg hmk]
      obtain ⟨incr, hlen, ha1, ho1, hzip, hflat⟩ := ih st
      refine ⟨[] :: incr, by simp [hlen], by simpa using ha1, ho1, ?_, ?_⟩
      · intro p hp
        rcases List.mem_cons.mp hp with h | h
        · subst h
          exact ⟨fun _ => rfl, by simp⟩
        · exact hzip p h
      · intro r hr
        rw [List.flatten_cons] at hr
        exact hflat r (by simpa using hr)

end Hymo

namespace Hymo

/-- C7 — Symlink safety (planner.cpp:446-455): an entry whose
`is_symlink` flag is set and whose virtual path currently exists as a
directory on the live root never contributes an add rule; the emitter's
per-entry step leaves the collected add rules unchanged for such an
entry, so a live directory is never replaced by a symlink rule. -/
theorem C7_symlink_safety (env : FsEnv) (rules : List Rule)
    (dmode : String) (mp : Path) (st : EmitState) (prunes : List Path)
    (e : ModEntry) (hsym : e.info.is_symlink = true)
    (hex : env.exists_ e.vpath = true)
    (hdir : env.is_directory e.vpath = true) :
    (processEntry env rules dmode mp st prunes e).1.add_rules =
      st.add_rules := by
  unfold processEntry
  split_ifs with h1 h2 h3 h4 h5 <;> simp_all

/-- Witness for C7 at a concrete entry and environment. -/
theorem C7_symlink_safety_witness :
    (c7Entry.info.is_symlink = true ∧
     c7Env.exists_ c7Entry.vpath = true ∧
     c7Env.is_directory c7Entry.vpath = true) ∧
    (processEntry c7Env [] "hymofs" (toPath "/data/m")
        (EmitState.mk [] [] [] []) [] c7Entry).1.add_rules =
      (EmitState.mk [] [] [] []).add_rules :=
  ⟨⟨rfl, rfl, rfl⟩,
   C7_symlink_safety c7Env [] "hymofs" (toPath "/data/m")
     (EmitState.mk [] [] [] []) [] c7Entry rfl rfl rfl⟩

end Hymo

namespace Hymo

/-- Helper: with HymoFS available, `update_hymofs_mappings` returns the
collected state's operations and the grouped kernel call trace. -/
theorem updateHymofs_eq (env : FsEnv) (parts : List String)
    (modules : List Module) (sr : Path) (plan : MountPlan)
    (hav : env.hymo_available = true) :
    updateHymofsMappings env parts modules sr plan =
      ({ plan with overlay_ops := (emitCollect env parts modules sr plan).ops },
       KernelCall.clear ::
         ((emitCollect env parts modules sr plan).add_rules.map
            (fun r => KernelCall.add r.src r.target r.type) ++
          (emitCollect env parts modules sr plan).merge_rules.map
            (fun r => KernelCall.merge r.src r.target) ++
          (emitCollect env parts modules sr plan).hide_rules.map
            KernelCall.hide)) := by
  unfold updateHymofsMappings
  rw [hav]
  rfl

/-- C6 — HymoFS emission order: with HymoFS available, the kernel call
trace of `update_hymofs_mappings` starts with the one `clear_rules` call,
before any add/merge/hide call; the remaining calls are grouped as all
adds, then all merges, then all hides; and the add rules consist of
per-module blocks concatenated in reverse priority order (the `k`-th
block belongs to the `k`-th module of the reversed module list — lowest
priority first — is empty for modules not marked for HymoFS, and each of
its rules targets that module's own content under the staging root). -/
theorem C6_emission_order (env : FsEnv) (parts : List String)
    (modules : List Module) (sr : Path) (plan : MountPlan)
    (hav : env.hymo_available = true) :
    ∃ rest, (updateHymofsMappings env parts modules sr plan).2 =
        KernelCall.clear :: rest ∧
      KernelCall.clear ∉ rest ∧
      (∃ A M H, rest = A ++ M ++ H ∧
        (∀ c ∈ A, ∃ src tgt ty, c = KernelCall.add src tgt ty) ∧
        (∀ c ∈ M, ∃ src tgt, c = KernelCall.merge src tgt) ∧
        (∀ c ∈ H, ∃ p, c = KernelCall.hide p)) ∧
      (∃ incr : List (List AddRule),
        incr.length = modules.length ∧
        (∃ tail0, rest = incr.flatten.map
            (fun r => KernelCall.add r.src r.target r.type) ++ tail0) ∧
        (∀ p ∈ modules.reverse.zip incr,
          (plan.hymofs_module_ids.contains p.1.id = false → p.2 = []) ∧
          (∀ r ∈ p.2, ∃ part es e, env.tree p.1.id part = some es ∧
            e ∈ es ∧ r.src = env.resolve e.vpath ∧
            r.target = (sr ++ '/' :: p.1.id) ++ e.vpath))) := by
  obtain ⟨incr, hlen, ha, ho, hzip, hflat⟩ :=
    emitFold_spec env sr (BUILTIN_PARTITIONS ++ parts)
      plan.hymofs_module_ids modules.reverse
      (EmitState.mk plan.overlay_ops [] [] (emitHides0 env modules plan))
  have hcoll : emitCollect env parts modules sr plan =
      modules.reverse.foldl
        (fun st m =>
          if plan.hymofs_module_ids.contains m.id then
            moduleWalk env m sr (BUILTIN_PARTITIONS ++ parts) st
          else st)
        (EmitState.mk plan.overlay_ops [] [] (emitHides0 env modules plan)) :=
    rfl
  rw [← hcoll] at ha ho
  refine ⟨_, by rw [updateHymofs_eq env parts modules sr plan hav], ?_, ?_, ?_⟩
  · intro hmem
    rcases List.mem_append.mp hmem with h | h
    · rcases List.mem_append.mp h with h' | h'
      · obtain ⟨r, _, hr⟩ := List.mem_map.mp h'
        cases hr
      · obtain ⟨r, _, hr⟩ := List.mem_map.mp h'
        cases hr
    · obtain ⟨r, _, hr⟩ := List.mem_map.mp h
      cases hr
  · refine ⟨_, _, _, rfl, ?_, ?_, ?_⟩
    · intro c hc
      obtain ⟨r, _, rfl⟩ := List.mem_map.mp hc
      exact ⟨r.src, r.target, r.type, rfl⟩
    · intro c hc
      obtain ⟨r, _, rfl⟩ := List.mem_map.mp hc
      exact ⟨r.src, r.target, rfl⟩
    · intro c hc
      obtain ⟨r, _, rfl⟩ := List.mem_map.mp hc
      exact ⟨r, rfl⟩
  · refine ⟨incr, by rw [hlen, List.length_reverse], ?_, ?_⟩
    · refine ⟨(emitCollect env parts modules sr plan).merge_rules.map
          (fun r => KernelCall.merge r.src r.target) ++
        (emitCollect env parts modules sr plan).hide_rules.map
          KernelCall.hide, ?_⟩
      rw [List.append_assoc]
      have : (emitCollect env parts modules sr plan).add_rules =
          incr.flatten := by simpa using ha
      rw [this]
    · intro p hp
      obtain ⟨hunm, hown⟩ := hzip p hp
      refine ⟨hunm, ?_⟩
      intro r hr
      obtain ⟨part, es, e, htree, he, hs, ht, _⟩ := hown r hr
      exact ⟨part, es, e, htree, he, hs, ht⟩

end Hymo

namespace Hymo

/-- Witness for C6 at concrete inputs: one HymoFS-marked module with one
regular file, no overlay coverage. -/
theorem C6_emission_order_witness :
    c1WitnessEnv.hymo_available = true ∧
    (∃ rest,
      (updateHymofsMappings c1WitnessEnv [] [c1Module] (toPath "/data")
          c1Plan).2 = KernelCall.clear :: rest ∧
      KernelCall.clear ∉ rest ∧
      (∃ A M H, rest = A ++ M ++ H ∧
        (∀ c ∈ A, ∃ src tgt ty, c = KernelCall.add src tgt ty) ∧
        (∀ c ∈ M, ∃ src tgt, c = KernelCall.merge src tgt) ∧
        (∀ c ∈ H, ∃ p, c = KernelCall.hide p)) ∧
      (∃ incr : List (List AddRule),
        incr.length = [c1Module].length ∧
        (∃ tail0, rest = incr.flatten.map
            (fun r => KernelCall.add r.src r.target r.type) ++ tail0) ∧
        (∀ p ∈ [c1Module].reverse.zip incr,
          (c1Plan.hymofs_module_ids.contains p.1.id = false → p.2 = []) ∧
          (∀ r ∈ p.2, ∃ part es e,
            c1WitnessEnv.tree p.1.id part = some es ∧
            e ∈ es ∧ r.src = c1WitnessEnv.resolve e.vpath ∧
            r.target = (toPath "/data" ++ '/' :: p.1.id) ++ e.vpath)))) :=
  ⟨rfl, C6_emission_order c1WitnessEnv [] [c1Module] (toPath "/data")
    c1Plan rfl⟩

/-- C1 counterexample — the claim as stated fails once
`resolve_path_for_hymofs` moves a path: the emitter checks overlay
coverage on the *unresolved* virtual path `/system/f` (not covered by
the operation on `/a`) but emits the rule under the *resolved* source
`/a/f`, which the overlay operation on `/a` covers.  So an add rule is
emitted whose virtual source path is claimed by an overlay operation. -/
theorem C1_cross_backend_counterexample :
    KernelCall.add (toPath "/a/f") (toPath "/data/m/system/f") DT_REG ∈
      (updateHymofsMappings c1Env [] [c1Module] (toPath "/data")
        c1Plan).2 ∧
    is_covered_by_overlay
      (updateHymofsMappings c1Env [] [c1Module] (toPath "/data")
        c1Plan).1.overlay_ops (toPath "/a/f") = true := by
  constructor
  · decide
  · decide

/-- C1 amended — cross-backend exclusion holds on unresolved paths: the
emitter never emits an add rule for an entry whose virtual path an
overlay operation covers, so whenever `resolve_path_for_hymofs` is the
identity (no symlinked or missing ancestors on the live root), no overlay
operation's target equals the emitted rule's source path or is a proper
prefix of it across a `/` boundary. -/
theorem C1_cross_backend_exclusion (env : FsEnv) (parts : List String)
    (modules : List Module) (sr : Path) (plan : MountPlan)
    (hav : env.hymo_available = true)
    (hres : ∀ p, env.resolve p = p) :
    ∀ src tgt ty,
      KernelCall.add src tgt ty ∈
        (updateHymofsMappings env parts modules sr plan).2 →
      is_covered_by_overlay
        (updateHymofsMappings env parts modules sr plan).1.overlay_ops
        src = false := by
  obtain ⟨incr, hlen, ha, ho, hzip, hflat⟩ :=
    emitFold_spec env sr (BUILTIN_PARTITIONS ++ parts)
      plan.hymofs_module_ids modules.reverse
      (EmitState.mk plan.overlay_ops [] [] (emitHides0 env modules plan))
  have hcoll : emitCollect env parts modules sr plan =
      modules.reverse.foldl
        (fun st m =>
          if plan.hymofs_module_ids.contains m.id then
            moduleWalk env m sr (BUILTIN_PARTITIONS ++ parts) st
          else st)
        (EmitState.mk plan.overlay_ops [] [] (emitHides0 env modules plan)) :=
    rfl
  rw [← hcoll] at ha ho
  intro src tgt ty hmem
  rw [updateHymofs_eq env parts modules sr plan hav] at hmem ⊢
  rcases List.mem_cons.mp hmem with h | h
  · cases h
  rcases List.mem_append.mp h with h' | h'
  · rcases List.mem_append.mp h' with h'' | h''
    · obtain ⟨r, hr, heq⟩ := List.mem_map.mp h''
      have hsrc : r.src = src := by cases heq; rfl
      have hrmem : r ∈ incr.flatten := by
        have := ha
        simp only [EmitState.mk] at this
        rw [List.nil_append] at this
        rw [← this]
        exact hr
      obtain ⟨v, hvs, hvc⟩ := hflat r hrmem
      rw [hres v] at hvs
      have : is_covered_by_overlay plan.overlay_ops src = false := by
        rw [← hsrc, hvs]
        simpa using hvc
      rw [is_covered_congr src
        (emitCollect env parts modules sr plan).ops plan.overlay_ops
        (by simpa using ho)]
      exact this
    · obtain ⟨r, _, heq⟩ := List.mem_map.mp h''
      cases heq
  · obtain ⟨r, _, heq⟩ := List.mem_map.mp h'
    cases heq

/-- Witness for C1 at concrete inputs with identity path resolution. -/
theorem C1_cross_backend_exclusion_witness :
    (c1WitnessEnv.hymo_available = true ∧
     (∀ p, c1WitnessEnv.resolve p = p)) ∧
    (∀ src tgt ty,
      KernelCall.add src tgt ty ∈
        (updateHymofsMappings c1WitnessEnv [] [c1Module] (toPath "/data")
          c1Plan).2 →
      is_covered_by_overlay
        (updateHymofsMappings c1WitnessEnv [] [c1Module] (toPath "/data")
          c1Plan).1.overlay_ops src = false) :=
  ⟨⟨rfl, fun _ => rfl⟩,
   C1_cross_backend_exclusion c1WitnessEnv [] [c1Module] (toPath "/data")
     c1Plan rfl (fun _ => rfl)⟩

end Hymo

namespace Hymo

/-! ### Sorting and deduplication lemmas (claim C4) -/

/-- Helper: `lexLt` is asymmetric. -/
theorem lexLt_asymm : ∀ a b : Path, lexLt a b = true → lexLt b a = false := by
  intro a
  induction a with
  | nil => intro b h; cases b <;> simp_all [lexLt]
  | cons x xs ih =>
    intro b h
    cases b with
    | nil => simp_all [lexLt]
    | cons y ys =>
      unfold lexLt at h ⊢
      rcases lt_trichotomy x y with hxy | hxy | hxy
      · simp [hxy, not_lt_of_lt hxy]
      · subst hxy
        simp only [lt_irrefl, if_false] at h ⊢
        exact ih ys h
      · simp [hxy, not_lt_of_lt hxy] at h

/-- Helper: `lexLt` is connex — two mutually non-less paths are equal. -/
theorem lexLt_conn : ∀ a b : Path,
    lexLt a b = false → lexLt b a = false → a = b := by
  intro a
  induction a with
  | nil => intro b h1 _; cases b <;> simp_all [lexLt]
  | cons x xs ih =>
    intro b h1 h2
    cases b with
    | nil => simp_all [lexLt]
    | cons y ys =>
      unfold lexLt at h1 h2
      rcases lt_trichotomy x y with hxy | hxy | hxy
      · simp [hxy] at h1
      · subst hxy
        simp only [lt_irrefl, if_false] at h1 h2
        rw [ih ys h1 h2]
      · simp [hxy] at h2

/-- Helper: `lexLt` is transitive. -/
theorem lexLt_trans : ∀ a b c : Path,
    lexLt a b = true → lexLt b c = true → lexLt a c = true := by
  intro a
  induction a with
  | nil =>
    intro b c hab hbc
    cases b with
    | nil => simp [lexLt] at hab
    | cons y ys =>
      cases c with
      | nil => simp [lexLt] at hbc
      | cons z zs => simp [lexLt]
  | cons x xs ih =>
    intro b c hab hbc
    cases b with
    | nil => simp [lexLt] at hab
    | cons y ys =>
      cases c with
      | nil => simp [lexLt] at hbc
      | cons z zs =>
        unfold lexLt at hab hbc ⊢
        rcases lt_trichotomy x y with h1 | h1 | h1
        · rcases lt_trichotomy y z with h2 | h2 | h2
          · rw [if_pos (lt_trans h1 h2)]
          · subst h2
            rw [if_pos h1]
          · rw [if_neg (not_lt_of_lt h2), if_pos h2] at hbc
            cases hbc
        · subst h1
          rw [if_neg (lt_irrefl x), if_neg (lt_irrefl x)] at hab
          rcases lt_trichotomy x z with h2 | h2 | h2
          · rw [if_pos h2]
          · subst h2
            rw [if_neg (lt_irrefl x), if_neg (lt_irrefl x)] at hbc ⊢
            exact ih ys zs hab hbc
          · rw [if_neg (not_lt_of_lt h2), if_pos h2] at hbc
            cases hbc
        · rw [if_neg (not_lt_of_lt h1), if_pos h1] at hab
          cases hab

/-- Helper: membership in an insertion. -/
theorem mem_insortBy (y : Path) : ∀ (l : List Path) (x : Path),
    x ∈ insortBy y l ↔ x = y ∨ x ∈ l := by
  intro l
  induction l with
  | nil => intro x; simp [insortBy]
  | cons z zs ih =>
    intro x
    unfold insortBy
    split_ifs with h
    · simp
    · simp only [List.mem_cons, ih]
      tauto

/-- Helper: sorting preserves membership. -/
theorem mem_sortPaths : ∀ (l : List Path) (x : Path),
    x ∈ sortPaths l ↔ x ∈ l := by
  intro l
  induction l with
  | nil => intro x; simp [sortPaths]
  | cons z zs ih =>
    intro x
    unfold sortPaths
    rw [mem_insortBy, ih]
    simp

/-- Helper: the deduplication worker only drops duplicates. -/
theorem mem_uniqueAdjAux : ∀ (l : List Path) (prev x : Path),
    (x ∈ uniqueAdjAux prev l → x ∈ l) ∧
    (x ∈ l → x ∈ uniqueAdjAux prev l ∨ x = prev) := by
  intro l
  induction l with
  | nil => intro prev x; simp [uniqueAdjAux]
  | cons b t ih =>
    intro prev x
    unfold uniqueAdjAux
    split_ifs with h
    · subst h
      constructor
      · intro hx
        exact List.mem_cons_of_mem _ ((ih prev x).1 hx)
      · intro hx
        rcases List.mem_cons.mp hx with rfl | hx'
        · exact Or.inr rfl
        · exact (ih prev x).2 hx'
    · constructor
      · intro hx
        rcases List.mem_cons.mp hx with rfl | hx'
        · exact List.mem_cons_self _ _
        · exact List.mem_cons_of_mem _ ((ih b x).1 hx')
      · intro hx
        rcases List.mem_cons.mp hx with rfl | hx'
        · exact Or.inl (List.mem_cons_self _ _)
        · rcases (ih b x).2 hx' with h' | rfl
          · exact Or.inl (List.mem_cons_of_mem _ h')
          · exact Or.inl (List.mem_cons_self _ _)

/-- Helper: deduplication preserves membership. -/
theorem mem_uniqueAdj : ∀ (l : List Path) (x : Path),
    x ∈ uniqueAdj l ↔ x ∈ l := by
  intro l x
  cases l with
  | nil => simp [uniqueAdj]
  | cons a t =>
    unfold uniqueAdj
    constructor
    · intro hx
      rcases List.mem_cons.mp hx with rfl | hx'
      · exact List.mem_cons_self _ _
      · exact List.mem_cons_of_mem _ ((mem_uniqueAdjAux t a x).1 hx')
    · intro hx
      rcases List.mem_cons.mp hx with rfl | hx'
      · exact List.mem_cons_self _ _
      · rcases (mem_uniqueAdjAux t a x).2 hx' with h' | rfl
        · exact List.mem_cons_of_mem _ h'
        · exact List.mem_cons_self _ _

/-- Helper: insertion keeps a list sorted (weak byte-lexicographic
order). -/
theorem insortBy_sorted (y : Path) : ∀ l : List Path,
    l.Pairwise (fun a b => lexLt b a = false) →
    (insortBy y l).Pairwise (fun a b => lexLt b a = false) := by
  intro l
  induction l with
  | nil => intro _; simp [insortBy]
  | cons z zs ih =>
    intro hs
    unfold insortBy
    rw [List.pairwise_cons] at hs
    split_ifs with h
    · rw [List.pairwise_cons]
      constructor
      · intro b hb
        rcases List.mem_cons.mp hb with rfl | hb'
        · exact lexLt_asymm y b h
        · have hzb := hs.1 b hb'
          cases hlt : lexLt b y with
          | false => rfl
          | true =>
            have hcon := lexLt_trans b y z hlt h
            rw [hzb] at hcon
            cases hcon
      · exact List.pairwise_cons.mpr hs
    · rw [List.pairwise_cons]
      constructor
      · intro b hb
        rw [mem_insortBy] at hb
        rcases hb with rfl | hb'
        · simpa using h
        · exact hs.1 b hb'
      · exact ih hs.2

/-- Helper: `sortPaths` sorts. -/
theorem sortPaths_sorted : ∀ l : List Path,
    (sortPaths l).Pairwise (fun a b => lexLt b a = false) := by
  intro l
  induction l with
  | nil => simp [sortPaths]
  | cons z zs ih => exact insortBy_sorted z (sortPaths zs) ih

/-- Helper: in a weakly sorted list the worker never re-emits the
previous element and emits distinct elements. -/
theorem uniqueAdjAux_nodup : ∀ (l : List Path) (prev : Path),
    (prev :: l).Pairwise (fun a b => lexLt b a = false) →
    prev ∉ uniqueAdjAux prev l ∧ (uniqueAdjAux prev l).Nodup := by
  intro l
  induction l with
  | nil => intro prev _; simp [uniqueAdjAux]
  | cons b t ih =>
    intro prev hs
    rw [List.pairwise_cons] at hs
    unfold uniqueAdjAux
    split_ifs with h
    · subst h
      apply ih
      rw [List.pairwise_cons]
      exact ⟨fun c hc => hs.1 c (List.mem_cons_of_mem _ hc),
        (List.pairwise_cons.mp hs.2).2⟩
    · have hbt := ih b hs.2
      constructor
      · intro hmem
        rcases List.mem_cons.mp hmem with rfl | hmem'
        · exact h rfl
        · have hprevt : prev ∈ t := (mem_uniqueAdjAux t b prev).1 hmem'
          have h1 : lexLt b prev = false :=
            hs.1 b (List.mem_cons_self b t)
          have h2 : lexLt prev b = false :=
            (List.pairwise_cons.mp hs.2).1 prev hprevt
          exact h (lexLt_conn prev b h2 h1)
      · rw [List.nodup_cons]
        exact hbt

/-- Helper: deduplicating a sorted list yields distinct elements. -/
theorem uniqueAdj_nodup : ∀ l : List Path,
    l.Pairwise (fun a b => lexLt b a = false) → (uniqueAdj l).Nodup := by
  intro l hs
  cases l with
  | nil => simp [uniqueAdj]
  | cons a t =>
    unfold uniqueAdj
    rw [List.nodup_cons]
    exact ⟨(uniqueAdjAux_nodup t a hs).1, (uniqueAdjAux_nodup t a hs).2⟩

end Hymo

namespace Hymo

/-! ### Executor lemmas and C4 -/

/-- Helper: the fallback body keeps events, only appends to the queue
and id lists, and records every layer's parent and parent-basename. -/
theorem fallbackFold_spec (L : List Path) : ∀ st : ExecLoopSt,
    (fallbackFold L st).events = st.events ∧
    (∀ p ∈ st.magic_queue, p ∈ (fallbackFold L st).magic_queue) ∧
    (∀ id ∈ st.fallback_ids, id ∈ (fallbackFold L st).fallback_ids) ∧
    (∀ layer ∈ L, extract_module_root layer ≠ [] →
      extract_module_root layer ∈ (fallbackFold L st).magic_queue ∧
      (extract_id layer ≠ [] →
        extract_id layer ∈ (fallbackFold L st).fallback_ids)) := by
  induction L with
  | nil =>
    intro st
    exact ⟨rfl, fun p hp => hp, fun id hid => hid, by simp⟩
  | cons layer rest ih =>
    intro st
    unfold fallbackFold at ih ⊢
    simp only [List.foldl_cons]
    by_cases hroot : extract_module_root layer ≠ []
    · rw [if_pos hroot]
      obtain ⟨he, hq, hf, hlay⟩ := ih
        { st with
            magic_queue := st.magic_queue ++ [extract_module_root layer],
            fallback_ids :=
              if extract_id layer ≠ [] then
                st.fallback_ids ++ [extract_id layer]
              else st.fallback_ids }
      refine ⟨he, ?_, ?_, ?_⟩
      · intro p hp
        exact hq p (by simp [hp])
      · intro id hid
        apply hf
        split_ifs <;> simp [hid]
      · intro l hl hr
        rcases List.mem_cons.mp hl with rfl | hl'
        · refine ⟨hq _ (by simp), ?_⟩
          intro hid
          apply hf
          rw [if_pos hid]
          simp
        · exact hlay l hl' hr
    · rw [if_neg hroot]
      obtain ⟨he, hq, hf, hlay⟩ := ih st
      refine ⟨he, hq, hf, ?_⟩
      intro l hl hr
      rcases List.mem_cons.mp hl with rfl | hl'
      · exact absurd hr hroot
      · exact hlay l hl' hr

/-- Helper: the overlay loop emits one attempt event per operation in
order, only appends to the queue and id lists, and records the parents
and parent-basenames of every failed operation's layers. -/
theorem overlayLoop_spec (env : ExecEnv)
    (ops : List (Nat × OverlayOperation)) :
    ∀ st : ExecLoopSt,
    ((ops.foldl (overlayStep env) st).events =
      st.events ++ ops.map (fun iop =>
        ExecEvent.overlayAttempt iop.2.target (env.mount_ok iop.1))) ∧
    (∀ p ∈ st.magic_queue,
      p ∈ (ops.foldl (overlayStep env) st).magic_queue) ∧
    (∀ id ∈ st.fallback_ids,
      id ∈ (ops.foldl (overlayStep env) st).fallback_ids) ∧
    (∀ iop ∈ ops, env.mount_ok iop.1 = false →
      ∀ layer ∈ iop.2.lowerdirs, extract_module_root layer ≠ [] →
        extract_module_root layer ∈
          (ops.foldl (overlayStep env) st).magic_queue ∧
        (extract_id layer ≠ [] →
          extract_id layer ∈
            (ops.foldl (overlayStep env) st).fallback_ids)) := by
  induction ops with
  | nil =>
    intro st
    exact ⟨by simp, fun p hp => hp, fun id hid => hid, by simp⟩
  | cons iop rest ih =>
    intro st
    simp only [List.foldl_cons]
    obtain ⟨he1, hq1, hf1, hlay1⟩ := ih (overlayStep env st iop)
    have hstep : (overlayStep env st iop).events =
        st.events ++ [ExecEvent.overlayAttempt iop.2.target
          (env.mount_ok iop.1)] ∧
        (∀ p ∈ st.magic_queue, p ∈ (overlayStep env st iop).magic_queue) ∧
        (∀ id ∈ st.fallback_ids,
          id ∈ (overlayStep env st iop).fallback_ids) ∧
        (env.mount_ok iop.1 = false →
          ∀ layer ∈ iop.2.lowerdirs, extract_module_root layer ≠ [] →
            extract_module_root layer ∈ (overlayStep env st iop).magic_queue ∧
            (extract_id layer ≠ [] →
              extract_id layer ∈ (overlayStep env st iop).fallback_ids)) := by
      unfold overlayStep
      cases hok : env.mount_ok iop.1 with
      | true =>
        simp only [if_pos rfl]
        exact ⟨rfl, fun p hp => hp, fun id hid => hid,
          fun hfalse => by cases hfalse⟩
      | false =>
        simp only [Bool.false_eq_true, if_false]
        obtain ⟨he, hq, hf, hlay⟩ := fallbackFold_spec iop.2.lowerdirs
          { st with events := st.events ++
              [ExecEvent.overlayAttempt iop.2.target false] }
        exact ⟨he, hq, hf, fun _ => hlay⟩
    refine ⟨?_, ?_, ?_, ?_⟩
    · rw [he1, hstep.1]
      simp
    · intro p hp
      exact hq1 p (hstep.2.1 p hp)
    · intro id hid
      exact hf1 id (hstep.2.2.1 id hid)
    · intro iop' hiop hfail layer hlayer hroot
      rcases List.mem_cons.mp hiop with rfl | hiop'
      · obtain ⟨hin, hid⟩ := hstep.2.2.2 hfail layer hlayer hroot
        exact ⟨hq1 _ hin, fun h => hf1 _ (hid h)⟩
      · exact hlay1 iop' hiop' hfail layer hlayer hroot

end Hymo

namespace Hymo

/-- Helper: splitting at the first occurrence of `c`. -/
theorem revSplitFirst_append (c : Char) :
    ∀ xs ys : List Char, c ∉ xs →
    revSplitFirst c (xs ++ c :: ys) = some (xs, ys) := by
  intro xs
  induction xs with
  | nil =>
    intro ys _
    simp [revSplitFirst]
  | cons x xt ih =>
    intro ys hc
    have hx : x ≠ c := fun h => hc (by simp [h])
    simp only [List.cons_append, revSplitFirst, List.append_eq]
    rw [if_neg hx, ih ys (fun h => hc (by simp [h]))]

/-- Helper: `parentPath` on a successful split. -/
theorem parentPath_some (p : Path) (a b : List Char)
    (h : revSplitFirst '/' p.reverse = some (a, b)) :
    parentPath p = if b = [] then toPath "/" else b.reverse := by
  unfold parentPath
  rw [h]

/-- Helper: `fileName` on a successful split. -/
theorem fileName_some (p : Path) (a b : List Char)
    (h : revSplitFirst '/' p.reverse = some (a, b)) :
    fileName p = a.reverse := by
  unfold fileName
  rw [h]

/-- Helper: for a layer of the form `<dir>/<id>/<part>` (with `id` and
`part` slash-free and nonempty), the executor's extraction returns the
directory `<dir>/<id>` and the id `id`. -/
theorem extract_partition_layer (sr id part : Path)
    (hid : ('/' : Char) ∉ id) (hpart : ('/' : Char) ∉ part) :
    extract_module_root (sr ++ '/' :: id ++ '/' :: part) =
      sr ++ '/' :: id ∧
    extract_id (sr ++ '/' :: id ++ '/' :: part) = id := by
  have hsplit : revSplitFirst '/' (sr ++ '/' :: id ++ '/' :: part).reverse =
      some (part.reverse, (sr ++ '/' :: id).reverse) := by
    rw [show (sr ++ '/' :: id ++ '/' :: part).reverse =
        part.reverse ++ '/' :: (sr ++ '/' :: id).reverse by simp]
    exact revSplitFirst_append '/' part.reverse ((sr ++ '/' :: id).reverse)
      (by simpa using hpart)
  have hparent : parentPath (sr ++ '/' :: id ++ '/' :: part) =
      sr ++ '/' :: id := by
    rw [parentPath_some _ _ _ hsplit, if_neg (by simp)]
    simp
  have hpne : (sr ++ '/' :: id : Path) ≠ [] := by simp
  refine ⟨by unfold extract_module_root; exact hparent, ?_⟩
  unfold extract_id
  rw [hparent, if_pos hpne]
  have hsplit2 : revSplitFirst '/' (sr ++ '/' :: id : Path).reverse =
      some (id.reverse, sr.reverse) := by
    rw [show (sr ++ '/' :: id : Path).reverse =
        id.reverse ++ '/' :: sr.reverse by simp]
    exact revSplitFirst_append '/' id.reverse sr.reverse
      (by simpa using hid)
  rw [fileName_some _ _ _ hsplit2]
  simp

end Hymo

namespace Hymo

/-- C4 counterexample — the claim fails for a failed overlay operation
whose layer lies deeper than a partition root (an exact-rule overlay at
`/system/lib` with layer `/d/M/system/lib`): the executor queues the
layer's *parent* `/d/M/system` (not the module root `/d/M`) and removes
the parent's basename `system` (not the module id `M`) from the overlay
ids, so module `M` stays in the final overlay id set even though its
only operation failed, and the magic ids list is `["system"]`. -/
theorem C4_overlay_fallback_counterexample :
    (execute_plan c4Env c4Plan).1.overlay_module_ids = [toPath "M"] ∧
    (execute_plan c4Env c4Plan).1.magic_module_ids = [toPath "system"] := by
  constructor
  · decide
  · decide

/-- C4 amended — overlay fallback: the executor attempts every overlay
operation in order and runs the magic phase at most once, afterwards; for
every failed operation, each layer's *parent directory* is added to the
(deduplicated) magic queue together with the original magic roots, and
the parent's *basename* is removed from the final overlay id set (which
never grows).  For the common partition-root layers
`<dir>/<id>/<partition>`, the parent directory is the module root and the
basename is the module id, so those modules are demoted exactly as the
original claim states. -/
theorem C4_overlay_fallback (env : ExecEnv) (plan : MountPlan) :
    ((execute_plan env plan).2 =
      plan.overlay_ops.enum.map
        (fun iop => ExecEvent.overlayAttempt iop.2.target
          (env.mount_ok iop.1)) ++
      (if execQueue env plan = [] then []
       else [ExecEvent.magicRun (execQueue env plan) env.magic_ok])) ∧
    (execQueue env plan).Nodup ∧
    (∀ p ∈ plan.magic_module_paths, p ∈ execQueue env plan) ∧
    (∀ iop ∈ plan.overlay_ops.enum, env.mount_ok iop.1 = false →
      ∀ layer ∈ iop.2.lowerdirs, extract_module_root layer ≠ [] →
        extract_module_root layer ∈ execQueue env plan ∧
        (extract_id layer ≠ [] →
          extract_id layer ∉
            (execute_plan env plan).1.overlay_module_ids)) ∧
    (∀ id ∈ (execute_plan env plan).1.overlay_module_ids,
      id ∈ plan.overlay_module_ids) ∧
    (∀ sr id part : Path, ('/' : Char) ∉ id → ('/' : Char) ∉ part →
      extract_module_root (sr ++ '/' :: id ++ '/' :: part) =
        sr ++ '/' :: id ∧
      extract_id (sr ++ '/' :: id ++ '/' :: part) = id) := by
  obtain ⟨he, hq, hf, hlay⟩ := overlayLoop_spec env plan.overlay_ops.enum
    (ExecLoopSt.mk plan.magic_module_paths [] [])
  have hloop : execLoop env plan =
      plan.overlay_ops.enum.foldl (overlayStep env)
        (ExecLoopSt.mk plan.magic_module_paths [] []) := rfl
  rw [← hloop] at he hq hf hlay
  simp only [ExecLoopSt.mk] at he hq hf
  have hov : (execute_plan env plan).1.overlay_module_ids =
      uniqueAdj (sortPaths
        (if (execLoop env plan).fallback_ids ≠ [] then
          plan.overlay_module_ids.filter
            (fun id => !((execLoop env plan).fallback_ids.contains id))
        else plan.overlay_module_ids)) := rfl
  have hev : (execute_plan env plan).2 =
      (if execQueue env plan ≠ [] then
        (execLoop env plan).events ++
          [ExecEvent.magicRun (execQueue env plan) env.magic_ok]
      else (execLoop env plan).events) := rfl
  refine ⟨?_, ?_, ?_, ?_, ?_, ?_⟩
  · rw [hev, he]
    by_cases h : execQueue env plan = []
    · rw [if_neg (not_not_intro h), if_pos h]
      simp
    · rw [if_pos h, if_neg h]
      simp
  · exact uniqueAdj_nodup _ (sortPaths_sorted _)
  · intro p hp
    unfold execQueue
    rw [mem_uniqueAdj, mem_sortPaths]
    exact hq p hp
  · intro iop hiop hfail layer hlayer hroot
    obtain ⟨hin, hid⟩ := hlay iop hiop hfail layer hlayer hroot
    constructor
    · unfold execQueue
      rw [mem_uniqueAdj, mem_sortPaths]
      exact hin
    · intro hidne hmem
      have hfb := hid hidne
      rw [hov, mem_uniqueAdj, mem_sortPaths] at hmem
      rw [if_pos (by
        intro hnil
        rw [hnil] at hfb
        cases hfb)] at hmem
      have hflt := List.of_mem_filter hmem
      rw [Bool.not_eq_true'] at hflt
      rw [← Bool.not_eq_true] at hflt
      exact hflt (by simpa using hfb)
  · intro id hmem
    rw [hov, mem_uniqueAdj, mem_sortPaths] at hmem
    split_ifs at hmem with h
    · exact List.mem_of_mem_filter hmem
    · exact hmem
  · intro sr id part hid hpart
    exact extract_partition_layer sr id part hid hpart

end Hymo

namespace Hymo

/-! ### Lowerdir string lemmas and C3 -/

/-- Helper: a colon-free string splits to itself. -/
theorem splitColon_no_colon : ∀ p : Path, (':' : Char) ∉ p →
    splitColon p = [p] := by
  intro p
  induction p with
  | nil => intro _; rfl
  | cons c t ih =>
    intro hc
    have hcne : c ≠ ':' := fun h => hc (by simp [h])
    simp only [splitColon]
    rw [if_neg hcne, ih (fun h => hc (by simp [h]))]
    rfl

/-- Helper: splitting after a colon-free head segment. -/
theorem splitColon_append : ∀ (r rest : Path), (':' : Char) ∉ r →
    splitColon (r ++ ':' :: rest) = r :: splitColon rest := by
  intro r
  induction r with
  | nil =>
    intro rest _
    simp [splitColon]
  | cons c t ih =>
    intro rest hc
    have hcne : c ≠ ':' := fun h => hc (by simp [h])
    simp only [List.cons_append, splitColon, List.append_eq]
    rw [if_neg hcne, ih rest (fun h => hc (by simp [h]))]
    rfl

/-- Helper: the lowerdir option string splits back into the layer stack
followed by the mirror. -/
theorem splitColon_lowerdir : ∀ (roots : List Path) (mirror : Path),
    (∀ r ∈ roots, (':' : Char) ∉ r) → (':' : Char) ∉ mirror →
    splitColon (lowerdir_config roots mirror) = roots ++ [mirror] := by
  intro roots
  induction roots with
  | nil =>
    intro mirror _ hm
    exact splitColon_no_colon mirror hm
  | cons r rs ih =>
    intro mirror hr hm
    simp only [lowerdir_config]
    rw [splitColon_append r _ (hr r (by simp))]
    rw [ih mirror (fun r' h => hr r' (by simp [h])) hm]
    rfl

end Hymo

namespace Hymo

/-- All layers in `ls` lie under module `m`'s content directory. -/
def ownedLayers (m : Module) (sr : Path) (ls : List Path) : Prop :=
  ∀ l ∈ ls, ∃ suffix, l = (sr ++ '/' :: m.id) ++ suffix

/-- One module's processing extends the layer map by appending `m`-owned
blocks to existing entries and creating `m`-owned entries, never
removing anything. -/
def mapExtendsOwned (m : Module) (sr : Path)
    (old new : List (Path × List Path)) : Prop :=
  (∀ k vs', mapLookup k new = some vs' →
    (∃ vs block, mapLookup k old = some vs ∧ vs' = vs ++ block ∧
      ownedLayers m sr block) ∨
    (mapLookup k old = none ∧ ownedLayers m sr vs')) ∧
  (∀ k vs, mapLookup k old = some vs →
    ∃ block, mapLookup k new = some (vs ++ block) ∧
      ownedLayers m sr block)

/-- Helper: reflexivity of the extension relation. -/
theorem mapExtendsOwned_refl (m : Module) (sr : Path)
    (x : List (Path × List Path)) : mapExtendsOwned m sr x x := by
  constructor
  · intro k vs' h
    exact Or.inl ⟨vs', [], h, by simp, by intro l hl; cases hl⟩
  · intro k vs h
    exact ⟨[], by simpa using h, by intro l hl; cases hl⟩

/-- Helper: transitivity of the extension relation. -/
theorem mapExtendsOwned_trans (m : Module) (sr : Path)
    (x y z : List (Path × List Path)) (h1 : mapExtendsOwned m sr x y)
    (h2 : mapExtendsOwned m sr y z) : mapExtendsOwned m sr x z := by
  constructor
  · intro k vs' h
    rcases h2.1 k vs' h with ⟨vs, block, hy, rfl, hown⟩ | ⟨hy, hown⟩
    · rcases h1.1 k vs hy with ⟨vs0, block0, hx, rfl, hown0⟩ | ⟨hx, hown0⟩
      · refine Or.inl ⟨vs0, block0 ++ block, hx, by simp, ?_⟩
        intro l hl
        rcases List.mem_append.mp hl with h' | h'
        · exact hown0 l h'
        · exact hown l h'
      · refine Or.inr ⟨hx, ?_⟩
        intro l hl
        rcases List.mem_append.mp hl with h' | h'
        · exact hown0 l h'
        · exact hown l h'
    · cases hx : mapLookup k x with
      | none => exact Or.inr ⟨rfl, hown⟩
      | some vs0 =>
        obtain ⟨block, hy', _⟩ := h1.2 k vs0 hx
        rw [hy] at hy'
        cases hy'
  · intro k vs h
    obtain ⟨block1, hy, hown1⟩ := h1.2 k vs h
    obtain ⟨block2, hz, hown2⟩ := h2.2 k (vs ++ block1) hy
    refine ⟨block1 ++ block2, by simpa [List.append_assoc] using hz, ?_⟩
    intro l hl
    rcases List.mem_append.mp hl with h' | h'
    · exact hown1 l h'
    · exact hown2 l h'

/-- Helper: `lexLt` is irreflexive. -/
theorem lexLt_irrefl : ∀ a : Path, lexLt a a = false := by
  intro a
  induction a with
  | nil => rfl
  | cons x xs ih =>
    unfold lexLt
    rw [if_neg (lt_irrefl x), if_neg (lt_irrefl x)]
    exact ih

/-- Helper: strict totality of `lexLt`. -/
theorem lexLt_of_ne (a b : Path) (hne : a ≠ b)
    (hab : lexLt a b = false) : lexLt b a = true := by
  cases h : lexLt b a with
  | true => rfl
  | false => exact absurd (lexLt_conn a b hab h) hne

/-- Sortedness of the layer map keys (`std::map` invariant). -/
def keysSorted (x : List (Path × List Path)) : Prop :=
  x.Pairwise (fun a b => lexLt a.1 b.1 = true)

/-- Helper: unfolding equation of `mapLookup` on a cons cell. -/
theorem mapLookup_cons_eq (k : Path) (kv : Path × List Path)
    (rest : List (Path × List Path)) :
    mapLookup k (kv :: rest) =
      if k = kv.1 then some kv.2 else mapLookup k rest := by
  simp only [mapLookup]

/-- Helper: unfolding equation of `mapAppend` on a cons cell. -/
theorem mapAppend_cons_eq (k v : Path) (kv : Path × List Path)
    (rest : List (Path × List Path)) :
    mapAppend k v (kv :: rest) =
      if k = kv.1 then (kv.1, kv.2 ++ [v]) :: rest
      else if lexLt k kv.1 then (k, [v]) :: kv :: rest
      else kv :: mapAppend k v rest := by
  simp only [mapAppend]

/-- Helper: a key smaller than every key of the map is absent. -/
theorem mapLookup_none (k : Path) :
    ∀ x : List (Path × List Path), (∀ kv ∈ x, k ≠ kv.1) →
    mapLookup k x = none := by
  intro x
  induction x with
  | nil => intro _; rfl
  | cons kv rest ih =>
    intro h
    unfold mapLookup
    rw [if_neg (h kv (by simp))]
    exact ih (fun kv' h' => h kv' (by simp [h']))

/-- Helper: the keys of `mapAppend k v x` are `k` and the keys of `x`. -/
theorem mapAppend_keys (k v : Path) :
    ∀ x : List (Path × List Path), ∀ kv' ∈ mapAppend k v x,
    kv'.1 = k ∨ ∃ kv'' ∈ x, kv'.1 = kv''.1 := by
  intro x
  induction x with
  | nil =>
    intro kv' h
    unfold mapAppend at h
    rw [List.mem_singleton] at h
    subst h
    exact Or.inl rfl
  | cons kv rest ih =>
    intro kv' h
    unfold mapAppend at h
    split_ifs at h with h1 h2
    · rcases List.mem_cons.mp h with rfl | h'
      · exact Or.inr ⟨kv, by simp, rfl⟩
      · exact Or.inr ⟨kv', by simp [h'], rfl⟩
    · rcases List.mem_cons.mp h with rfl | h'
      · exact Or.inl rfl
      · exact Or.inr ⟨kv', by simp [h'], rfl⟩
    · rcases List.mem_cons.mp h with rfl | h'
      · exact Or.inr ⟨kv', by simp, rfl⟩
      · rcases ih kv' h' with h'' | ⟨kv'', hmem, he⟩
        · exact Or.inl h''
        · exact Or.inr ⟨kv'', by simp [hmem], he⟩

/-- Helper: `mapAppend` preserves the `std::map` key order. -/
theorem mapAppend_keysSorted (k v : Path) :
    ∀ x : List (Path × List Path), keysSorted x →
    keysSorted (mapAppend k v x) := by
  intro x
  induction x with
  | nil => intro _; simp [mapAppend, keysSorted]
  | cons kv rest ih =>
    intro hs
    unfold keysSorted at hs ⊢
    rw [List.pairwise_cons] at hs
    unfold mapAppend
    split_ifs with h1 h2
    · rw [List.pairwise_cons]
      exact ⟨fun b hb => hs.1 b hb, hs.2⟩
    · rw [List.pairwise_cons]
      constructor
      · intro b hb
        rcases List.mem_cons.mp hb with rfl | hb'
        · exact h2
        · exact lexLt_trans k kv.1 b.1 h2 (hs.1 b hb')
      · exact List.pairwise_cons.mpr hs
    · rw [List.pairwise_cons]
      constructor
      · intro b hb
        rcases mapAppend_keys k v rest b hb with heq | ⟨kv'', hmem, he⟩
        · rw [heq]
          exact lexLt_of_ne k kv.1 (fun h => h1 h) (by simpa using h2)
        · rw [he]
          exact hs.1 kv'' hmem
      · exact ih hs.2

/-- Helper: lookup after a map append (on a key-sorted map). -/
theorem mapLookup_mapAppend (k v : Path) :
    ∀ x : List (Path × List Path), keysSorted x → ∀ k' : Path,
    mapLookup k' (mapAppend k v x) =
      if k' = k then some (((mapLookup k x).getD []) ++ [v])
      else mapLookup k' x := by
  intro x
  induction x with
  | nil =>
    intro _ k'
    by_cases h : k' = k
    · simp [mapAppend, mapLookup, h]
    · simp [mapAppend, mapLookup, h]
  | cons kv rest ih =>
    intro hs k'
    unfold keysSorted at hs
    rw [List.pairwise_cons] at hs
    by_cases h1 : k = kv.1
    · have hm : mapAppend k v (kv :: rest) = (kv.1, kv.2 ++ [v]) :: rest := by
        unfold mapAppend
        rw [if_pos h1]
      rw [hm]
      by_cases h : k' = k
      · simp [mapLookup, h, h1]
      · have h' : k' ≠ kv.1 := fun he => h (he.trans h1.symm)
        simp [mapLookup, h, h']
    · by_cases h2 : lexLt k kv.1 = true
      · have hm : mapAppend k v (kv :: rest) = (k, [v]) :: kv :: rest := by
          unfold mapAppend
          rw [if_neg h1, if_pos h2]
        rw [hm]
        by_cases h : k' = k
        · have hnone : mapLookup k (kv :: rest) = none := by
            apply mapLookup_none
            intro kv' hkv'
            rcases List.mem_cons.mp hkv' with heq | h'
            · rw [heq]
              exact h1
            · intro he
              have hcon := lexLt_trans k kv.1 kv'.1 h2 (hs.1 kv' h')
              rw [he, lexLt_irrefl] at hcon
              cases hcon
          rw [if_pos h, hnone]
          simp [mapLookup, h]
        · simp [mapLookup, h]
      · have hm : mapAppend k v (kv :: rest) = kv :: mapAppend k v rest := by
          rw [mapAppend_cons_eq, if_neg h1, if_neg h2]
        rw [hm]
        by_cases hk : k' = kv.1
        · have hne : k' ≠ k := fun he => h1 (he.symm.trans hk)
          have hne2 : kv.1 ≠ k := fun he => h1 he.symm
          simp [mapLookup, hk, hne, hne2]
        · rw [mapLookup_cons_eq, if_neg hk, ih hs.2 k',
            mapLookup_cons_eq k' kv rest, if_neg hk,
            mapLookup_cons_eq k kv rest, if_neg h1]

/-- Helper: on a key-sorted map, membership determines lookup. -/
theorem mapLookup_of_mem :
    ∀ x : List (Path × List Path), keysSorted x →
    ∀ kv ∈ x, mapLookup kv.1 x = some kv.2 := by
  intro x
  induction x with
  | nil => intro _ kv h; cases h
  | cons kv0 rest ih =>
    intro hs kv h
    unfold keysSorted at hs
    rw [List.pairwise_cons] at hs
    unfold mapLookup
    rcases List.mem_cons.mp h with rfl | h'
    · rw [if_pos rfl]
    · rw [if_neg (by
        intro he
        have := hs.1 kv h'
        rw [← he, lexLt_irrefl] at this
        cases this)]
      exact ih hs.2 kv h'

/-- Helper: appending an owned layer is an owned extension. -/
theorem mapExtendsOwned_append (m : Module) (sr : Path) (k v : Path)
    (x : List (Path × List Path)) (hs : keysSorted x)
    (hv : ∃ suffix, v = (sr ++ '/' :: m.id) ++ suffix) :
    mapExtendsOwned m sr x (mapAppend k v x) := by
  have hown : ownedLayers m sr [v] := by
    intro l hl
    rw [List.mem_singleton] at hl
    subst hl
    exact hv
  constructor
  · intro k' vs' h
    rw [mapLookup_mapAppend k v x hs k'] at h
    split_ifs at h with he
    · subst he
      cases hx : mapLookup k' x with
      | some vs =>
        rw [hx] at h
        exact Or.inl ⟨vs, [v], rfl, by simpa using h.symm, hown⟩
      | none =>
        rw [hx] at h
        have h2 := Option.some.inj h
        refine Or.inr ⟨rfl, ?_⟩
        intro l hl
        rw [← h2] at hl
        simp only [Option.getD_none, List.nil_append,
          List.mem_singleton] at hl
        subst hl
        exact hv
    · exact Or.inl ⟨vs', [], h, by simp, fun l hl => absurd hl
        (List.not_mem_nil l)⟩
  · intro k' vs hvs
    rw [mapLookup_mapAppend k v x hs k']
    by_cases he : k' = k
    · subst he
      refine ⟨[v], ?_, hown⟩
      rw [if_pos rfl, hvs]
      simp
    · refine ⟨[], ?_, fun l hl => absurd hl (List.not_mem_nil l)⟩
      rw [if_neg he, hvs]
      simp

/-- Each entry of the layer map splits into per-module layer blocks, in
the order of the module list, each block owned by its module. -/
def layersOrdered (sr : Path) (ms : List Module)
    (x : List (Path × List Path)) : Prop :=
  ∀ kv ∈ x, ∃ blocks : List (List Path),
    blocks.length = ms.length ∧ kv.2 = blocks.flatten ∧
    ∀ p ∈ ms.zip blocks, ownedLayers p.1 sr p.2

/-- Helper: a successful lookup comes from a map entry. -/
theorem mapLookup_some_mem (k : Path) (vs : List Path) :
    ∀ x : List (Path × List Path), mapLookup k x = some vs →
    (k, vs) ∈ x := by
  intro x
  induction x with
  | nil =>
    intro h
    simp [mapLookup] at h
  | cons kv rest ih =>
    intro h
    rw [mapLookup_cons_eq] at h
    by_cases hk : k = kv.1
    · rw [if_pos hk] at h
      have hv : vs = kv.2 := (Option.some.inj h).symm
      exact List.mem_cons.mpr (Or.inl (by rw [hk, hv]))
    · rw [if_neg hk] at h
      exact List.mem_cons.mpr (Or.inr (ih h))

/-- Helper: flattening empty blocks gives nothing. -/
theorem flatten_replicate_nil : ∀ n : Nat,
    (List.replicate n ([] : List Path)).flatten = [] := by
  intro n
  induction n with
  | zero => rfl
  | succ n ih => simp [List.replicate_succ, ih]

/-- Helper: an owned extension of the layer map appends one per-module
block slot to every entry. -/
theorem layersOrdered_extend (m : Module) (sr : Path) (ms : List Module)
    (x x' : List (Path × List Path)) (hs' : keysSorted x')
    (hord : layersOrdered sr ms x) (hext : mapExtendsOwned m sr x x') :
    layersOrdered sr (ms ++ [m]) x' := by
  intro kv hkv
  have hlk : mapLookup kv.1 x' = some kv.2 := mapLookup_of_mem x' hs' kv hkv
  rcases hext.1 kv.1 kv.2 hlk with ⟨vs, block, hvs, hval, hown⟩ |
    ⟨hnone, hown⟩
  · have hmem : (kv.1, vs) ∈ x := mapLookup_some_mem kv.1 vs x hvs
    rcases hord (kv.1, vs) hmem with ⟨blocks, hlen, hflat, hblocks⟩
    have hflat' : vs = blocks.flatten := hflat
    refine ⟨blocks ++ [block], by simp [hlen], ?_, ?_⟩
    · rw [hval, List.flatten_append]
      simp only [List.flatten_cons, List.flatten_nil, List.append_nil]
      rw [hflat']
    · intro p hp
      rw [List.zip_append hlen.symm] at hp
      rcases List.mem_append.mp hp with hp1 | hp2
      · exact hblocks p hp1
      · have hpe : p = (m, block) := by simpa using hp2
        rw [hpe]
        exact hown
  · refine ⟨List.replicate ms.length [] ++ [kv.2], by simp, ?_, ?_⟩
    · rw [List.flatten_append, flatten_replicate_nil]
      simp
    · rintro ⟨p1, p2⟩ hp
      rw [List.zip_append (by simp)] at hp
      rcases List.mem_append.mp hp with hp1 | hp2
      · have h2 := (List.of_mem_zip hp1).2
        have h3 : p2 = [] := List.eq_of_mem_replicate h2
        rw [h3]
        intro l hl
        simp at hl
      · have hpe : (p1, p2) = (m, kv.2) := by simpa using hp2
        rw [Prod.mk.injEq] at hpe
        rw [hpe.1, hpe.2]
        exact hown

/-- Helper: one planner entry step only appends module-owned layers. -/
theorem gpEntryStep_extends (m : Module) (sr : Path) (rules : List Rule)
    (dflt : String) (part : String) (acc : GpModuleAcc) (e : ModEntry)
    (hs : keysSorted acc.st.overlay_layers) :
    keysSorted (gpEntryStep rules dflt (sr ++ '/' :: m.id) part acc
        e).st.overlay_layers ∧
    mapExtendsOwned m sr acc.st.overlay_layers
      (gpEntryStep rules dflt (sr ++ '/' :: m.id) part acc
        e).st.overlay_layers := by
  simp only [gpEntryStep]
  split_ifs <;>
    first
      | exact ⟨hs, mapExtendsOwned_refl m sr _⟩
      | exact ⟨mapAppend_keysSorted _ _ _ hs,
          mapExtendsOwned_append m sr _ _ _ hs ⟨_, rfl⟩⟩

/-- Helper: the planner entry fold only appends module-owned layers. -/
theorem gpEntryFold_extends (m : Module) (sr : Path) (rules : List Rule)
    (dflt : String) (part : String) :
    ∀ (es : List ModEntry) (acc : GpModuleAcc),
    keysSorted acc.st.overlay_layers →
    keysSorted ((es.foldl
        (gpEntryStep rules dflt (sr ++ '/' :: m.id) part)
        acc).st.overlay_layers) ∧
    mapExtendsOwned m sr acc.st.overlay_layers
      ((es.foldl (gpEntryStep rules dflt (sr ++ '/' :: m.id) part)
        acc).st.overlay_layers) := by
  intro es
  induction es with
  | nil =>
    intro acc hs
    exact ⟨hs, mapExtendsOwned_refl m sr _⟩
  | cons e rest ih =>
    intro acc hs
    simp only [List.foldl_cons]
    have h1 := gpEntryStep_extends m sr rules dflt part acc e hs
    have h2 := ih _ h1.1
    exact ⟨h2.1, mapExtendsOwned_trans m sr _ _ _ h1.2 h2.2⟩

/-- Helper: one planner partition step only appends module-owned
layers. -/
theorem gpPartStep_extends (env : FsEnv) (m : Module) (sr : Path)
    (rules : List Rule) (dflt : String) (acc : GpModuleAcc)
    (part : String) (hs : keysSorted acc.st.overlay_layers) :
    keysSorted (gpPartStep env rules dflt (sr ++ '/' :: m.id) m.id acc
        part).st.overlay_layers ∧
    mapExtendsOwned m sr acc.st.overlay_layers
      (gpPartStep env rules dflt (sr ++ '/' :: m.id) m.id acc
        part).st.overlay_layers := by
  cases htree : env.tree m.id part with
  | none =>
    simp only [gpPartStep, htree]
    exact ⟨hs, mapExtendsOwned_refl m sr _⟩
  | some es =>
    simp only [gpPartStep, htree]
    exact gpEntryFold_extends m sr rules dflt part es acc hs

/-- Helper: the planner partition fold only appends module-owned
layers. -/
theorem gpPartFold_extends (env : FsEnv) (m : Module) (sr : Path)
    (rules : List Rule) (dflt : String) :
    ∀ (parts : List String) (acc : GpModuleAcc),
    keysSorted acc.st.overlay_layers →
    keysSorted ((parts.foldl
        (gpPartStep env rules dflt (sr ++ '/' :: m.id) m.id)
        acc).st.overlay_layers) ∧
    mapExtendsOwned m sr acc.st.overlay_layers
      ((parts.foldl (gpPartStep env rules dflt (sr ++ '/' :: m.id) m.id)
        acc).st.overlay_layers) := by
  intro parts
  induction parts with
  | nil =>
    intro acc hs
    exact ⟨hs, mapExtendsOwned_refl m sr _⟩
  | cons part rest ih =>
    intro acc hs
    simp only [List.foldl_cons]
    have h1 := gpPartStep_extends env m sr rules dflt acc part hs
    have h2 := ih _ h1.1
    exact ⟨h2.1, mapExtendsOwned_trans m sr _ _ _ h1.2 h2.2⟩

/-- Helper: the module epilogue never touches the overlay layer map. -/
theorem gpModuleFinish_layers (m : Module) (cp : Path)
    (acc : GpModuleAcc) (dflt : String) :
    (gpModuleFinish m cp acc dflt).overlay_layers =
      acc.st.overlay_layers := by
  simp only [gpModuleFinish]
  split_ifs <;> rfl

/-- Helper: the no-rules overlay fold only appends module-owned
layers. -/
theorem gpNoRulesFold_extends (env : FsEnv) (m : Module) (sr : Path) :
    ∀ (parts : List String) (acc : GpState × Bool),
    keysSorted acc.1.overlay_layers →
    keysSorted ((parts.foldl
        (gpNoRulesStep env (sr ++ '/' :: m.id) m.id)
        acc).1.overlay_layers) ∧
    mapExtendsOwned m sr acc.1.overlay_layers
      ((parts.foldl (gpNoRulesStep env (sr ++ '/' :: m.id) m.id)
        acc).1.overlay_layers) := by
  intro parts
  induction parts with
  | nil =>
    intro acc hs
    exact ⟨hs, mapExtendsOwned_refl m sr _⟩
  | cons part rest ih =>
    intro acc hs
    simp only [List.foldl_cons]
    have h1 : keysSorted (gpNoRulesStep env (sr ++ '/' :: m.id) m.id acc
          part).1.overlay_layers ∧
        mapExtendsOwned m sr acc.1.overlay_layers
          (gpNoRulesStep env (sr ++ '/' :: m.id) m.id acc
            part).1.overlay_layers := by
      cases htree : env.tree m.id part with
      | none =>
        simp only [gpNoRulesStep, htree]
        exact ⟨hs, mapExtendsOwned_refl m sr _⟩
      | some es =>
        simp only [gpNoRulesStep, htree]
        split_ifs with h
        · exact ⟨mapAppend_keysSorted _ _ _ hs,
            mapExtendsOwned_append m sr _ _ _ hs ⟨_, rfl⟩⟩
        · exact ⟨hs, mapExtendsOwned_refl m sr _⟩
    have h2 := ih _ h1.1
    exact ⟨h2.1, mapExtendsOwned_trans m sr _ _ _ h1.2 h2.2⟩

/-- Helper: the whole no-rules overlay branch only appends module-owned
layers. -/
theorem gpNoRulesOverlay_extends (env : FsEnv) (m : Module) (sr : Path)
    (parts : List String) (st : GpState)
    (hs : keysSorted st.overlay_layers) :
    keysSorted (gpNoRulesOverlay env (sr ++ '/' :: m.id) m.id parts
        st).1.overlay_layers ∧
    mapExtendsOwned m sr st.overlay_layers
      (gpNoRulesOverlay env (sr ++ '/' :: m.id) m.id parts
        st).1.overlay_layers := by
  unfold gpNoRulesOverlay
  exact gpNoRulesFold_extends env m sr parts (st, false) hs

/-- Helper: one planner module step only appends module-owned layers. -/
theorem gpModuleStep_extends (env : FsEnv) (sr : Path)
    (parts : List String) (st : GpState) (m : Module)
    (hs : keysSorted st.overlay_layers) :
    keysSorted (gpModuleStep env sr parts st m).overlay_layers ∧
    mapExtendsOwned m sr st.overlay_layers
      (gpModuleStep env sr parts st m).overlay_layers := by
  unfold gpModuleStep
  split_ifs <;>
    first
      | exact ⟨hs, mapExtendsOwned_refl m sr _⟩
      | exact gpNoRulesOverlay_extends env m sr parts st hs
      | (rw [gpModuleFinish_layers]
         exact gpPartFold_extends env m sr m.rules _ parts
           (GpModuleAcc.mk st false false false) hs)

/-- Helper: the planner module fold keeps the layer map sorted and its
entries split into per-module blocks in module order. -/
theorem gpFold_ordered (env : FsEnv) (sr : Path) (parts : List String) :
    ∀ (rest : List Module) (ms : List Module) (x : GpState),
    keysSorted x.overlay_layers → layersOrdered sr ms x.overlay_layers →
    keysSorted ((rest.foldl (gpModuleStep env sr parts)
        x).overlay_layers) ∧
    layersOrdered sr (ms ++ rest)
      ((rest.foldl (gpModuleStep env sr parts) x).overlay_layers) := by
  intro rest
  induction rest with
  | nil =>
    intro ms x hs hord
    simpa using ⟨hs, hord⟩
  | cons m rest ih =>
    intro ms x hs hord
    simp only [List.foldl_cons]
    have h1 := gpModuleStep_extends env sr parts x m hs
    have h2 := layersOrdered_extend m sr ms x.overlay_layers
      (gpModuleStep env sr parts x m).overlay_layers h1.1 hord h1.2
    have h3 := ih (ms ++ [m]) (gpModuleStep env sr parts x m) h1.1 h2
    rw [List.append_assoc] at h3
    simpa using h3

/-- The planner's accumulated layer map is key-sorted and its entries
are per-module blocks in module order. -/
theorem gpCollect_ordered (env : FsEnv) (partitions : List String)
    (modules : List Module) (sr : Path) :
    keysSorted (gpCollect env partitions modules sr).overlay_layers ∧
    layersOrdered sr modules
      (gpCollect env partitions modules sr).overlay_layers := by
  unfold gpCollect
  have h := gpFold_ordered env sr (BUILTIN_PARTITIONS ++ partitions)
    modules [] (GpState.mk [] [] [] [] [])
    List.Pairwise.nil
    (fun kv hkv => absurd hkv (List.not_mem_nil kv))
  simpa using h

/-- Helper: every operation built by the planner's final loop takes its
lowerdir list verbatim from a layer-map entry. -/
theorem gpOpsFold_mem (env : FsEnv) :
    ∀ (layers : List (Path × List Path)) (acc : List OverlayOperation)
      (op : OverlayOperation),
    op ∈ layers.foldl (gpOpStep env) acc →
    op ∈ acc ∨ ∃ kv ∈ layers, op.lowerdirs = kv.2 := by
  intro layers
  induction layers with
  | nil =>
    intro acc op h
    exact Or.inl (by simpa using h)
  | cons kv rest ih =>
    intro acc op h
    simp only [List.foldl_cons] at h
    rcases ih (gpOpStep env acc kv) op h with h1 | ⟨kv', hkv', he⟩
    · unfold gpOpStep at h1
      split_ifs at h1
      all_goals
        first
          | exact Or.inl h1
          | exact (List.mem_append.mp h1).elim Or.inl
              (fun h4 => Or.inr ⟨kv, by simp,
                by rw [List.mem_singleton.mp h4]⟩)
    · exact Or.inr ⟨kv', by simp [hkv'], he⟩

/-- Helper: membership form of `gpOps`. -/
theorem gpOps_mem (env : FsEnv) (layers : List (Path × List Path))
    (op : OverlayOperation) (h : op ∈ gpOps env layers) :
    ∃ kv ∈ layers, op.lowerdirs = kv.2 := by
  rcases gpOpsFold_mem env layers [] op h with h1 | h2
  · simp at h1
  · exact h2

/-- The emitter only appends to an operation's lowerdir stack and never
changes its target: each operation of the new list extends the
corresponding old one. -/
def opsExtend (old new : List OverlayOperation) : Prop :=
  List.Forall₂
    (fun op op2 => op2.target = op.target ∧
      ∃ ext, op2.lowerdirs = op.lowerdirs ++ ext)
    old new

/-- Helper: reflexivity of the operation-extension relation. -/
theorem opsExtend_refl (ops : List OverlayOperation) :
    opsExtend ops ops :=
  List.forall₂_same.mpr (fun op _ => ⟨rfl, ⟨[], by simp⟩⟩)

/-- Helper: transitivity of the operation-extension relation. -/
theorem opsExtend_trans :
    ∀ {a b c : List OverlayOperation},
    opsExtend a b → opsExtend b c → opsExtend a c := by
  intro a b c h1
  induction h1 generalizing c with
  | nil =>
    intro h2
    cases h2
    exact List.Forall₂.nil
  | cons hxy h1' ih =>
    intro h2
    cases h2 with
    | cons hyz h2' =>
      refine List.Forall₂.cons ⟨hyz.1.trans hxy.1, ?_⟩ (ih h2')
      rcases hxy.2 with ⟨e1, he1⟩
      rcases hyz.2 with ⟨e2, he2⟩
      exact ⟨e1 ++ e2, by rw [he2, he1, List.append_assoc]⟩

/-- Helper: the coverage walk only appends to lowerdir stacks. -/
theorem coverCheck_opsExtend (env : FsEnv) (mp v : Path) :
    ∀ ops : List OverlayOperation,
    opsExtend ops (coverCheck env mp v ops).2 := by
  intro ops
  induction ops with
  | nil => exact List.Forall₂.nil
  | cons op rest ih =>
    simp only [coverCheck]
    split_ifs with h1 h2 h3
    · exact opsExtend_refl _
    · exact List.Forall₂.cons ⟨rfl, ⟨[mp ++ '/' :: op.target.drop 1],
        rfl⟩⟩ (opsExtend_refl rest)
    · exact opsExtend_refl _
    · exact List.Forall₂.cons ⟨rfl, ⟨[], by simp⟩⟩ ih

/-- Helper: one emitter entry step only appends to lowerdir stacks. -/
theorem processEntry_opsExtend (env : FsEnv) (rules : List Rule)
    (dmode : String) (mp : Path) (st : EmitState) (prunes : List Path)
    (e : ModEntry) :
    opsExtend st.ops
      (processEntry env rules dmode mp st prunes e).1.ops := by
  unfold processEntry
  split_ifs <;>
    first
      | exact opsExtend_refl _
      | exact coverCheck_opsExtend env mp e.vpath st.ops

/-- Helper: a partition walk only appends to lowerdir stacks. -/
theorem walkFold_opsExtend (env : FsEnv) (rules : List Rule)
    (dmode : String) (mp : Path) (entries : List ModEntry) :
    ∀ (st : EmitState) (pr : List Path),
    opsExtend st.ops
      ((entries.foldl
        (fun acc e =>
          if pruned acc.2 e.vpath then acc
          else processEntry env rules dmode mp acc.1 acc.2 e)
        (st, pr)).1.ops) := by
  induction entries with
  | nil =>
    intro st pr
    exact opsExtend_refl _
  | cons e rest ih =>
    intro st pr
    simp only [List.foldl_cons]
    by_cases hp : pruned pr e.vpath = true
    · rw [if_pos hp]
      exact ih st pr
    · rw [if_neg hp]
      exact opsExtend_trans
        (processEntry_opsExtend env rules dmode mp st pr e)
        (ih (processEntry env rules dmode mp st pr e).1
          (processEntry env rules dmode mp st pr e).2)

/-- Helper: one emitter partition step only appends to lowerdir
stacks. -/
theorem modulePartStep_opsExtend (env : FsEnv) (m : Module) (sr : Path)
    (st : EmitState) (part : String) :
    opsExtend st.ops (modulePartStep env m sr st part).ops := by
  cases htree : env.tree m.id part with
  | none =>
    simp only [modulePartStep, htree]
    exact opsExtend_refl _
  | some entries =>
    simp only [modulePartStep, htree]
    unfold partitionWalk
    exact walkFold_opsExtend env m.rules _ _ entries st []

/-- Helper: a module walk only appends to lowerdir stacks. -/
theorem moduleWalk_opsExtend (env : FsEnv) (m : Module) (sr : Path)
    (parts : List String) :
    ∀ st : EmitState,
    opsExtend st.ops (moduleWalk env m sr parts st).ops := by
  unfold moduleWalk
  induction parts with
  | nil =>
    intro st
    exact opsExtend_refl _
  | cons part rest ih =>
    intro st
    simp only [List.foldl_cons]
    exact opsExtend_trans (modulePartStep_opsExtend env m sr st part)
      (ih _)

/-- Helper: the emitter module fold only appends to lowerdir stacks. -/
theorem emitFold_opsExtend (env : FsEnv) (sr : Path)
    (parts : List String) (ids : List Path) :
    ∀ (ms : List Module) (st : EmitState),
    opsExtend st.ops
      ((ms.foldl
        (fun st m =>
          if ids.contains m.id then moduleWalk env m sr parts st else st)
        st).ops) := by
  intro ms
  induction ms with
  | nil =>
    intro st
    exact opsExtend_refl _
  | cons m rest ih =>
    intro st
    simp only [List.foldl_cons]
    by_cases h : ids.contains m.id = true
    · rw [if_pos h]
      exact opsExtend_trans (moduleWalk_opsExtend env m sr parts st)
        (ih _)
    · rw [if_neg h]
      exact ih st

/-- Helper: the whole rule-collection phase only appends to lowerdir
stacks of the plan's operations. -/
theorem emitCollect_opsExtend (env : FsEnv) (partitions : List String)
    (modules : List Module) (sr : Path) (plan : MountPlan) :
    opsExtend plan.overlay_ops
      (emitCollect env partitions modules sr plan).ops := by
  unfold emitCollect
  exact emitFold_opsExtend env sr (BUILTIN_PARTITIONS ++ partitions)
    plan.hymofs_module_ids modules.reverse
    (EmitState.mk plan.overlay_ops [] [] (emitHides0 env modules plan))

/-- C3 counterexample — lowerdir ordering: module `B` (id after `A` in
the descending Z→A module order, hence higher priority) is a HymoFS
module whose staged content is covered by the overlay operation produced
for `A`; `update_hymofs_mappings` appends `B`'s layer at the END of the
operation's lowerdir stack, so the final colon-separated lowerdir string
lists the lower-priority module `A` first, violating the claimed
priority order (the mirror does remain last). -/
theorem C3_lowerdir_ordering_counterexample :
    c3Modules.map (fun m => m.id) = [toPath "B", toPath "A"] ∧
    (updateHymofsMappings c3Env [] c3Modules (toPath "/data")
        (generate_plan c3Env [] c3Modules
          (toPath "/data"))).1.overlay_ops =
      [OverlayOperation.mk (toPath "/system")
        [toPath "/data/A/system", toPath "/data/B/system"]] ∧
    lowerdir_config [toPath "/data/A/system", toPath "/data/B/system"]
        (toPath "/m/system") =
      toPath "/data/A/system:/data/B/system:/m/system" := by
  decide

/-- C3 — lowerdir ordering (amended): (1) within `generate_plan`, every
overlay operation's lowerdir stack is the concatenation of per-module
layer blocks in the order of the module list (Z→A by id, i.e. priority
order), each block consisting only of layers under the owning module's
content directory; (2) the `mount_overlay` lowerdir option string keeps
the private mirror as the single final component after all module
layers; but (3) `update_hymofs_mappings` afterwards only appends
covered HymoFS-module layers at the tail of each operation's existing
stack (targets unchanged), which preserves the mirror-last property but
not the priority order itself (see the counterexample). -/
theorem C3_lowerdir_ordering (env : FsEnv) (partitions : List String)
    (modules : List Module) (sr mirror : Path) :
    (∀ op ∈ (generate_plan env partitions modules sr).overlay_ops,
      ∃ blocks : List (List Path),
        blocks.length = modules.length ∧
        op.lowerdirs = blocks.flatten ∧
        ∀ p ∈ modules.zip blocks, ownedLayers p.1 sr p.2) ∧
    (∀ ls : List Path, (∀ l ∈ ls, (':' : Char) ∉ l) →
      (':' : Char) ∉ mirror →
      splitColon (lowerdir_config ls mirror) = ls ++ [mirror]) ∧
    (env.hymo_available = true →
      opsExtend (generate_plan env partitions modules sr).overlay_ops
        (updateHymofsMappings env partitions modules sr
          (generate_plan env partitions modules sr)).1.overlay_ops) := by
  refine ⟨?_, ?_, ?_⟩
  · intro op hop
    rcases gpOps_mem env
        (gpCollect env partitions modules sr).overlay_layers op hop with
      ⟨kv, hkv, he⟩
    rcases (gpCollect_ordered env partitions modules sr).2 kv hkv with
      ⟨blocks, hlen, hflat, hb⟩
    refine ⟨blocks, hlen, ?_, hb⟩
    rw [he]
    exact hflat
  · intro ls hls hm
    exact splitColon_lowerdir ls mirror hls hm
  · intro hav
    rw [updateHymofs_eq env partitions modules sr _ hav]
    exact emitCollect_opsExtend env partitions modules sr _

/-- Witness for C3: the amended theorem applied to the concrete
counterexample inputs, discharging every hypothesis there. -/
theorem C3_lowerdir_ordering_witness :
    (∃ blocks : List (List Path),
      blocks.length = c3Modules.length ∧
      (OverlayOperation.mk (toPath "/system")
        [toPath "/data/A/system"]).lowerdirs = blocks.flatten ∧
      ∀ p ∈ c3Modules.zip blocks,
        ownedLayers p.1 (toPath "/data") p.2) ∧
    splitColon (lowerdir_config [toPath "/data/A/system"]
        (toPath "/m/system")) =
      [toPath "/data/A/system"] ++ [toPath "/m/system"] ∧
    opsExtend (generate_plan c3Env [] c3Modules
        (toPath "/data")).overlay_ops
      (updateHymofsMappings c3Env [] c3Modules (toPath "/data")
        (generate_plan c3Env [] c3Modules
          (toPath "/data"))).1.overlay_ops := by
  have h := C3_lowerdir_ordering c3Env [] c3Modules (toPath "/data")
    (toPath "/m/system")
  refine ⟨?_, ?_, ?_⟩
  · exact h.1 (OverlayOperation.mk (toPath "/system")
      [toPath "/data/A/system"]) (by decide)
  · exact h.2.1 [toPath "/data/A/system"] (by decide) (by decide)
  · exact h.2.2 (by decide)

end Hymo

namespace Hymo

/-! ### Runtime state save/load (src/core/state.cpp) -/

/-- The double-quote character of the JSON-ish state file. -/
def dq : Char := '"'

/-- `RuntimeState` (state.hpp): strings and string vectors are byte
sequences; the two flags default to `false`. -/
structure RuntimeState where
  storage_mode : Path
  mount_point : Path
  overlay_module_ids : List Path
  magic_module_ids : List Path
  hymofs_module_ids : List Path
  active_mounts : List Path
  nuke_active : Bool
  hymofs_mismatch : Bool
  mismatch_message : Path
deriving Repr, DecidableEq

/-- The default-constructed `RuntimeState`. -/
def initialRuntimeState : RuntimeState :=
  RuntimeState.mk [] [] [] [] [] [] false false []

/-- Wrap a string in double quotes, as `save()` does for every string
value. -/
def quoteWrap (s : Path) : Path := dq :: s ++ [dq]

/-- One `  "key": "value",` line of `save()` (state.cpp:20-25). -/
def scalarLine (key v : Path) : Path :=
  toPath "  " ++ quoteWrap key ++ toPath ": " ++ quoteWrap v ++
    toPath ","

/-- One `  "key": true|false,` line of `save()` (state.cpp:22-24). -/
def boolLine (key : Path) (b : Bool) : Path :=
  toPath "  " ++ quoteWrap key ++ toPath ": " ++
    (if b then toPath "true" else toPath "false") ++ toPath ","

/-- The `"a", "b", "c"` rendering of a vector (state.cpp:27-32). -/
def joinQuoted : List Path → Path
  | [] => []
  | [x] => quoteWrap x
  | x :: y :: r => quoteWrap x ++ toPath ", " ++ joinQuoted (y :: r)

/-- One `  "key": [..]` line of `save()`; `comma` is false only for the
final `active_mounts` line (state.cpp:51-57). -/
def arrayLine (key : Path) (xs : List Path) (comma : Bool) : Path :=
  toPath "  " ++ quoteWrap key ++ toPath ": [" ++ joinQuoted xs ++
    (if comma then toPath "]," else toPath "]")

/-- The eleven lines `RuntimeState::save` writes (state.cpp:19-60), in
order. -/
def saveLines (st : RuntimeState) : List Path :=
  [toPath "\x7b",
   scalarLine (toPath "storage_mode") st.storage_mode,
   scalarLine (toPath "mount_point") st.mount_point,
   boolLine (toPath "nuke_active") st.nuke_active,
   boolLine (toPath "hymofs_mismatch") st.hymofs_mismatch,
   scalarLine (toPath "mismatch_message") st.mismatch_message,
   arrayLine (toPath "overlay_module_ids") st.overlay_module_ids true,
   arrayLine (toPath "magic_module_ids") st.magic_module_ids true,
   arrayLine (toPath "hymofs_module_ids") st.hymofs_module_ids true,
   arrayLine (toPath "active_mounts") st.active_mounts false,
   toPath "\x7d"]

/-- Join lines with a newline after each one (each `file << ... "\n"`
of `save()`). -/
def unlines : List Path → Path
  | [] => []
  | l :: ls => l ++ '\n' :: unlines ls

/-- The full text `RuntimeState::save` writes to the state file. -/
def save (st : RuntimeState) : Path := unlines (saveLines st)

/-- `std::getline` over a text: the lines, with the trailing newline
producing no extra empty line. -/
def linesOf : Path → List Path
  | [] => []
  | c :: t => if c = '\n' then [] :: linesOf t else consHead c (linesOf t)

/-- `line.erase(0, line.find_first_not_of(" \t"))` (state.cpp:100). -/
def lstripWs : Path → Path
  | [] => []
  | c :: t => if c = ' ' || c = '\t' then lstripWs t else c :: t

/-- `std::string` prefix test (`compare(0, n.size(), n) == 0` shape):
does the haystack start with the needle? -/
def startsWith : Path → Path → Bool
  | [], _ => true
  | _ :: _, [] => false
  | a :: n, b :: h => a = b && startsWith n h

/-- `line.find(needle) != std::string::npos`. -/
def hasSub (n : Path) : Path → Bool
  | [] => n.isEmpty
  | c :: t => startsWith n (c :: t) || hasSub n t

/-- `line.find(needle)`: index of the first occurrence. -/
def findSub (n : Path) : Path → Option Nat
  | [] => if n.isEmpty then some 0 else none
  | c :: t =>
    if startsWith n (c :: t) then some 0
    else (findSub n t).map (fun i => i + 1)

/-- `line.find(ch, pos)`: first occurrence of a character at or after
`pos`. -/
def findCharFrom (ch : Char) (h : Path) (pos : Nat) : Option Nat :=
  (findSub [ch] (h.drop pos)).map (fun i => i + pos)

/-- `item.rfind('"')`: last occurrence of a character. -/
def rfindChar (ch : Char) (l : Path) : Option Nat :=
  (findSub [ch] l.reverse).map (fun i => l.length - 1 - i)

/-- The needle `": \""` of the scalar loaders (state.cpp:104,110). -/
def colonQuote : Path := ':' :: ' ' :: [dq]

/-- The scalar extraction of state.cpp:104-107: `start = find(": \"") +
3`, `end = find('"', start)`, `substr(start, end - start)`; when the
first find misses, the `size_t` wrap-around of `npos + 3` makes
`start = 2`.  `none` means the guard `end != npos` failed and no
assignment happens. -/
def extractQuoted (line : Path) : Option Path :=
  match findSub colonQuote line with
  | some i =>
    match findCharFrom dq line (i + 3) with
    | some e => some ((line.drop (i + 3)).take (e - (i + 3)))
    | none => none
  | none =>
    match findCharFrom dq line 2 with
    | some e => some ((line.drop 2).take (e - 2))
    | none => none

/-- `std::getline(ss, item, ',')` over the bracket content. -/
def splitComma : Path → List Path
  | [] => []
  | c :: t => if c = ',' then [] :: splitComma t else consHead c (splitComma t)

/-- The per-item quote extraction of `parse_json_array`
(state.cpp:75-81): keep `substr(first+1, last-first-1)` when two
distinct quotes exist. -/
def parseElems (items : List Path) : List Path :=
  items.filterMap (fun item =>
    match findCharFrom dq item 0, rfindChar dq item with
    | some f, some l =>
      if f < l then some ((item.drop (f + 1)).take (l - f - 1)) else none
    | _, _ => none)

/-- `parse_json_array` (state.cpp:64-84): content between the first `[`
and the first `]` (with the `size_t` underflow of `end - start - 1`
clamping to the rest of the string when `]` comes first), split at
commas, quotes stripped per item. -/
def parse_json_array (line : Path) : List Path :=
  match findCharFrom '[' line 0, findCharFrom ']' line 0 with
  | some s, some e =>
    parseElems (splitComma
      (if s + 1 ≤ e then (line.drop (s + 1)).take (e - s - 1)
        else line.drop (s + 1)))
  | _, _ => []

/-- One loader line after whitespace stripping: the substring-dispatch
chain of state.cpp:102-127. -/
def loadLineStripped (st : RuntimeState) (line : Path) : RuntimeState :=
  if hasSub (quoteWrap (toPath "storage_mode")) line then
    match extractQuoted line with
    | some v => { st with storage_mode := v }
    | none => st
  else if hasSub (quoteWrap (toPath "mount_point")) line then
    match extractQuoted line with
    | some v => { st with mount_point := v }
    | none => st
  else if hasSub (quoteWrap (toPath "nuke_active")) line then
    { st with nuke_active := hasSub (toPath "true") line }
  else if hasSub (quoteWrap (toPath "hymofs_mismatch")) line then
    { st with hymofs_mismatch := hasSub (toPath "true") line }
  else if hasSub (quoteWrap (toPath "overlay_module_ids")) line then
    { st with overlay_module_ids := parse_json_array line }
  else if hasSub (quoteWrap (toPath "magic_module_ids")) line then
    { st with magic_module_ids := parse_json_array line }
  else if hasSub (quoteWrap (toPath "hymofs_module_ids")) line then
    { st with hymofs_module_ids := parse_json_array line }
  else if hasSub (quoteWrap (toPath "active_mounts")) line then
    { st with active_mounts := parse_json_array line }
  else st

/-- One loader line (state.cpp:99-127). -/
def loadLine (st : RuntimeState) (raw : Path) : RuntimeState :=
  loadLineStripped st (lstripWs raw)

/-- `load_runtime_state` (state.cpp:86-130) applied to an existing
state file with the given text. -/
def load_runtime_state (text : Path) : RuntimeState :=
  (linesOf text).foldl loadLine initialRuntimeState

/-- The C10 counterexample state: every string field is free of double
quotes, backslashes and newlines, yet the overlay module id `a,b`
contains a comma. -/
def c10State : RuntimeState :=
  { initialRuntimeState with overlay_module_ids := [toPath "a,b"] }

/-- C10 counterexample — state round-trip: the state whose only
non-default field is `overlay_module_ids = ["a,b"]` satisfies the
claim's hypotheses (no double quote, backslash or newline in any string
field), yet saving and re-loading loses the entry: the comma splits the
array item into two fragments, each with a single quote character, and
both are dropped, so the loader returns the default state instead. -/
theorem C10_state_roundtrip_counterexample :
    (∀ v ∈ [c10State.storage_mode, c10State.mount_point,
        c10State.mismatch_message] ++ c10State.overlay_module_ids ++
        c10State.magic_module_ids ++ c10State.hymofs_module_ids ++
        c10State.active_mounts,
      dq ∉ v ∧ '\\' ∉ v ∧ '\n' ∉ v) ∧
    load_runtime_state (save c10State) ≠ c10State ∧
    load_runtime_state (save c10State) = initialRuntimeState := by
  decide

/-- Join pieces with a separator character between consecutive ones. -/
def joinWith (c : Char) : List Path → Path
  | [] => []
  | [p] => p
  | p :: q :: r => p ++ c :: joinWith c (q :: r)

/-- Helper: a string starts with itself. -/
theorem startsWith_refl_append : ∀ (n b : Path),
    startsWith n (n ++ b) = true := by
  intro n b
  induction n with
  | nil => rfl
  | cons a n' ih => simp [startsWith, ih]

/-- Helper: a leading occurrence is found. -/
theorem hasSub_left : ∀ (n b : Path), hasSub n (n ++ b) = true := by
  intro n b
  cases n with
  | nil => cases b <;> simp [hasSub, startsWith]
  | cons a n' => simp [hasSub, startsWith, startsWith_refl_append]

/-- Helper: an embedded occurrence is found. -/
theorem hasSub_parts : ∀ (a n b : Path),
    hasSub n (a ++ n ++ b) = true := by
  intro a
  induction a with
  | nil =>
    intro n b
    simpa using hasSub_left n b
  | cons x a' ih =>
    intro n b
    simp only [List.cons_append, List.append_eq, hasSub]
    rw [ih n b]
    simp

/-- Helper: a found needle's first character occurs in the haystack. -/
theorem hasSub_char (c : Char) (n : Path) :
    ∀ h : Path, hasSub (c :: n) h = true → c ∈ h := by
  intro h
  induction h with
  | nil =>
    intro hx
    simp [hasSub] at hx
  | cons x t ih =>
    intro hx
    simp only [hasSub, Bool.or_eq_true] at hx
    rcases hx with hx | hx
    · simp only [startsWith, Bool.and_eq_true, decide_eq_true_eq] at hx
      rw [hx.1]
      exact List.mem_cons_self x t
    · exact List.mem_cons_of_mem x (ih hx)

/-- Helper: an occurrence of a needle starting with `c` skips any
`c`-free prefix of the haystack. -/
theorem hasSub_skip (c : Char) (m : Path) :
    ∀ (p rest : Path), c ∉ p →
    hasSub (c :: m) (p ++ rest) = true →
    hasSub (c :: m) rest = true := by
  intro p
  induction p with
  | nil =>
    intro rest _ hx
    simpa using hx
  | cons x p' ih =>
    intro rest hc hx
    simp only [List.cons_append, hasSub, Bool.or_eq_true] at hx
    rcases hx with hx | hx
    · simp only [startsWith, Bool.and_eq_true, decide_eq_true_eq] at hx
      exact absurd hx.1
        (fun he => hc (by rw [he]; exact List.mem_cons_self x p'))
    · exact ih rest (fun h => hc (List.mem_cons_of_mem x h)) hx

/-- Helper: every character of a matched needle occurs in the
haystack. -/
theorem startsWith_mem : ∀ (n h : Path), startsWith n h = true →
    ∀ c ∈ n, c ∈ h := by
  intro n
  induction n with
  | nil =>
    intro h _ c hc
    simp at hc
  | cons a n' ih =>
    intro h hs c hc
    cases h with
    | nil => simp [startsWith] at hs
    | cons b t =>
      simp only [startsWith, Bool.and_eq_true, decide_eq_true_eq] at hs
      rcases List.mem_cons.mp hc with rfl | hc'
      · rw [hs.1]
        exact List.mem_cons_self b t
      · exact List.mem_cons_of_mem b (ih t hs.2 c hc')

/-- Helper: matching `K ++ [c]` against `q ++ c :: rest` with `c` in
neither `K` nor `q` forces `K = q`. -/
theorem startsWith_quoted_eq (c : Char) :
    ∀ (K q rest : Path), c ∉ K → c ∉ q →
    startsWith (K ++ [c]) (q ++ c :: rest) = true → K = q := by
  intro K
  induction K with
  | nil =>
    intro q rest _ hq hs
    cases q with
    | nil => rfl
    | cons y q' =>
      simp only [List.nil_append, List.cons_append, startsWith,
        Bool.and_eq_true, decide_eq_true_eq] at hs
      exact absurd hs.1
        (fun he => hq (by rw [he]; exact List.mem_cons_self y q'))
  | cons a K' ih =>
    intro q rest hK hq hs
    cases q with
    | nil =>
      simp only [List.cons_append, List.nil_append, startsWith,
        Bool.and_eq_true, decide_eq_true_eq] at hs
      refine absurd ?_ hK
      rw [← hs.1]
      exact List.mem_cons_self a K'
    | cons y q' =>
      simp only [List.cons_append, startsWith, Bool.and_eq_true,
        decide_eq_true_eq] at hs
      have h2 := ih q' rest (fun h => hK (List.mem_cons_of_mem a h))
        (fun h => hq (List.mem_cons_of_mem y h)) hs.2
      rw [hs.1, h2]

/-- Helper: a quoted needle `c K c` occurring in a `c`-joined piece list
(all pieces `c`-free) names one of the interior pieces. -/
theorem quoted_hasSub_mem (c : Char) (K : Path) (hK : c ∉ K) :
    ∀ ps : List Path, (∀ p ∈ ps, c ∉ p) →
    hasSub (c :: K ++ [c]) (joinWith c ps) = true →
    K ∈ (ps.drop 1).dropLast := by
  intro ps
  induction ps with
  | nil =>
    intro _ hx
    simp [joinWith, hasSub] at hx
  | cons p ps' ih =>
    intro hps hx
    cases ps' with
    | nil =>
      have h1 : c ∈ p :=
        hasSub_char c (K ++ [c]) p (by simpa [joinWith] using hx)
      exact absurd h1 (hps p (by simp))
    | cons q ps'' =>
      simp only [joinWith] at hx
      have hx2 : hasSub (c :: K ++ [c])
          (c :: joinWith c (q :: ps'')) = true :=
        hasSub_skip c (K ++ [c]) p _ (hps p (by simp)) hx
      simp only [hasSub, Bool.or_eq_true] at hx2
      rcases hx2 with hx2 | hx2
      · simp only [startsWith, Bool.and_eq_true, decide_eq_true_eq]
          at hx2
        have hs2 := hx2.2
        cases ps'' with
        | nil =>
          simp only [joinWith] at hs2
          have h1 : c ∈ q := startsWith_mem (K ++ [c]) q hs2 c (by simp)
          exact absurd h1 (hps q (by simp))
        | cons z ps3 =>
          simp only [joinWith] at hs2
          have hKq := startsWith_quoted_eq c K q _ hK
            (hps q (by simp)) hs2
          rw [hKq]
          simp [List.dropLast]
      · have hmem := ih (fun r hr => hps r (List.mem_cons_of_mem p hr))
          hx2
        simp only [List.drop_succ_cons, List.drop_zero] at hmem ⊢
        cases ps'' with
        | nil => simp at hmem
        | cons z w =>
          simp only [List.dropLast] at hmem ⊢
          exact List.mem_cons_of_mem q hmem

/-- Helper: contrapositive form — a quoted needle naming none of the
interior pieces does not occur. -/
theorem quoted_hasSub_false (c : Char) (K : Path) (hK : c ∉ K)
    (ps : List Path) (hps : ∀ p ∈ ps, c ∉ p)
    (hKm : K ∉ (ps.drop 1).dropLast) :
    hasSub (c :: K ++ [c]) (joinWith c ps) = false := by
  cases hx : hasSub (c :: K ++ [c]) (joinWith c ps) with
  | false => rfl
  | true => exact absurd (quoted_hasSub_mem c K hK ps hps hx) hKm

/-- Helper: the first occurrence of a needle whose first character does
not occur in the prefix `a` is right after `a`. -/
theorem findSub_first (c : Char) (n' : Path) :
    ∀ (a b : Path), c ∉ a →
    findSub (c :: n') (a ++ (c :: n') ++ b) = some a.length := by
  intro a
  induction a with
  | nil =>
    intro b _
    simp only [List.nil_append, List.cons_append, findSub]
    rw [if_pos]
    · rfl
    · simp [startsWith, startsWith_refl_append]
  | cons x a' ih =>
    intro b hc
    simp only [List.cons_append, List.append_eq, findSub]
    split_ifs with h
    · simp only [startsWith, Bool.and_eq_true, decide_eq_true_eq] at h
      exact absurd h.1
        (fun he => hc (by rw [he]; exact List.mem_cons_self x a'))
    · rw [ih b (fun h2 => hc (List.mem_cons_of_mem x h2))]
      rfl

/-- Helper: the scalar extraction recovers the value from a stripped
`"key": "value",` line when the key is colon-free and the value
quote-free. -/
theorem extractQuoted_scalar (key v : Path) (hkc : ':' ∉ key)
    (hv : dq ∉ v) :
    extractQuoted (quoteWrap key ++ toPath ": " ++ quoteWrap v ++
      toPath ",") = some v := by
  have hline : quoteWrap key ++ toPath ": " ++ quoteWrap v ++
      toPath "," =
      ((dq :: key ++ [dq]) ++ colonQuote) ++ (v ++ [dq] ++ [',']) := by
    simp [quoteWrap, colonQuote, toPath]
  have hca : ':' ∉ dq :: key ++ [dq] := by
    intro h
    rcases List.mem_cons.mp h with h1 | h1
    · exact absurd h1.symm (by decide)
    · rcases List.mem_append.mp h1 with h2 | h2
      · exact hkc h2
      · exact absurd (List.mem_singleton.mp h2).symm (by decide)
  have hf : findSub colonQuote
      (((dq :: key ++ [dq]) ++ colonQuote) ++ (v ++ [dq] ++ [','])) =
      some (key.length + 2) := by
    have h1 := findSub_first ':' (' ' :: [dq]) (dq :: key ++ [dq])
      (v ++ [dq] ++ [',']) hca
    have h2 : (dq :: key ++ [dq]).length = key.length + 2 := by simp
    rw [h2] at h1
    simpa [colonQuote, List.append_assoc] using h1
  have hlen : ((dq :: key ++ [dq]) ++ colonQuote).length =
      key.length + 2 + 3 := by
    simp [colonQuote]
  have hdrop : ((((dq :: key ++ [dq]) ++ colonQuote) ++
      (v ++ [dq] ++ [','])).drop (key.length + 2 + 3)) =
      v ++ [dq] ++ [','] := by
    rw [← hlen]
    exact List.drop_left _ _
  have hfc : findCharFrom dq
      (((dq :: key ++ [dq]) ++ colonQuote) ++ (v ++ [dq] ++ [',']))
      (key.length + 2 + 3) =
      some (v.length + (key.length + 2 + 3)) := by
    unfold findCharFrom
    rw [hdrop]
    have h1 := findSub_first dq [] v [','] hv
    rw [h1]
    rfl
  rw [hline]
  unfold extractQuoted
  rw [hf]
  dsimp only
  rw [hfc]
  dsimp only
  rw [hdrop]
  have harith : v.length + (key.length + 2 + 3) - (key.length + 2 + 3) =
      v.length := by omega
  rw [harith, List.append_assoc, List.take_left]

/-- Helper: literal reductions of the save-format fragments. -/
theorem toPath_spaces : toPath "  " = [' ', ' '] := rfl

theorem toPath_colonSp : toPath ": " = [':', ' '] := rfl

theorem toPath_comma : toPath "," = [','] := rfl

theorem toPath_colonBr : toPath ": [" = [':', ' ', '['] := rfl

theorem toPath_brComma : toPath "]," = [']', ','] := rfl

theorem toPath_br : toPath "]" = [']'] := rfl

theorem toPath_commaSp : toPath ", " = [',', ' '] := rfl

/-- Helper: a comma-free non-empty content is a single `getline`
item. -/
theorem splitComma_no_comma : ∀ l : Path, l ≠ [] → ',' ∉ l →
    splitComma l = [l] := by
  intro l
  induction l with
  | nil =>
    intro h _
    exact absurd rfl h
  | cons c t ih =>
    intro _ hc
    have hcne : ¬ c = ',' :=
      fun he => hc (by rw [← he]; exact List.mem_cons_self c t)
    simp only [splitComma]
    rw [if_neg hcne]
    cases t with
    | nil => rfl
    | cons d t' =>
      rw [ih (by simp) (fun h => hc (List.mem_cons_of_mem c h))]
      rfl

/-- Helper: `getline` splits off a comma-free head item. -/
theorem splitComma_append : ∀ (l rest : Path), ',' ∉ l →
    splitComma (l ++ ',' :: rest) = l :: splitComma rest := by
  intro l
  induction l with
  | nil =>
    intro rest _
    simp [splitComma]
  | cons c t ih =>
    intro rest hc
    have hcne : ¬ c = ',' :=
      fun he => hc (by rw [← he]; exact List.mem_cons_self c t)
    simp only [List.cons_append, List.append_eq, splitComma]
    rw [if_neg hcne, ih rest (fun h => hc (List.mem_cons_of_mem c h))]
    rfl

/-- Helper: splitting the rendered vector gives the quoted items (the
second and later ones with the separator's space attached). -/
theorem splitComma_joinQuoted : ∀ (r : List Path) (x : Path),
    (∀ y ∈ x :: r, dq ∉ y ∧ ',' ∉ y) →
    splitComma (joinQuoted (x :: r)) =
      quoteWrap x :: r.map (fun y => ' ' :: quoteWrap y) := by
  intro r
  induction r with
  | nil =>
    intro x hx
    simp only [joinQuoted]
    apply splitComma_no_comma
    · simp [quoteWrap]
    · intro h
      rcases List.mem_cons.mp h with h1 | h1
      · exact absurd h1 (by decide)
      · rcases List.mem_append.mp h1 with h2 | h2
        · exact (hx x (by simp)).2 h2
        · exact absurd (List.mem_singleton.mp h2) (by decide)
  | cons y r' ih =>
    intro x hx
    have hcomma : ',' ∉ quoteWrap x := by
      intro h
      rcases List.mem_cons.mp h with h1 | h1
      · exact absurd h1 (by decide)
      · rcases List.mem_append.mp h1 with h2 | h2
        · exact (hx x (by simp)).2 h2
        · exact absurd (List.mem_singleton.mp h2) (by decide)
    have hform : joinQuoted (x :: y :: r') =
        quoteWrap x ++ ',' :: (' ' :: joinQuoted (y :: r')) := by
      simp only [joinQuoted, toPath_commaSp]
      simp [List.append_assoc]
    rw [hform, splitComma_append _ _ hcomma]
    simp only [splitComma]
    rw [if_neg (by decide)]
    rw [ih y (fun z hz => hx z (List.mem_cons_of_mem x hz))]
    rfl

/-- Helper: the first quote of a quoted item. -/
theorem findCharFrom_quoteWrap (x : Path) :
    findCharFrom dq (quoteWrap x) 0 = some 0 := by
  unfold findCharFrom quoteWrap
  simp +decide [findSub, startsWith]

/-- Helper: the first quote of a space-prefixed quoted item. -/
theorem findCharFrom_spaceQuote (x : Path) :
    findCharFrom dq (' ' :: quoteWrap x) 0 = some 1 := by
  unfold findCharFrom quoteWrap
  simp +decide [findSub, startsWith]

/-- Helper: the last quote of a quoted item. -/
theorem rfindChar_quoteWrap (x : Path) (hx : dq ∉ x) :
    rfindChar dq (quoteWrap x) = some (x.length + 1) := by
  unfold rfindChar quoteWrap
  have hrev : (dq :: x ++ [dq]).reverse = dq :: (x.reverse ++ [dq]) := by
    simp
  rw [hrev]
  have h1 : findSub [dq] (dq :: (x.reverse ++ [dq])) = some 0 := by
    simp [findSub, startsWith]
  have hl : (dq :: x ++ [dq]).length = x.length + 2 := by simp
  rw [h1]
  dsimp only [Option.map]
  rw [hl]
  congr 1

/-- Helper: the last quote of a space-prefixed quoted item. -/
theorem rfindChar_spaceQuote (x : Path) (hx : dq ∉ x) :
    rfindChar dq (' ' :: quoteWrap x) = some (x.length + 2) := by
  unfold rfindChar quoteWrap
  have hrev : (' ' :: (dq :: x ++ [dq])).reverse =
      dq :: (x.reverse ++ [dq, ' ']) := by
    simp
  rw [hrev]
  have h1 : findSub [dq] (dq :: (x.reverse ++ [dq, ' '])) = some 0 := by
    simp [findSub, startsWith]
  have hl : (' ' :: (dq :: x ++ [dq])).length = x.length + 3 := by simp
  rw [h1]
  dsimp only [Option.map]
  rw [hl]
  congr 1

/-- Helper: the per-item extraction recovers each element from the
space-prefixed tail items. -/
theorem parseElems_tail : ∀ r : List Path, (∀ y ∈ r, dq ∉ y) →
    parseElems (r.map (fun y => ' ' :: quoteWrap y)) = r := by
  intro r
  induction r with
  | nil =>
    intro _
    rfl
  | cons y r' ih =>
    intro hy
    simp only [List.map_cons, parseElems, List.filterMap_cons]
    rw [findCharFrom_spaceQuote, rfindChar_spaceQuote y (hy y (by simp))]
    dsimp only
    rw [if_pos (by omega)]
    have hdrop : (' ' :: quoteWrap y).drop 2 = y ++ [dq] := by
      simp [quoteWrap]
    have htake : (y ++ [dq]).take (y.length + 2 - 1 - 1) = y := by
      have h2 : y.length + 2 - 1 - 1 = y.length := by omega
      rw [h2, List.take_left]
    rw [hdrop, htake]
    have ht := ih (fun z hz => hy z (List.mem_cons_of_mem y hz))
    simp only [parseElems] at ht
    rw [ht]

/-- Helper: the per-item extraction recovers all elements from the
split items. -/
theorem parseElems_items (x : Path) (r : List Path)
    (hx : ∀ y ∈ x :: r, dq ∉ y) :
    parseElems (quoteWrap x :: r.map (fun y => ' ' :: quoteWrap y)) =
      x :: r := by
  simp only [parseElems, List.filterMap_cons]
  rw [findCharFrom_quoteWrap, rfindChar_quoteWrap x (hx x (by simp))]
  dsimp only
  rw [if_pos (by omega)]
  have hdrop : (quoteWrap x).drop 1 = x ++ [dq] := by
    simp [quoteWrap]
  have htake : (x ++ [dq]).take (x.length + 1 - 0 - 1) = x := by
    have h2 : x.length + 1 - 0 - 1 = x.length := by omega
    rw [h2, List.take_left]
  rw [hdrop, htake]
  have ht := parseElems_tail r (fun z hz => hx z (List.mem_cons_of_mem x hz))
  simp only [parseElems] at ht
  rw [ht]

/-- Helper: a character distinct from quote, comma and space occurs in
the rendered vector only through an element. -/
theorem not_mem_joinQuoted (c : Char) (hc1 : c ≠ dq) (hc2 : c ≠ ',')
    (hc3 : c ≠ ' ') :
    ∀ xs : List Path, (∀ x ∈ xs, c ∉ x) → c ∉ joinQuoted xs := by
  intro xs
  induction xs with
  | nil =>
    intro _ h
    simp [joinQuoted] at h
  | cons x r ih =>
    intro hx h
    cases r with
    | nil =>
      simp only [joinQuoted] at h
      rcases List.mem_cons.mp h with h1 | h1
      · exact hc1 h1
      · rcases List.mem_append.mp h1 with h2 | h2
        · exact hx x (by simp) h2
        · exact hc1 (List.mem_singleton.mp h2)
    | cons y r' =>
      simp only [joinQuoted, toPath_commaSp] at h
      rcases List.mem_append.mp h with h1 | h1
      · rcases List.mem_append.mp h1 with h2 | h2
        · rcases List.mem_cons.mp h2 with h3 | h3
          · exact hc1 h3
          · rcases List.mem_append.mp h3 with h4 | h4
            · exact hx x (by simp) h4
            · exact hc1 (List.mem_singleton.mp h4)
        · rcases List.mem_cons.mp h2 with h3 | h3
          · exact hc2 h3
          · exact hc3 (List.mem_singleton.mp h3)
      · exact ih (fun z hz => hx z (List.mem_cons_of_mem x hz)) h1

/-- Helper: `parse_json_array` recovers the vector from a stripped
`"key": [..]` line when the key has no brackets and the elements no
quote, comma or closing bracket. -/
theorem parse_array_correct (key : Path) (xs : List Path)
    (close : Path) (hk1 : '[' ∉ key) (hk2 : ']' ∉ key)
    (hx : ∀ x ∈ xs, dq ∉ x ∧ ',' ∉ x ∧ ']' ∉ x)
    (hcl : close = toPath "]," ∨ close = toPath "]") :
    parse_json_array (quoteWrap key ++ toPath ": [" ++
      joinQuoted xs ++ close) = xs := by
  obtain ⟨ctail, rfl⟩ : ∃ ctail, close = ']' :: ctail := by
    rcases hcl with rfl | rfl
    · exact ⟨[','], rfl⟩
    · exact ⟨[], rfl⟩
  have hbrA : '[' ∉ dq :: key ++ [dq] ++ [':', ' '] := by
    intro h
    rcases List.mem_cons.mp h with h1 | h1
    · exact absurd h1 (by decide)
    · rcases List.mem_append.mp h1 with h2 | h2
      · rcases List.mem_append.mp h2 with h3 | h3
        · exact hk1 h3
        · exact absurd (List.mem_singleton.mp h3) (by decide)
      · rcases List.mem_cons.mp h2 with h3 | h3
        · exact absurd h3 (by decide)
        · exact absurd (List.mem_singleton.mp h3) (by decide)
  have hbrB : ']' ∉ (dq :: key ++ [dq] ++ [':', ' ']) ++
      '[' :: joinQuoted xs := by
    intro h
    rcases List.mem_append.mp h with h1 | h1
    · rcases List.mem_cons.mp h1 with h2 | h2
      · exact absurd h2 (by decide)
      · rcases List.mem_append.mp h2 with h3 | h3
        · rcases List.mem_append.mp h3 with h4 | h4
          · exact hk2 h4
          · exact absurd (List.mem_singleton.mp h4) (by decide)
        · rcases List.mem_cons.mp h3 with h4 | h4
          · exact absurd h4 (by decide)
          · exact absurd (List.mem_singleton.mp h4) (by decide)
    · rcases List.mem_cons.mp h1 with h2 | h2
      · exact absurd h2 (by decide)
      · exact not_mem_joinQuoted ']' (by decide) (by decide) (by decide)
          xs (fun z hz => (hx z hz).2.2) h2
  have hline1 : quoteWrap key ++ toPath ": [" ++ joinQuoted xs ++
      (']' :: ctail) =
      (dq :: key ++ [dq] ++ [':', ' ']) ++ ['['] ++
        (joinQuoted xs ++ ']' :: ctail) := by
    simp [quoteWrap, toPath_colonBr, List.append_assoc]
  have hline2 : quoteWrap key ++ toPath ": [" ++ joinQuoted xs ++
      (']' :: ctail) =
      ((dq :: key ++ [dq] ++ [':', ' ']) ++ '[' :: joinQuoted xs) ++
        [']'] ++ ctail := by
    simp [quoteWrap, toPath_colonBr, List.append_assoc]
  have hlenA : (dq :: key ++ [dq] ++ [':', ' ']).length =
      key.length + 4 := by
    simp
  have hlenB : ((dq :: key ++ [dq] ++ [':', ' ']) ++
      '[' :: joinQuoted xs).length =
      key.length + 5 + (joinQuoted xs).length := by
    simp
    omega
  have hs : findCharFrom '[' (quoteWrap key ++ toPath ": [" ++
      joinQuoted xs ++ (']' :: ctail)) 0 = some (key.length + 4) := by
    unfold findCharFrom
    rw [List.drop_zero, hline1]
    have h1 := findSub_first '[' [] (dq :: key ++ [dq] ++ [':', ' '])
      (joinQuoted xs ++ ']' :: ctail) hbrA
    rw [hlenA] at h1
    rw [h1]
    rfl
  have he : findCharFrom ']' (quoteWrap key ++ toPath ": [" ++
      joinQuoted xs ++ (']' :: ctail)) 0 =
      some (key.length + 5 + (joinQuoted xs).length) := by
    unfold findCharFrom
    rw [List.drop_zero, hline2]
    have h1 := findSub_first ']' []
      ((dq :: key ++ [dq] ++ [':', ' ']) ++ '[' :: joinQuoted xs)
      ctail hbrB
    rw [hlenB] at h1
    have h2 : ((dq :: key ++ [dq] ++ [':', ' ']) ++
        '[' :: joinQuoted xs) ++ [']'] ++ ctail =
        ((dq :: key ++ [dq] ++ [':', ' ']) ++ '[' :: joinQuoted xs) ++
          (']' :: []) ++ ctail := rfl
    rw [h2, h1]
    rfl
  have hdrop : (quoteWrap key ++ toPath ": [" ++ joinQuoted xs ++
      (']' :: ctail)).drop (key.length + 4 + 1) =
      joinQuoted xs ++ ']' :: ctail := by
    rw [hline1]
    have h1 : ((dq :: key ++ [dq] ++ [':', ' ']) ++ ['[']).length =
        key.length + 4 + 1 := by
      simp
    have h2 : (dq :: key ++ [dq] ++ [':', ' ']) ++ ['['] ++
        (joinQuoted xs ++ ']' :: ctail) =
        ((dq :: key ++ [dq] ++ [':', ' ']) ++ ['[']) ++
          (joinQuoted xs ++ ']' :: ctail) := rfl
    rw [h2, ← h1, List.drop_left]
  unfold parse_json_array
  rw [hs, he]
  dsimp only
  rw [if_pos (by omega)]
  rw [hdrop]
  have harith : key.length + 5 + (joinQuoted xs).length -
      (key.length + 4) - 1 = (joinQuoted xs).length := by omega
  rw [harith, List.take_left]
  cases xs with
  | nil => rfl
  | cons x r =>
    rw [splitComma_joinQuoted r x
      (fun y hy => ⟨(hx y hy).1, (hx y hy).2.1⟩)]
    exact parseElems_items x r (fun y hy => (hx y hy).1)

/-- The quote-delimited pieces of one element (and the following ones)
of a rendered array line. -/
def arrayElemPieces : Path → List Path → Path → List Path
  | x, [], close => [x, close]
  | x, y :: r, close => x :: toPath ", " :: arrayElemPieces y r close

/-- The quote-delimited pieces of an array line after the key. -/
def arrayTailPieces : List Path → Path → List Path
  | [], close => [toPath ": [" ++ close]
  | x :: r, close => toPath ": [" :: arrayElemPieces x r close

/-- All quote-delimited pieces of a stripped array line. -/
def arrayPieces (key : Path) (xs : List Path) (close : Path) :
    List Path :=
  [] :: key :: arrayTailPieces xs close

/-- Helper: element pieces are never empty. -/
theorem arrayElemPieces_ne_nil (x : Path) (r : List Path)
    (close : Path) : arrayElemPieces x r close ≠ [] := by
  cases r <;> simp [arrayElemPieces]

/-- Helper: joining the element pieces reproduces the rendered vector
segment. -/
theorem joinWith_elemPieces : ∀ (r : List Path) (x : Path)
    (close : Path),
    dq :: joinWith dq (arrayElemPieces x r close) =
      joinQuoted (x :: r) ++ close := by
  intro r
  induction r with
  | nil =>
    intro x close
    simp [arrayElemPieces, joinWith, joinQuoted, quoteWrap,
      List.append_assoc]
  | cons y r' ih =>
    intro x close
    simp only [arrayElemPieces]
    cases hW : arrayElemPieces y r' close with
    | nil => exact absurd hW (arrayElemPieces_ne_nil y r' close)
    | cons w ws =>
      simp only [joinWith]
      have h1 := ih y close
      rw [hW] at h1
      have h2 : joinQuoted (x :: y :: r') ++ close =
          quoteWrap x ++ toPath ", " ++ (joinQuoted (y :: r') ++ close) := by
        simp only [joinQuoted]
        simp [List.append_assoc]
      rw [h2, ← h1]
      simp [quoteWrap, toPath_commaSp, List.append_assoc]

/-- Helper: joining all pieces reproduces the stripped array line. -/
theorem joinWith_arrayPieces (key : Path) (xs : List Path)
    (close : Path) :
    joinWith dq (arrayPieces key xs close) =
      quoteWrap key ++ toPath ": [" ++ joinQuoted xs ++ close := by
  cases xs with
  | nil =>
    simp [arrayPieces, arrayTailPieces, joinWith, joinQuoted, quoteWrap,
      List.append_assoc]
  | cons x r =>
    simp only [arrayPieces, arrayTailPieces]
    cases hW : arrayElemPieces x r close with
    | nil => exact absurd hW (arrayElemPieces_ne_nil x r close)
    | cons w ws =>
      simp only [joinWith]
      have h1 := joinWith_elemPieces r x close
      rw [hW] at h1
      rw [List.append_assoc (quoteWrap key ++ toPath ": [")
        (joinQuoted (x :: r)) close, ← h1]
      simp [quoteWrap, List.append_assoc]

/-- Helper: interior pieces of the element pieces. -/
theorem mem_elemPieces_dropLast : ∀ (r : List Path) (x : Path)
    (close K : Path),
    K ∈ (arrayElemPieces x r close).dropLast →
    K ∈ x :: r ∨ K = toPath ", " := by
  intro r
  induction r with
  | nil =>
    intro x close K h
    simp [arrayElemPieces] at h
    exact Or.inl (by simp [h])
  | cons y r' ih =>
    intro x close K h
    simp only [arrayElemPieces] at h
    cases hW : arrayElemPieces y r' close with
    | nil => exact absurd hW (arrayElemPieces_ne_nil y r' close)
    | cons w ws =>
      rw [hW] at h
      simp only [List.dropLast_cons₂] at h
      rcases List.mem_cons.mp h with rfl | h1
      · exact Or.inl (by simp)
      · rcases List.mem_cons.mp h1 with rfl | h2
        · exact Or.inr rfl
        · rw [← hW] at h2
          rcases ih y close K h2 with h3 | h3
          · exact Or.inl (List.mem_cons_of_mem x h3)
          · exact Or.inr h3

/-- Helper: interior pieces of the array line pieces. -/
theorem mem_arrayPieces_middle (key : Path) (xs : List Path)
    (close K : Path)
    (h : K ∈ ((arrayPieces key xs close).drop 1).dropLast) :
    K = key ∨ K = toPath ": [" ∨ K ∈ xs ∨ K = toPath ", " := by
  simp only [arrayPieces, List.drop_succ_cons, List.drop_zero] at h
  cases xs with
  | nil =>
    simp [arrayTailPieces] at h
    exact Or.inl h
  | cons x r =>
    simp only [arrayTailPieces] at h
    cases hW : arrayElemPieces x r close with
    | nil => exact absurd hW (arrayElemPieces_ne_nil x r close)
    | cons w ws =>
      rw [hW] at h
      simp only [List.dropLast_cons₂] at h
      rcases List.mem_cons.mp h with rfl | h1
      · exact Or.inl rfl
      · rcases List.mem_cons.mp h1 with rfl | h2
        · exact Or.inr (Or.inl rfl)
        · rw [← hW] at h2
          rcases mem_elemPieces_dropLast r x close K h2 with h3 | h3
          · exact Or.inr (Or.inr (Or.inl h3))
          · exact Or.inr (Or.inr (Or.inr h3))

/-- Helper: all pieces of an array line are quote-free. -/
theorem arrayPieces_dq_free (key : Path) (xs : List Path)
    (close : Path) (hkey : dq ∉ key) (hx : ∀ x ∈ xs, dq ∉ x)
    (hcl : close = toPath "]," ∨ close = toPath "]") :
    ∀ p ∈ arrayPieces key xs close, dq ∉ p := by
  have hclq : dq ∉ close := by
    rcases hcl with rfl | rfl <;> decide
  have helem : ∀ (r : List Path) (x : Path), (∀ y ∈ x :: r, dq ∉ y) →
      ∀ p ∈ arrayElemPieces x r close, dq ∉ p := by
    intro r
    induction r with
    | nil =>
      intro x hx1 p hp
      simp [arrayElemPieces] at hp
      rcases hp with rfl | rfl
      · exact hx1 _ (by simp)
      · exact hclq
    | cons y r' ih =>
      intro x hx1 p hp
      simp only [arrayElemPieces, List.mem_cons] at hp
      rcases hp with rfl | rfl | hp'
      · exact hx1 _ (by simp)
      · decide
      · exact ih y (fun z hz => hx1 z (List.mem_cons_of_mem x hz)) p hp'
  intro p hp
  simp only [arrayPieces, List.mem_cons] at hp
  rcases hp with rfl | rfl | hp'
  · simp
  · exact hkey
  · cases xs with
    | nil =>
      simp only [arrayTailPieces, List.mem_singleton] at hp'
      subst hp'
      intro h
      rcases List.mem_append.mp h with h1 | h1
      · exact absurd h1 (by decide)
      · exact hclq h1
    | cons x r =>
      simp only [arrayTailPieces, List.mem_cons] at hp'
      rcases hp' with rfl | hp2
      · decide
      · exact helem r x (fun z hz => hx z hz) p hp2

/-- Helper: a quoted key needle matching none of a stripped scalar
line's quoted segments does not occur in it. -/
theorem scalar_line_no_key (key v K : Path) (hkey : dq ∉ key)
    (hv : dq ∉ v) (hK : dq ∉ K) (h1 : K ≠ key)
    (h2 : K ≠ toPath ": ") (h3 : K ≠ v) :
    hasSub (quoteWrap K)
      (quoteWrap key ++ toPath ": " ++ quoteWrap v ++ toPath ",") =
      false := by
  have hjoin : quoteWrap key ++ toPath ": " ++ quoteWrap v ++
      toPath "," =
      joinWith dq [[], key, toPath ": ", v, toPath ","] := by
    simp [joinWith, quoteWrap, List.append_assoc]
  rw [hjoin]
  refine quoted_hasSub_false dq K hK _ ?_ ?_
  · intro p hp
    simp only [List.mem_cons, List.not_mem_nil, or_false] at hp
    rcases hp with rfl | rfl | rfl | rfl | rfl
    · simp
    · exact hkey
    · decide
    · exact hv
    · decide
  · intro hmem
    simp only [List.drop_succ_cons, List.drop_zero,
      List.dropLast_cons₂, List.dropLast_single, List.mem_cons,
      List.not_mem_nil, or_false] at hmem
    rcases hmem with rfl | rfl | rfl
    · exact h1 rfl
    · exact h2 rfl
    · exact h3 rfl

/-- Helper: a quoted key needle matching neither the key, the
punctuation nor any element does not occur in a stripped array line. -/
theorem array_line_no_key (key K : Path) (xs : List Path)
    (close : Path) (hkey : dq ∉ key) (hK : dq ∉ K)
    (hx : ∀ x ∈ xs, dq ∉ x)
    (hcl : close = toPath "]," ∨ close = toPath "]")
    (h1 : K ≠ key) (h2 : K ≠ toPath ": [") (h3 : K ≠ toPath ", ")
    (h4 : K ∉ xs) :
    hasSub (quoteWrap K)
      (quoteWrap key ++ toPath ": [" ++ joinQuoted xs ++ close) =
      false := by
  rw [← joinWith_arrayPieces key xs close]
  refine quoted_hasSub_false dq K hK _
    (arrayPieces_dq_free key xs close hkey hx hcl) ?_
  intro hmem
  rcases mem_arrayPieces_middle key xs close K hmem with
    h | h | h | h
  · exact h1 h
  · exact h2 h
  · exact h4 h
  · exact h3 h

/-- Helper: the loader's whitespace stripping removes exactly the
two-space indent of a saved line. -/
theorem lstripWs_line (key rest : Path) :
    lstripWs (toPath "  " ++ quoteWrap key ++ rest) =
      quoteWrap key ++ rest := by
  have h : toPath "  " ++ quoteWrap key ++ rest =
      ' ' :: ' ' :: dq :: (key ++ [dq] ++ rest) := by
    simp [quoteWrap, toPath_spaces, List.append_assoc]
  rw [h]
  simp only [lstripWs]
  rw [if_pos (by decide), if_pos (by decide), if_neg (by decide)]
  simp [quoteWrap, List.append_assoc]

/-- Helper: the `{` line matches no loader key and is ignored. -/
theorem loadLine_brace (st : RuntimeState) :
    loadLine st (toPath "\x7b") = st := by
  simp +decide [loadLine, loadLineStripped, lstripWs]

/-- Helper: the `}` line matches no loader key and is ignored. -/
theorem loadLine_rbrace (st : RuntimeState) :
    loadLine st (toPath "\x7d") = st := by
  simp +decide [loadLine, loadLineStripped, lstripWs]

/-- Helper: the `nuke_active` line restores the flag. -/
theorem loadLine_nuke (st : RuntimeState) (b : Bool) :
    loadLine st (boolLine (toPath "nuke_active") b) =
      { st with nuke_active := b } := by
  cases b <;>
    simp +decide [loadLine, loadLineStripped, boolLine, lstripWs]

/-- Helper: the `hymofs_mismatch` line restores the flag. -/
theorem loadLine_mismatch_flag (st : RuntimeState) (b : Bool) :
    loadLine st (boolLine (toPath "hymofs_mismatch") b) =
      { st with hymofs_mismatch := b } := by
  cases b <;>
    simp +decide [loadLine, loadLineStripped, boolLine, lstripWs]

/-- Helper: the `storage_mode` line restores the field. -/
theorem loadLine_storage (st : RuntimeState) (v : Path)
    (hv : dq ∉ v) :
    loadLine st (scalarLine (toPath "storage_mode") v) =
      { st with storage_mode := v } := by
  have hstrip : lstripWs (scalarLine (toPath "storage_mode") v) =
      quoteWrap (toPath "storage_mode") ++ toPath ": " ++ quoteWrap v ++
        toPath "," := by
    have h : scalarLine (toPath "storage_mode") v =
        toPath "  " ++ quoteWrap (toPath "storage_mode") ++
          (toPath ": " ++ quoteWrap v ++ toPath ",") := by
      simp [scalarLine, List.append_assoc]
    rw [h, lstripWs_line]
    simp [List.append_assoc]
  have hpos : hasSub (quoteWrap (toPath "storage_mode"))
      (quoteWrap (toPath "storage_mode") ++ toPath ": " ++
        quoteWrap v ++ toPath ",") = true := by
    have h : quoteWrap (toPath "storage_mode") ++ toPath ": " ++
        quoteWrap v ++ toPath "," =
        quoteWrap (toPath "storage_mode") ++
          (toPath ": " ++ quoteWrap v ++ toPath ",") := by
      simp [List.append_assoc]
    rw [h]
    exact hasSub_left _ _
  unfold loadLine
  rw [hstrip]
  unfold loadLineStripped
  rw [if_pos hpos,
    extractQuoted_scalar (toPath "storage_mode") v (by decide) hv]

/-- Helper: the `mount_point` line restores the field when its value is
not the earlier key name. -/
theorem loadLine_mount (st : RuntimeState) (v : Path) (hv : dq ∉ v)
    (hnk : v ≠ toPath "storage_mode") :
    loadLine st (scalarLine (toPath "mount_point") v) =
      { st with mount_point := v } := by
  have hstrip : lstripWs (scalarLine (toPath "mount_point") v) =
      quoteWrap (toPath "mount_point") ++ toPath ": " ++ quoteWrap v ++
        toPath "," := by
    have h : scalarLine (toPath "mount_point") v =
        toPath "  " ++ quoteWrap (toPath "mount_point") ++
          (toPath ": " ++ quoteWrap v ++ toPath ",") := by
      simp [scalarLine, List.append_assoc]
    rw [h, lstripWs_line]
    simp [List.append_assoc]
  have hneg1 : hasSub (quoteWrap (toPath "storage_mode"))
      (quoteWrap (toPath "mount_point") ++ toPath ": " ++
        quoteWrap v ++ toPath ",") = false :=
    scalar_line_no_key (toPath "mount_point") v
      (toPath "storage_mode") (by decide) hv (by decide) (by decide)
      (by decide) (fun he => hnk he.symm)
  have hpos : hasSub (quoteWrap (toPath "mount_point"))
      (quoteWrap (toPath "mount_point") ++ toPath ": " ++
        quoteWrap v ++ toPath ",") = true := by
    have h : quoteWrap (toPath "mount_point") ++ toPath ": " ++
        quoteWrap v ++ toPath "," =
        quoteWrap (toPath "mount_point") ++
          (toPath ": " ++ quoteWrap v ++ toPath ",") := by
      simp [List.append_assoc]
    rw [h]
    exact hasSub_left _ _
  unfold loadLine
  rw [hstrip]
  unfold loadLineStripped
  rw [if_neg (by rw [hneg1]; decide), if_pos hpos,
    extractQuoted_scalar (toPath "mount_point") v (by decide) hv]

/-- Helper: the `mismatch_message` line matches no loader branch (when
its value is no loader key name) and is ignored. -/
theorem loadLine_mismatch_msg (st : RuntimeState) (v : Path)
    (hv : dq ∉ v)
    (hnk : v ∉ [toPath "storage_mode", toPath "mount_point",
      toPath "nuke_active", toPath "hymofs_mismatch",
      toPath "overlay_module_ids", toPath "magic_module_ids",
      toPath "hymofs_module_ids", toPath "active_mounts"]) :
    loadLine st (scalarLine (toPath "mismatch_message") v) = st := by
  have hstrip : lstripWs (scalarLine (toPath "mismatch_message") v) =
      quoteWrap (toPath "mismatch_message") ++ toPath ": " ++
        quoteWrap v ++ toPath "," := by
    have h : scalarLine (toPath "mismatch_message") v =
        toPath "  " ++ quoteWrap (toPath "mismatch_message") ++
          (toPath ": " ++ quoteWrap v ++ toPath ",") := by
      simp [scalarLine, List.append_assoc]
    rw [h, lstripWs_line]
    simp [List.append_assoc]
  have hneg : ∀ K ∈ [toPath "storage_mode", toPath "mount_point",
      toPath "nuke_active", toPath "hymofs_mismatch",
      toPath "overlay_module_ids", toPath "magic_module_ids",
      toPath "hymofs_module_ids", toPath "active_mounts"],
      hasSub (quoteWrap K)
        (quoteWrap (toPath "mismatch_message") ++ toPath ": " ++
          quoteWrap v ++ toPath ",") = false := by
    intro K hK
    have hK3 : K ≠ v := fun he => hnk (he ▸ hK)
    simp only [List.mem_cons, List.not_mem_nil, or_false] at hK
    have hKd : dq ∉ K := by
      rcases hK with rfl | rfl | rfl | rfl | rfl | rfl | rfl | rfl <;>
        decide
    have hK1 : K ≠ toPath "mismatch_message" := by
      rcases hK with rfl | rfl | rfl | rfl | rfl | rfl | rfl | rfl <;>
        decide
    have hK2 : K ≠ toPath ": " := by
      rcases hK with rfl | rfl | rfl | rfl | rfl | rfl | rfl | rfl <;>
        decide
    exact scalar_line_no_key (toPath "mismatch_message") v K
      (by decide) hv hKd hK1 hK2 hK3
  unfold loadLine
  rw [hstrip]
  unfold loadLineStripped
  rw [if_neg (by rw [hneg (toPath "storage_mode") (by simp)]; decide),
    if_neg (by rw [hneg (toPath "mount_point") (by simp)]; decide),
    if_neg (by rw [hneg (toPath "nuke_active") (by simp)]; decide),
    if_neg (by rw [hneg (toPath "hymofs_mismatch") (by simp)]; decide),
    if_neg (by
      rw [hneg (toPath "overlay_module_ids") (by simp)]
      decide),
    if_neg (by rw [hneg (toPath "magic_module_ids") (by simp)]; decide),
    if_neg (by
      rw [hneg (toPath "hymofs_module_ids") (by simp)]
      decide),
    if_neg (by rw [hneg (toPath "active_mounts") (by simp)]; decide)]

/-- Helper: the `overlay_module_ids` line restores the vector. -/
theorem loadLine_overlay (st : RuntimeState) (xs : List Path)
    (hx : ∀ x ∈ xs, dq ∉ x ∧ ',' ∉ x ∧ ']' ∉ x)
    (hk : ∀ x ∈ xs, x ∉ [toPath "storage_mode", toPath "mount_point",
      toPath "nuke_active", toPath "hymofs_mismatch",
      toPath "overlay_module_ids", toPath "magic_module_ids",
      toPath "hymofs_module_ids", toPath "active_mounts"]) :
    loadLine st (arrayLine (toPath "overlay_module_ids") xs true) =
      { st with overlay_module_ids := xs } := by
  have hstrip : lstripWs (arrayLine (toPath "overlay_module_ids") xs true) =
      quoteWrap (toPath "overlay_module_ids") ++ toPath ": [" ++
        joinQuoted xs ++ toPath "]," := by
    have h : arrayLine (toPath "overlay_module_ids") xs true =
        toPath "  " ++ quoteWrap (toPath "overlay_module_ids") ++
          (toPath ": [" ++ joinQuoted xs ++ toPath "],") := by
      simp [arrayLine, List.append_assoc]
    rw [h, lstripWs_line]
    simp [List.append_assoc]
  have hneg0 : hasSub (quoteWrap (toPath "storage_mode"))
      (quoteWrap (toPath "overlay_module_ids") ++ toPath ": [" ++
        joinQuoted xs ++ toPath "],") = false :=
    array_line_no_key (toPath "overlay_module_ids") (toPath "storage_mode") xs
      (toPath "],") (by decide) (by decide)
      (fun x hxm => (hx x hxm).1) (Or.inl rfl)
      (by decide) (by decide) (by decide)
      (fun hmem => hk (toPath "storage_mode") hmem (by simp))
  have hneg1 : hasSub (quoteWrap (toPath "mount_point"))
      (quoteWrap (toPath "overlay_module_ids") ++ toPath ": [" ++
        joinQuoted xs ++ toPath "],") = false :=
    array_line_no_key (toPath "overlay_module_ids") (toPath "mount_point") xs
      (toPath "],") (by decide) (by decide)
      (fun x hxm => (hx x hxm).1) (Or.inl rfl)
      (by decide) (by decide) (by decide)
      (fun hmem => hk (toPath "mount_point") hmem (by simp))
  have hneg2 : hasSub (quoteWrap (toPath "nuke_active"))
      (quoteWrap (toPath "overlay_module_ids") ++ toPath ": [" ++
        joinQuoted xs ++ toPath "],") = false :=
    array_line_no_key (toPath "overlay_module_ids") (toPath "nuke_active") xs
      (toPath "],") (by decide) (by decide)
      (fun x hxm => (hx x hxm).1) (Or.inl rfl)
      (by decide) (by decide) (by decide)
      (fun hmem => hk (toPath "nuke_active") hmem (by simp))
  have hneg3 : hasSub (quoteWrap (toPath "hymofs_mismatch"))
      (quoteWrap (toPath "overlay_module_ids") ++ toPath ": [" ++
        joinQuoted xs ++ toPath "],") = false :=
    array_line_no_key (toPath "overlay_module_ids") (toPath "hymofs_mismatch") xs
      (toPath "],") (by decide) (by decide)
      (fun x hxm => (hx x hxm).1) (Or.inl rfl)
      (by decide) (by decide) (by decide)
      (fun hmem => hk (toPath "hymofs_mismatch") hmem (by simp))
  have hpos : hasSub (quoteWrap (toPath "overlay_module_ids"))
      (quoteWrap (toPath "overlay_module_ids") ++ toPath ": [" ++
        joinQuoted xs ++ toPath "],") = true := by
    have h : quoteWrap (toPath "overlay_module_ids") ++ toPath ": [" ++
        joinQuoted xs ++ toPath "]," =
        quoteWrap (toPath "overlay_module_ids") ++
          (toPath ": [" ++ joinQuoted xs ++ toPath "],") := by
      simp [List.append_assoc]
    rw [h]
    exact hasSub_left _ _
  unfold loadLine
  rw [hstrip]
  unfold loadLineStripped
  rw [    if_neg (by rw [hneg0]; decide),
    if_neg (by rw [hneg1]; decide),
    if_neg (by rw [hneg2]; decide),
    if_neg (by rw [hneg3]; decide),
    if_pos hpos,
    parse_array_correct (toPath "overlay_module_ids") xs (toPath "],")
      (by decide) (by decide) hx (Or.inl rfl)]

/-- Helper: the `magic_module_ids` line restores the vector. -/
theorem loadLine_magic (st : RuntimeState) (xs : List Path)
    (hx : ∀ x ∈ xs, dq ∉ x ∧ ',' ∉ x ∧ ']' ∉ x)
    (hk : ∀ x ∈ xs, x ∉ [toPath "storage_mode", toPath "mount_point",
      toPath "nuke_active", toPath "hymofs_mismatch",
      toPath "overlay_module_ids", toPath "magic_module_ids",
      toPath "hymofs_module_ids", toPath "active_mounts"]) :
    loadLine st (arrayLine (toPath "magic_module_ids") xs true) =
      { st with magic_module_ids := xs } := by
  have hstrip : lstripWs (arrayLine (toPath "magic_module_ids") xs true) =
      quoteWrap (toPath "magic_module_ids") ++ toPath ": [" ++
        joinQuoted xs ++ toPath "]," := by
    have h : arrayLine (toPath "magic_module_ids") xs true =
        toPath "  " ++ quoteWrap (toPath "magic_module_ids") ++
          (toPath ": [" ++ joinQuoted xs ++ toPath "],") := by
      simp [arrayLine, List.append_assoc]
    rw [h, lstripWs_line]
    simp [List.append_assoc]
  have hneg0 : hasSub (quoteWrap (toPath "storage_mode"))
      (quoteWrap (toPath "magic_module_ids") ++ toPath ": [" ++
        joinQuoted xs ++ toPath "],") = false :=
    array_line_no_key (toPath "magic_module_ids") (toPath "storage_mode") xs
      (toPath "],") (by decide) (by decide)
      (fun x hxm => (hx x hxm).1) (Or.inl rfl)
      (by decide) (by decide) (by decide)
      (fun hmem => hk (toPath "storage_mode") hmem (by simp))
  have hneg1 : hasSub (quoteWrap (toPath "mount_point"))
      (quoteWrap (toPath "magic_module_ids") ++ toPath ": [" ++
        joinQuoted xs ++ toPath "],") = false :=
    array_line_no_key (toPath "magic_module_ids") (toPath "mount_point") xs
      (toPath "],") (by decide) (by decide)
      (fun x hxm => (hx x hxm).1) (Or.inl rfl)
      (by decide) (by decide) (by decide)
      (fun hmem => hk (toPath "mount_point") hmem (by simp))
  have hneg2 : hasSub (quoteWrap (toPath "nuke_active"))
      (quoteWrap (toPath "magic_module_ids") ++ toPath ": [" ++
        joinQuoted xs ++ toPath "],") = false :=
    array_line_no_key (toPath "magic_module_ids") (toPath "nuke_active") xs
      (toPath "],") (by decide) (by decide)
      (fun x hxm => (hx x hxm).1) (Or.inl rfl)
      (by decide) (by decide) (by decide)
      (fun hmem => hk (toPath "nuke_active") hmem (by simp))
  have hneg3 : hasSub (quoteWrap (toPath "hymofs_mismatch"))
      (quoteWrap (toPath "magic_module_ids") ++ toPath ": [" ++
        joinQuoted xs ++ toPath "],") = false :=
    array_line_no_key (toPath "magic_module_ids") (toPath "hymofs_mismatch") xs
      (toPath "],") (by decide) (by decide)
      (fun x hxm => (hx x hxm).1) (Or.inl rfl)
      (by decide) (by decide) (by decide)
      (fun hmem => hk (toPath "hymofs_mismatch") hmem (by simp))
  have hneg4 : hasSub (quoteWrap (toPath "overlay_module_ids"))
      (quoteWrap (toPath "magic_module_ids") ++ toPath ": [" ++
        joinQuoted xs ++ toPath "],") = false :=
    array_line_no_key (toPath "magic_module_ids") (toPath "overlay_module_ids") xs
      (toPath "],") (by decide) (by decide)
      (fun x hxm => (hx x hxm).1) (Or.inl rfl)
      (by decide) (by decide) (by decide)
      (fun hmem => hk (toPath "overlay_module_ids") hmem (by simp))
  have hpos : hasSub (quoteWrap (toPath "magic_module_ids"))
      (quoteWrap (toPath "magic_module_ids") ++ toPath ": [" ++
        joinQuoted xs ++ toPath "],") = true := by
    have h : quoteWrap (toPath "magic_module_ids") ++ toPath ": [" ++
        joinQuoted xs ++ toPath "]," =
        quoteWrap (toPath "magic_module_ids") ++
          (toPath ": [" ++ joinQuoted xs ++ toPath "],") := by
      simp [List.append_assoc]
    rw [h]
    exact hasSub_left _ _
  unfold loadLine
  rw [hstrip]
  unfold loadLineStripped
  rw [    if_neg (by rw [hneg0]; decide),
    if_neg (by rw [hneg1]; decide),
    if_neg (by rw [hneg2]; decide),
    if_neg (by rw [hneg3]; decide),
    if_neg (by rw [hneg4]; decide),
    if_pos hpos,
    parse_array_correct (toPath "magic_module_ids") xs (toPath "],")
      (by decide) (by decide) hx (Or.inl rfl)]

/-- Helper: the `hymofs_module_ids` line restores the vector. -/
theorem loadLine_hymofs (st : RuntimeState) (xs : List Path)
    (hx : ∀ x ∈ xs, dq ∉ x ∧ ',' ∉ x ∧ ']' ∉ x)
    (hk : ∀ x ∈ xs, x ∉ [toPath "storage_mode", toPath "mount_point",
      toPath "nuke_active", toPath "hymofs_mismatch",
      toPath "overlay_module_ids", toPath "magic_module_ids",
      toPath "hymofs_module_ids", toPath "active_mounts"]) :
    loadLine st (arrayLine (toPath "hymofs_module_ids") xs true) =
      { st with hymofs_module_ids := xs } := by
  have hstrip : lstripWs (arrayLine (toPath "hymofs_module_ids") xs true) =
      quoteWrap (toPath "hymofs_module_ids") ++ toPath ": [" ++
        joinQuoted xs ++ toPath "]," := by
    have h : arrayLine (toPath "hymofs_module_ids") xs true =
        toPath "  " ++ quoteWrap (toPath "hymofs_module_ids") ++
          (toPath ": [" ++ joinQuoted xs ++ toPath "],") := by
      simp [arrayLine, List.append_assoc]
    rw [h, lstripWs_line]
    simp [List.append_assoc]
  have hneg0 : hasSub (quoteWrap (toPath "storage_mode"))
      (quoteWrap (toPath "hymofs_module_ids") ++ toPath ": [" ++
        joinQuoted xs ++ toPath "],") = false :=
    array_line_no_key (toPath "hymofs_module_ids") (toPath "storage_mode") xs
      (toPath "],") (by decide) (by decide)
      (fun x hxm => (hx x hxm).1) (Or.inl rfl)
      (by decide) (by decide) (by decide)
      (fun hmem => hk (toPath "storage_mode") hmem (by simp))
  have hneg1 : hasSub (quoteWrap (toPath "mount_point"))
      (quoteWrap (toPath "hymofs_module_ids") ++ toPath ": [" ++
        joinQuoted xs ++ toPath "],") = false :=
    array_line_no_key (toPath "hymofs_module_ids") (toPath "mount_point") xs
      (toPath "],") (by decide) (by decide)
      (fun x hxm => (hx x hxm).1) (Or.inl rfl)
      (by decide) (by decide) (by decide)
      (fun hmem => hk (toPath "mount_point") hmem (by simp))
  have hneg2 : hasSub (quoteWrap (toPath "nuke_active"))
      (quoteWrap (toPath "hymofs_module_ids") ++ toPath ": [" ++
        joinQuoted xs ++ toPath "],") = false :=
    array_line_no_key (toPath "hymofs_module_ids") (toPath "nuke_active") xs
      (toPath "],") (by decide) (by decide)
      (fun x hxm => (hx x hxm).1) (Or.inl rfl)
      (by decide) (by decide) (by decide)
      (fun hmem => hk (toPath "nuke_active") hmem (by simp))
  have hneg3 : hasSub (quoteWrap (toPath "hymofs_mismatch"))
      (quoteWrap (toPath "hymofs_module_ids") ++ toPath ": [" ++
        joinQuoted xs ++ toPath "],") = false :=
    array_line_no_key (toPath "hymofs_module_ids") (toPath "hymofs_mismatch") xs
      (toPath "],") (by decide) (by decide)
      (fun x hxm => (hx x hxm).1) (Or.inl rfl)
      (by decide) (by decide) (by decide)
      (fun hmem => hk (toPath "hymofs_mismatch") hmem (by simp))
  have hneg4 : hasSub (quoteWrap (toPath "overlay_module_ids"))
      (quoteWrap (toPath "hymofs_module_ids") ++ toPath ": [" ++
        joinQuoted xs ++ toPath "],") = false :=
    array_line_no_key (toPath "hymofs_module_ids") (toPath "overlay_module_ids") xs
      (toPath "],") (by decide) (by decide)
      (fun x hxm => (hx x hxm).1) (Or.inl rfl)
      (by decide) (by decide) (by decide)
      (fun hmem => hk (toPath "overlay_module_ids") hmem (by simp))
  have hneg5 : hasSub (quoteWrap (toPath "magic_module_ids"))
      (quoteWrap (toPath "hymofs_module_ids") ++ toPath ": [" ++
        joinQuoted xs ++ toPath "],") = false :=
    array_line_no_key (toPath "hymofs_module_ids") (toPath "magic_module_ids") xs
      (toPath "],") (by decide) (by decide)
      (fun x hxm => (hx x hxm).1) (Or.inl rfl)
      (by decide) (by decide) (by decide)
      (fun hmem => hk (toPath "magic_module_ids") hmem (by simp))
  have hpos : hasSub (quoteWrap (toPath "hymofs_module_ids"))
      (quoteWrap (toPath "hymofs_module_ids") ++ toPath ": [" ++
        joinQuoted xs ++ toPath "],") = true := by
    have h : quoteWrap (toPath "hymofs_module_ids") ++ toPath ": [" ++
        joinQuoted xs ++ toPath "]," =
        quoteWrap (toPath "hymofs_module_ids") ++
          (toPath ": [" ++ joinQuoted xs ++ toPath "],") := by
      simp [List.append_assoc]
    rw [h]
    exact hasSub_left _ _
  unfold loadLine
  rw [hstrip]
  unfold loadLineStripped
  rw [    if_neg (by rw [hneg0]; decide),
    if_neg (by rw [hneg1]; decide),
    if_neg (by rw [hneg2]; decide),
    if_neg (by rw [hneg3]; decide),
    if_neg (by rw [hneg4]; decide),
    if_neg (by rw [hneg5]; decide),
    if_pos hpos,
    parse_array_correct (toPath "hymofs_module_ids") xs (toPath "],")
      (by decide) (by decide) hx (Or.inl rfl)]

/-- Helper: the `active_mounts` line restores the vector. -/
theorem loadLine_active (st : RuntimeState) (xs : List Path)
    (hx : ∀ x ∈ xs, dq ∉ x ∧ ',' ∉ x ∧ ']' ∉ x)
    (hk : ∀ x ∈ xs, x ∉ [toPath "storage_mode", toPath "mount_point",
      toPath "nuke_active", toPath "hymofs_mismatch",
      toPath "overlay_module_ids", toPath "magic_module_ids",
      toPath "hymofs_module_ids", toPath "active_mounts"]) :
    loadLine st (arrayLine (toPath "active_mounts") xs false) =
      { st with active_mounts := xs } := by
  have hstrip : lstripWs (arrayLine (toPath "active_mounts") xs false) =
      quoteWrap (toPath "active_mounts") ++ toPath ": [" ++
        joinQuoted xs ++ toPath "]" := by
    have h : arrayLine (toPath "active_mounts") xs false =
        toPath "  " ++ quoteWrap (toPath "active_mounts") ++
          (toPath ": [" ++ joinQuoted xs ++ toPath "]") := by
      simp [arrayLine, List.append_assoc]
    rw [h, lstripWs_line]
    simp [List.append_assoc]
  have hneg0 : hasSub (quoteWrap (toPath "storage_mode"))
      (quoteWrap (toPath "active_mounts") ++ toPath ": [" ++
        joinQuoted xs ++ toPath "]") = false :=
    array_line_no_key (toPath "active_mounts") (toPath "storage_mode") xs
      (toPath "]") (by decide) (by decide)
      (fun x hxm => (hx x hxm).1) (Or.inr rfl)
      (by decide) (by decide) (by decide)
      (fun hmem => hk (toPath "storage_mode") hmem (by simp))
  have hneg1 : hasSub (quoteWrap (toPath "mount_point"))
      (quoteWrap (toPath "active_mounts") ++ toPath ": [" ++
        joinQuoted xs ++ toPath "]") = false :=
    array_line_no_key (toPath "active_mounts") (toPath "mount_point") xs
      (toPath "]") (by decide) (by decide)
      (fun x hxm => (hx x hxm).1) (Or.inr rfl)
      (by decide) (by decide) (by decide)
      (fun hmem => hk (toPath "mount_point") hmem (by simp))
  have hneg2 : hasSub (quoteWrap (toPath "nuke_active"))
      (quoteWrap (toPath "active_mounts") ++ toPath ": [" ++
        joinQuoted xs ++ toPath "]") = false :=
    array_line_no_key (toPath "active_mounts") (toPath "nuke_active") xs
      (toPath "]") (by decide) (by decide)
      (fun x hxm => (hx x hxm).1) (Or.inr rfl)
      (by decide) (by decide) (by decide)
      (fun hmem => hk (toPath "nuke_active") hmem (by simp))
  have hneg3 : hasSub (quoteWrap (toPath "hymofs_mismatch"))
      (quoteWrap (toPath "active_mounts") ++ toPath ": [" ++
        joinQuoted xs ++ toPath "]") = false :=
    array_line_no_key (toPath "active_mounts") (toPath "hymofs_mismatch") xs
      (toPath "]") (by decide) (by decide)
      (fun x hxm => (hx x hxm).1) (Or.inr rfl)
      (by decide) (by decide) (by decide)
      (fun hmem => hk (toPath "hymofs_mismatch") hmem (by simp))
  have hneg4 : hasSub (quoteWrap (toPath "overlay_module_ids"))
      (quoteWrap (toPath "active_mounts") ++ toPath ": [" ++
        joinQuoted xs ++ toPath "]") = false :=
    array_line_no_key (toPath "active_mounts") (toPath "overlay_module_ids") xs
      (toPath "]") (by decide) (by decide)
      (fun x hxm => (hx x hxm).1) (Or.inr rfl)
      (by decide) (by decide) (by decide)
      (fun hmem => hk (toPath "overlay_module_ids") hmem (by simp))
  have hneg5 : hasSub (quoteWrap (toPath "magic_module_ids"))
      (quoteWrap (toPath "active_mounts") ++ toPath ": [" ++
        joinQuoted xs ++ toPath "]") = false :=
    array_line_no_key (toPath "active_mounts") (toPath "magic_module_ids") xs
      (toPath "]") (by decide) (by decide)
      (fun x hxm => (hx x hxm).1) (Or.inr rfl)
      (by decide) (by decide) (by decide)
      (fun hmem => hk (toPath "magic_module_ids") hmem (by simp))
  have hneg6 : hasSub (quoteWrap (toPath "hymofs_module_ids"))
      (quoteWrap (toPath "active_mounts") ++ toPath ": [" ++
        joinQuoted xs ++ toPath "]") = false :=
    array_line_no_key (toPath "active_mounts") (toPath "hymofs_module_ids") xs
      (toPath "]") (by decide) (by decide)
      (fun x hxm => (hx x hxm).1) (Or.inr rfl)
      (by decide) (by decide) (by decide)
      (fun hmem => hk (toPath "hymofs_module_ids") hmem (by simp))
  have hpos : hasSub (quoteWrap (toPath "active_mounts"))
      (quoteWrap (toPath "active_mounts") ++ toPath ": [" ++
        joinQuoted xs ++ toPath "]") = true := by
    have h : quoteWrap (toPath "active_mounts") ++ toPath ": [" ++
        joinQuoted xs ++ toPath "]" =
        quoteWrap (toPath "active_mounts") ++
          (toPath ": [" ++ joinQuoted xs ++ toPath "]") := by
      simp [List.append_assoc]
    rw [h]
    exact hasSub_left _ _
  unfold loadLine
  rw [hstrip]
  unfold loadLineStripped
  rw [    if_neg (by rw [hneg0]; decide),
    if_neg (by rw [hneg1]; decide),
    if_neg (by rw [hneg2]; decide),
    if_neg (by rw [hneg3]; decide),
    if_neg (by rw [hneg4]; decide),
    if_neg (by rw [hneg5]; decide),
    if_neg (by rw [hneg6]; decide),
    if_pos hpos,
    parse_array_correct (toPath "active_mounts") xs (toPath "]")
      (by decide) (by decide) hx (Or.inr rfl)]

/-- Helper: `getline` splits off a newline-free head line. -/
theorem linesOf_append : ∀ (l rest : Path), '\n' ∉ l →
    linesOf (l ++ '\n' :: rest) = l :: linesOf rest := by
  intro l
  induction l with
  | nil =>
    intro rest _
    simp [linesOf]
  | cons c t ih =>
    intro rest hc
    have hcne : ¬ c = '\n' :=
      fun he => hc (by rw [← he]; exact List.mem_cons_self c t)
    simp only [List.cons_append, List.append_eq, linesOf]
    rw [if_neg hcne, ih rest (fun h => hc (List.mem_cons_of_mem c h))]
    rfl

/-- Helper: reading back a newline-joined file recovers its lines. -/
theorem linesOf_unlines : ∀ ls : List Path, (∀ l ∈ ls, '\n' ∉ l) →
    linesOf (unlines ls) = ls := by
  intro ls
  induction ls with
  | nil =>
    intro _
    rfl
  | cons l ls' ih =>
    intro h
    simp only [unlines]
    rw [linesOf_append l _ (h l (by simp)),
      ih (fun x hx => h x (List.mem_cons_of_mem l hx))]

/-- Helper: a scalar line contains no newline when its parts do not. -/
theorem nl_not_mem_scalarLine (key v : Path) (hk : '\n' ∉ key)
    (hv : '\n' ∉ v) : '\n' ∉ scalarLine key v := by
  intro h
  rcases List.mem_append.mp h with h1 | h1
  · rcases List.mem_append.mp h1 with h2 | h2
    · rcases List.mem_append.mp h2 with h3 | h3
      · rcases List.mem_append.mp h3 with h4 | h4
        · exact absurd h4 (by decide)
        · rcases List.mem_cons.mp h4 with h5 | h5
          · exact absurd h5 (by decide)
          · rcases List.mem_append.mp h5 with h6 | h6
            · exact hk h6
            · exact absurd (List.mem_singleton.mp h6) (by decide)
      · exact absurd h3 (by decide)
    · rcases List.mem_cons.mp h2 with h5 | h5
      · exact absurd h5 (by decide)
      · rcases List.mem_append.mp h5 with h6 | h6
        · exact hv h6
        · exact absurd (List.mem_singleton.mp h6) (by decide)
  · exact absurd h1 (by decide)

/-- Helper: an array line contains no newline when its parts do not. -/
theorem nl_not_mem_arrayLine (key : Path) (xs : List Path)
    (comma : Bool) (hk : '\n' ∉ key) (hx : ∀ x ∈ xs, '\n' ∉ x) :
    '\n' ∉ arrayLine key xs comma := by
  intro h
  rcases List.mem_append.mp h with h1 | h1
  · rcases List.mem_append.mp h1 with h2 | h2
    · rcases List.mem_append.mp h2 with h3 | h3
      · rcases List.mem_append.mp h3 with h4 | h4
        · exact absurd h4 (by decide)
        · rcases List.mem_cons.mp h4 with h5 | h5
          · exact absurd h5 (by decide)
          · rcases List.mem_append.mp h5 with h6 | h6
            · exact hk h6
            · exact absurd (List.mem_singleton.mp h6) (by decide)
      · exact absurd h3 (by decide)
    · exact not_mem_joinQuoted '\n' (by decide) (by decide) (by decide)
        xs hx h2
  · cases comma
    · exact absurd h1 (by decide)
    · exact absurd h1 (by decide)

/-- C10 — state round-trip (amended): `save` followed by
`load_runtime_state` restores `storage_mode`, `mount_point`,
`nuke_active`, `hymofs_mismatch` and the four id/mount vectors, and
never restores `mismatch_message` (the loader has no branch for it), PROVIDED
that, beyond the claimed absence of double quotes, backslashes and
newlines, the vector elements also contain no comma and no closing
bracket (the line parser splits on `,` and truncates at the first `]`),
and that no scalar value or element is exactly one of the eight loader
key names (the loader dispatches each line on a quoted-substring test,
in a fixed order, so a quoted value equal to an earlier key name
hijacks the line).  Backslashes are in fact harmless: both `save` and
the loader copy bytes verbatim, so they are not excluded here. -/
theorem C10_state_roundtrip (st : RuntimeState)
    (hsm : dq ∉ st.storage_mode ∧ '\n' ∉ st.storage_mode)
    (hmp : dq ∉ st.mount_point ∧ '\n' ∉ st.mount_point)
    (hmsg : dq ∉ st.mismatch_message ∧ '\n' ∉ st.mismatch_message)
    (helem : ∀ v ∈ st.overlay_module_ids ++ st.magic_module_ids ++
      st.hymofs_module_ids ++ st.active_mounts,
      dq ∉ v ∧ '\n' ∉ v ∧ ',' ∉ v ∧ ']' ∉ v)
    (hkey : ∀ v, (v = st.mount_point ∨ v = st.mismatch_message ∨
        v ∈ st.overlay_module_ids ++ st.magic_module_ids ++
          st.hymofs_module_ids ++ st.active_mounts) →
      v ∉ [toPath "storage_mode", toPath "mount_point",
        toPath "nuke_active", toPath "hymofs_mismatch",
        toPath "overlay_module_ids", toPath "magic_module_ids",
        toPath "hymofs_module_ids", toPath "active_mounts"]) :
    load_runtime_state (save st) =
      { st with mismatch_message := [] } := by
  have hoverlay := fun x (hx2 : x ∈ st.overlay_module_ids) =>
    helem x (by simp [hx2])
  have hmagic := fun x (hx2 : x ∈ st.magic_module_ids) =>
    helem x (by simp [hx2])
  have hhymo := fun x (hx2 : x ∈ st.hymofs_module_ids) =>
    helem x (by simp [hx2])
  have hactive := fun x (hx2 : x ∈ st.active_mounts) =>
    helem x (by simp [hx2])
  have hkov := fun x (hx2 : x ∈ st.overlay_module_ids) =>
    hkey x (Or.inr (Or.inr (by simp [hx2])))
  have hkmg := fun x (hx2 : x ∈ st.magic_module_ids) =>
    hkey x (Or.inr (Or.inr (by simp [hx2])))
  have hkhy := fun x (hx2 : x ∈ st.hymofs_module_ids) =>
    hkey x (Or.inr (Or.inr (by simp [hx2])))
  have hkac := fun x (hx2 : x ∈ st.active_mounts) =>
    hkey x (Or.inr (Or.inr (by simp [hx2])))
  have hnl : ∀ l ∈ saveLines st, '\n' ∉ l := by
    intro l hl
    simp only [saveLines, List.mem_cons, List.not_mem_nil,
      or_false] at hl
    rcases hl with rfl | rfl | rfl | rfl | rfl | rfl | rfl | rfl |
      rfl | rfl | rfl
    · decide
    · exact nl_not_mem_scalarLine _ _ (by decide) hsm.2
    · exact nl_not_mem_scalarLine _ _ (by decide) hmp.2
    · cases st.nuke_active <;> decide
    · cases st.hymofs_mismatch <;> decide
    · exact nl_not_mem_scalarLine _ _ (by decide) hmsg.2
    · exact nl_not_mem_arrayLine _ _ _ (by decide)
        (fun x hx2 => (hoverlay x hx2).2.1)
    · exact nl_not_mem_arrayLine _ _ _ (by decide)
        (fun x hx2 => (hmagic x hx2).2.1)
    · exact nl_not_mem_arrayLine _ _ _ (by decide)
        (fun x hx2 => (hhymo x hx2).2.1)
    · exact nl_not_mem_arrayLine _ _ _ (by decide)
        (fun x hx2 => (hactive x hx2).2.1)
    · decide
  unfold load_runtime_state save
  rw [linesOf_unlines (saveLines st) hnl]
  simp only [saveLines, List.foldl_cons, List.foldl_nil]
  rw [loadLine_brace,
    loadLine_storage _ _ hsm.1,
    loadLine_mount _ _ hmp.1
      (fun he => hkey st.mount_point (Or.inl rfl)
        (by rw [he]; decide)),
    loadLine_nuke,
    loadLine_mismatch_flag,
    loadLine_mismatch_msg _ _ hmsg.1
      (hkey st.mismatch_message (Or.inr (Or.inl rfl))),
    loadLine_overlay _ _
      (fun x hx2 => ⟨(hoverlay x hx2).1, (hoverlay x hx2).2.2.1,
        (hoverlay x hx2).2.2.2⟩) hkov,
    loadLine_magic _ _
      (fun x hx2 => ⟨(hmagic x hx2).1, (hmagic x hx2).2.2.1,
        (hmagic x hx2).2.2.2⟩) hkmg,
    loadLine_hymofs _ _
      (fun x hx2 => ⟨(hhymo x hx2).1, (hhymo x hx2).2.2.1,
        (hhymo x hx2).2.2.2⟩) hkhy,
    loadLine_active _ _
      (fun x hx2 => ⟨(hactive x hx2).1, (hactive x hx2).2.2.1,
        (hactive x hx2).2.2.2⟩) hkac,
    loadLine_rbrace]
  rfl

/-- Witness for C10: the amended round-trip applied to a concrete
populated state, discharging every hypothesis there. -/
theorem C10_state_roundtrip_witness :
    load_runtime_state (save (RuntimeState.mk (toPath "ext4")
      (toPath "/mnt/x") [toPath "modA", toPath "modB"] [toPath "m1"]
      [] [toPath "/system"] true false (toPath "boom"))) =
      { RuntimeState.mk (toPath "ext4") (toPath "/mnt/x")
          [toPath "modA", toPath "modB"] [toPath "m1"] []
          [toPath "/system"] true false (toPath "boom") with
        mismatch_message := [] } := by
  exact C10_state_roundtrip _ (by decide) (by decide) (by decide)
    (by decide)
    (by
      intro v h
      rcases h with rfl | rfl | hmem
      · decide
      · decide
      · simp only [List.append_assoc, List.mem_append, List.mem_cons,
          List.not_mem_nil, or_false, false_or,
          List.mem_singleton] at hmem
        rcases hmem with (rfl | rfl) | rfl | rfl <;> decide)

end Hymo
